import Mathlib

/-!
IPL / JSImpl lexer: a shallow embedding of `src/JSImpl/src/Lexer.cpp`.

The C++ class `Tokenizer` scans a NUL-terminated buffer `m_Code` with a cursor
`m_Current` and a line counter `m_Line`.  The embedding keeps the two mutable
members in a record that every member function receives and returns; the
read-only members (`m_Code`, `m_KeyWordsTable`) are ordinary arguments and
constants.

Conventions of the embedding.

* The buffer behind `m_Code` is `code ++ [NUL]` for a `code : List Char`:
  offsets `0 .. code.length - 1` hold the characters of the source, offset
  `code.length` holds the terminator, and every larger offset lies outside the
  buffer.  A read outside the buffer is undefined behaviour in C++; here it is
  the fault `Fault.outOfBounds`.
* `unsigned` members are natural numbers.  The embedding describes sources
  shorter than `UINT_MAX` characters, for which no `unsigned` increment wraps.
* A C++ loop is a function by recursion on a step budget.  All budgets are
  `fuelFor code`; running out of budget is the fault `Fault.outOfFuel`, and
  `Tokenize_fuel_adequate` shows that `Tokenize` never reports it.
* A `double` is the rational number it holds.  `std::stod` returns the binary64
  number nearest to the number the literal denotes, ties going to the even
  significand (`toDouble`), as the correctly rounding `strtod` of the C library
  does in the default rounding mode.
* A `char` is a `Char`.  The code compares characters with ASCII characters
  only, and a character beyond ASCII fails each of these comparisons, as a byte
  above 127 does.
-/

namespace IPL

/-- Modelled from the spec: the enumeration `TokenType` is declared in `Lexer.h`,
which is not part of the source tree at hand.  The enumerators are the ones
`Lexer.cpp` and `main.cpp` name: structural punctuation, operators, the three
literal kinds, the 33 keywords and the end-of-input sentinel. -/
inductive TokenType
  | LeftParen | RightParen | LeftBrace | RightBrace | Comma | Dot | Minums | Plus
  | Semicolon | Star | Equal | EqualEqual | Bang | BangEqual | Greater | GreaterEqual
  | Less | LessEqual | Number | String | Identifier
  | Break | Case | Catch | Class | Const | Continue | Debugger | Default | Delete | Do
  | Else | Export | Extends | Finally | For | Function | If | Import | In | Instanceof
  | New | Return | Super | Switch | This | Throw | Try | Typeof | Var | Void | While
  | With | Yield
  | Eof
  deriving DecidableEq, Repr

/-- Modelled from the spec: the record `Token` is declared in `Lexer.h`, which is
not part of the source tree at hand.  Its members, in the order the braced
initialisers of `Lexer.cpp` give them, are the kind (`Type` in C++, a reserved
word here), the line, the lexeme and the literal value, which the spec calls
"present only for Number tokens". -/
structure Token where
  Type_ : TokenType
  Line : Nat
  Lexeme : String
  Number : Option ℚ
  deriving DecidableEq, Repr

/-- The ways a run of the C++ code can fail to return a token stream. -/
inductive Fault
  /-- A read of `m_Code[i]` beyond the terminator of the buffer. -/
  | outOfBounds
  /-- The exception `std::out_of_range` of `std::stod`. -/
  | outOfRange
  /-- The exception `std::invalid_argument` of `std::stod`. -/
  | invalidArgument
  /-- The step budget of a loop of the embedding ran out. -/
  | outOfFuel
  deriving DecidableEq, Repr

deriving instance DecidableEq for Except

/-- The mutable members of `class Tokenizer`. -/
structure Tokenizer where
  m_Line : Nat
  m_Current : Nat
  deriving DecidableEq, Repr

/-- The terminator of a C string. -/
def NUL : Char := Char.ofNat 0

/-- The read `m_Code[i]`. -/
def charAt (code : List Char) (i : Nat) : Except Fault Char :=
  if i ≤ code.length then .ok (code.getD i NUL) else .error .outOfBounds

/-- The step budget handed to every loop: one more than the number of offsets
of the buffer. -/
def fuelFor (code : List Char) : Nat := code.length + 2

/-- The statement `m_Current++`. -/
def Tokenizer.advance (t : Tokenizer) : Tokenizer :=
  { t with m_Current := t.m_Current + 1 }

/-- The table the constructor `Tokenizer::Tokenizer` fills, in insertion order.
The keys are pairwise distinct, so a lookup of the association list is
`m_KeyWordsTable.find`. -/
def m_KeyWordsTable : List (String × TokenType) :=
  [ ("break", .Break), ("case", .Case), ("catch", .Catch), ("class", .Class),
    ("const", .Const), ("continue", .Continue), ("debugger", .Debugger),
    ("default", .Default), ("delete", .Delete), ("do", .Do), ("else", .Else),
    ("export", .Export), ("extends", .Extends), ("finally", .Finally), ("for", .For),
    ("function", .Function), ("if", .If), ("import", .Import), ("in", .In),
    ("instanceof", .Instanceof), ("new", .New), ("return", .Return), ("super", .Super),
    ("switch", .Switch), ("this", .This), ("throw", .Throw), ("try", .Try),
    ("typeof", .Typeof), ("var", .Var), ("void", .Void), ("while", .While),
    ("with", .With), ("yield", .Yield) ]

/-- The state the constructor leaves: `m_Line(0)`, `m_Current(0)`. -/
def Tokenizer.init : Tokenizer := { m_Line := 0, m_Current := 0 }

/-- The loop of `SkipWhiteSpaces`: `while (m_Code[m_Current] == ' ' || ... == '\t')`. -/
def SkipWhiteSpacesLoop (code : List Char) : Nat → Tokenizer → Except Fault Tokenizer
  | 0, _ => .error .outOfFuel
  | fuel + 1, t => do
    let c ← charAt code t.m_Current
    if c = ' ' ∨ c = '\t' then SkipWhiteSpacesLoop code fuel t.advance else pure t

/-- `Tokenizer::SkipWhiteSpaces`: the flag says whether the cursor moved. -/
def SkipWhiteSpaces (code : List Char) (t : Tokenizer) : Except Fault (Bool × Tokenizer) := do
  let old := t.m_Current
  let t1 ← SkipWhiteSpacesLoop code (fuelFor code) t
  pure (old != t1.m_Current, t1)

/-- The loop of `SkipNewLine`: `while (m_Code[m_Current] == '\n')`, with its two
increments. -/
def SkipNewLineLoop (code : List Char) : Nat → Tokenizer → Except Fault Tokenizer
  | 0, _ => .error .outOfFuel
  | fuel + 1, t => do
    let c ← charAt code t.m_Current
    if c = '\n' then
      SkipNewLineLoop code fuel { m_Line := t.m_Line + 1, m_Current := t.m_Current + 1 }
    else pure t

/-- `Tokenizer::SkipNewLine`: the flag says whether the cursor moved. -/
def SkipNewLine (code : List Char) (t : Tokenizer) : Except Fault (Bool × Tokenizer) := do
  let old := t.m_Current
  let t1 ← SkipNewLineLoop code (fuelFor code) t
  pure (old != t1.m_Current, t1)

/-- The statement `while (SkipWhiteSpaces() || SkipNewLine());` of `NextToken`:
`SkipNewLine` runs only when `SkipWhiteSpaces` returned false, and the loop is
left when both did. -/
def SkipTriviaLoop (code : List Char) : Nat → Tokenizer → Except Fault Tokenizer
  | 0, _ => .error .outOfFuel
  | fuel + 1, t => do
    let r1 ← SkipWhiteSpaces code t
    if r1.1 then SkipTriviaLoop code fuel r1.2 else do
      let r2 ← SkipNewLine code r1.2
      if r2.1 then SkipTriviaLoop code fuel r2.2 else pure r2.2

/-- `Tokenizer::Match`. -/
def Match (code : List Char) (c : Char) (t : Tokenizer) : Except Fault (Bool × Tokenizer) := do
  let d ← charAt code t.m_Current
  if c = d then pure (true, t.advance) else pure (false, t)

/-- `Tokenizer::ProduceToken(TokenType)`. -/
def ProduceToken (t : Tokenizer) (type : TokenType) : Token :=
  { Type_ := type, Line := t.m_Line, Lexeme := "", Number := none }

/-- The string `IPLString(m_Code + first, m_Code + last)`. -/
def slice (code : List Char) (first last : Nat) : String :=
  String.mk ((code.drop first).take (last - first))

/-- The loop of the string scanner: `while (m_Code[m_Current] != '"') ++m_Current;`. -/
def StringLoop (code : List Char) : Nat → Tokenizer → Except Fault Tokenizer
  | 0, _ => .error .outOfFuel
  | fuel + 1, t => do
    let c ← charAt code t.m_Current
    if c ≠ '"' then StringLoop code fuel t.advance else pure t

/-- The loop of the word scanner:
`while (m_Code[m_Current] >= 'a' && m_Code[m_Current] <= 'z') ++m_Current;`. -/
def WordLoop (code : List Char) : Nat → Tokenizer → Except Fault Tokenizer
  | 0, _ => .error .outOfFuel
  | fuel + 1, t => do
    let c ← charAt code t.m_Current
    if 'a' ≤ c ∧ c ≤ 'z' then WordLoop code fuel t.advance else pure t

/-! ### The library call `std::stod`

`std::stod(m_Code + m_Current, &parsedBytes)` builds a `std::string` from the
C string at the cursor and converts its longest prefix that is a floating
literal (the subject sequence of `strtod` in the "C" locale): optional white
space, an optional sign, then either `0x`/`0X` with hexadecimal digits, an
optional radix point and an optional binary exponent, or decimal digits with
an optional radix point and an optional decimal exponent.  The forms `inf` and
`nan`, which no text starting with a digit can take, are outside the model. -/

/-- The C predicate `isspace` in the "C" locale. -/
def isSpace (c : Char) : Bool :=
  c = ' ' || c = '\t' || c = '\n' || c = Char.ofNat 11 || c = Char.ofNat 12 || c = '\r'

/-- The decimal digits `0` to `9`. -/
def decDigit (c : Char) : Bool := decide ('0' ≤ c) && decide (c ≤ '9')

/-- The hexadecimal digits. -/
def hexDigit (c : Char) : Bool :=
  decDigit c || (decide ('a' ≤ c) && decide (c ≤ 'f')) || (decide ('A' ≤ c) && decide (c ≤ 'F'))

/-- The value of one (hexa)decimal digit. -/
def digitValue (c : Char) : Nat :=
  if decDigit c then c.toNat - 48
  else if 'a' ≤ c ∧ c ≤ 'f' then c.toNat - 87
  else c.toNat - 55

/-- The number a digit string writes in the given base. -/
def digitsValue (base : Nat) (ds : List Char) : Nat :=
  ds.foldl (fun acc c => acc * base + digitValue c) 0

/-- The digits of a literal: those before the radix point, whether a radix point
was read, and the digits after it. -/
structure Mantissa where
  intPart : List Char
  dot : Bool
  fracPart : List Char

/-- The longest `digits [. digits]` prefix of a text. -/
def scanMantissa (isDigit : Char → Bool) (s : List Char) : Mantissa :=
  if (s.dropWhile isDigit).head? = some '.' then
    ⟨s.takeWhile isDigit, true, (s.dropWhile isDigit).tail.takeWhile isDigit⟩
  else ⟨s.takeWhile isDigit, false, []⟩

/-- The number of characters of a mantissa. -/
def Mantissa.length (m : Mantissa) : Nat :=
  m.intPart.length + (if m.dot then 1 else 0) + m.fracPart.length

/-- A mantissa must hold at least one digit. -/
def Mantissa.hasDigits (m : Mantissa) : Bool :=
  !(m.intPart.isEmpty && m.fracPart.isEmpty)

/-- The digits of an exponent, read after its marker and sign took `taken`
characters: the value and the number of characters of the whole exponent part,
or `(0, 0)` when no digit follows. -/
def exponentDigits (neg : Bool) (taken : Nat) (s : List Char) : Int × Nat :=
  if (s.takeWhile decDigit).isEmpty then (0, 0)
  else (if neg then - (digitsValue 10 (s.takeWhile decDigit) : Int)
        else (digitsValue 10 (s.takeWhile decDigit) : Int),
        taken + (s.takeWhile decDigit).length)

/-- The optional exponent part `e [sign] digits` (markers `e`/`E` or `p`/`P`):
its value and the number of characters it takes; `(0, 0)` when the text does
not continue with a complete exponent. -/
def scanExponent (lower upper : Char) (s : List Char) : Int × Nat :=
  if s.head? = some lower ∨ s.head? = some upper then
    if s.tail.head? = some '-' then exponentDigits true 2 s.tail.tail
    else if s.tail.head? = some '+' then exponentDigits false 2 s.tail.tail
    else exponentDigits false 1 s.tail
  else (0, 0)

/-- The rational `m * expBase ^ e / base ^ fracLen`. -/
def scaled (m base fracLen expBase : Nat) (e : Int) : ℚ :=
  mkRat (m * expBase ^ e.toNat) (base ^ fracLen * expBase ^ (-e).toNat)

/-- The range check behind `std::out_of_range`: `strtod` reports `ERANGE` when
the value rounds to infinity (it is at least `2^1024 - 2^970`) or underflows
(it is not zero and lies below the least positive normal number `2^-1022`;
reporting underflow is implementation-defined, the model takes the reading in
which it is reported).  The powers of two are written as shifts of 1. -/
def inDoubleRange (q : ℚ) : Bool :=
  decide (q.num.natAbs < ((1 <<< 1024) - (1 <<< 970)) * q.den) &&
    (decide (q.num = 0) || decide (q.den ≤ q.num.natAbs * (1 <<< 1022)))

/-- The number of binary digits of `n`, by halving `n` at most `fuel` times. -/
def binaryDigitsLoop : Nat → Nat → Nat
  | 0, _ => 0
  | fuel + 1, n => if n = 0 then 0 else binaryDigitsLoop fuel (n / 2) + 1

/-- The number of binary digits of `n`: `0` for `0`, and otherwise the `b` with
`2^(b-1) ≤ n < 2^b`. -/
def binaryDigits (n : Nat) : Nat := binaryDigitsLoop n n

/-- The exponent of the last binary digit binary64 keeps of the positive
rational `n / d`: with `2^f ≤ n / d < 2^(f+1)` it is `f - 52`, for a significand
of 53 binary digits, and never below `-1074`, the exponent of the least
subnormal number. -/
def ulpExponent (n d : Nat) : Int :=
  max ((if d <<< ((binaryDigits n : Int) - (binaryDigits d : Int)).toNat
          ≤ n <<< ((binaryDigits d : Int) - (binaryDigits n : Int)).toNat
        then (binaryDigits n : Int) - (binaryDigits d : Int)
        else (binaryDigits n : Int) - (binaryDigits d : Int) - 1) - 52) (-1074)

/-- The integer nearest to `n / d`; of two nearest integers the even one. -/
def roundHalfEven (n d : Nat) : Nat :=
  if 2 * (n % d) < d then n / d
  else if d < 2 * (n % d) then n / d + 1
  else n / d + (n / d) % 2

/-- The binary64 number nearest to the magnitude of `q`, ties to the even
significand: with `e = ulpExponent` of `q`, the multiple of `2^e` nearest to
`q`.  This is the rounding of `strtod` in the default rounding mode. -/
def toDouble (q : ℚ) : ℚ :=
  mkRat
    (roundHalfEven (q.num.natAbs <<< (- ulpExponent q.num.natAbs q.den).toNat)
        (q.den <<< (ulpExponent q.num.natAbs q.den).toNat)
      <<< (ulpExponent q.num.natAbs q.den).toNat)
    (1 <<< (- ulpExponent q.num.natAbs q.den).toNat)

/-- The end of `std::stod` for a literal that denotes the magnitude `q`: the
range is checked, the magnitude rounded to binary64 and the sign applied. -/
def stodResult (neg : Bool) (q : ℚ) (parsed : Nat) : Except Fault (ℚ × Nat) :=
  if inDoubleRange q then .ok (if neg then -(toDouble q) else toDouble q, parsed)
  else .error .outOfRange

/-- The conversion of a hexadecimal literal whose `0x` is followed by `r`. -/
def stodHex (neg : Bool) (skipped : Nat) (r : List Char) : Except Fault (ℚ × Nat) :=
  stodResult neg
    (scaled (digitsValue 16 ((scanMantissa hexDigit r).intPart ++ (scanMantissa hexDigit r).fracPart))
      16 (scanMantissa hexDigit r).fracPart.length 2
      (scanExponent 'p' 'P' (r.drop (scanMantissa hexDigit r).length)).1)
    (skipped + 2 + (scanMantissa hexDigit r).length
      + (scanExponent 'p' 'P' (r.drop (scanMantissa hexDigit r).length)).2)

/-- The conversion of a decimal literal. -/
def stodDecimal (neg : Bool) (skipped : Nat) (s : List Char) : Except Fault (ℚ × Nat) :=
  if (scanMantissa decDigit s).hasDigits then
    stodResult neg
      (scaled (digitsValue 10 ((scanMantissa decDigit s).intPart ++ (scanMantissa decDigit s).fracPart))
        10 (scanMantissa decDigit s).fracPart.length 10
        (scanExponent 'e' 'E' (s.drop (scanMantissa decDigit s).length)).1)
      (skipped + (scanMantissa decDigit s).length
        + (scanExponent 'e' 'E' (s.drop (scanMantissa decDigit s).length)).2)
  else .error .invalidArgument

/-- The conversion of an unsigned literal, after white space and sign took
`skipped` characters: hexadecimal when `0x` or `0X` is followed by at least one
hexadecimal digit, decimal otherwise. -/
def stodUnsigned (neg : Bool) (skipped : Nat) (s : List Char) : Except Fault (ℚ × Nat) :=
  if s.head? = some '0' ∧ (s.tail.head? = some 'x' ∨ s.tail.head? = some 'X') ∧
      (scanMantissa hexDigit s.tail.tail).hasDigits = true then
    stodHex neg skipped s.tail.tail
  else stodDecimal neg skipped s

/-- The call `std::stod(str, &parsedBytes)` on the text `s`: the value and the
number of characters converted, or the exception thrown. -/
def stod (s : List Char) : Except Fault (ℚ × Nat) :=
  if (s.dropWhile isSpace).head? = some '-' then
    stodUnsigned true ((s.takeWhile isSpace).length + 1) (s.dropWhile isSpace).tail
  else if (s.dropWhile isSpace).head? = some '+' then
    stodUnsigned false ((s.takeWhile isSpace).length + 1) (s.dropWhile isSpace).tail
  else stodUnsigned false (s.takeWhile isSpace).length (s.dropWhile isSpace)

/-- The C string at `m_Code + i`: the characters from offset `i` up to the first
terminator. -/
def cstrAt (code : List Char) (i : Nat) : List Char :=
  (code.drop i).takeWhile (fun c => c != NUL)

/-! ### `Tokenizer::NextToken` and `Tokenizer::Tokenize` -/

/-- The `Eof` token of the first statement of `NextToken`:
`return Token{ TokenType::Eof, 0, "" };`. -/
def eofAtTerminator : Token := { Type_ := .Eof, Line := 0, Lexeme := "", Number := none }

/-- The final statement of `NextToken`: `return Token{ TokenType::Eof, m_Line, "" };`. -/
def eofAtLine (t : Tokenizer) : Token :=
  { Type_ := .Eof, Line := t.m_Line, Lexeme := "", Number := none }

/-- The arm `m_Current++; return Match('=') ? ProduceToken(two) : ProduceToken(one);`
of the switch. -/
def matchEqual (code : List Char) (t : Tokenizer) (two one : TokenType) :
    Except Fault (Token × Tokenizer) := do
  let r ← Match code '=' t.advance
  if r.1 then pure (ProduceToken r.2 two, r.2) else pure (ProduceToken r.2 one, r.2)

/-- The part of `NextToken` after the switch: number, string, word, and the
final fall-through to an `Eof` token. -/
def scanLiteral (code : List Char) (t : Tokenizer) (c : Char) :
    Except Fault (Token × Tokenizer) :=
  if '0' ≤ c ∧ c < '9' then do
    let r ← stod (cstrAt code t.m_Current)
    let t1 : Tokenizer := { t with m_Current := t.m_Current + r.2 }
    pure ({ Type_ := .Number, Line := t1.m_Line, Lexeme := "", Number := some r.1 }, t1)
  else if c = '"' then do
    let start := t.m_Current
    let t1 ← StringLoop code (fuelFor code) t.advance
    let t2 := t1.advance
    pure ({ Type_ := .String, Line := t2.m_Line, Lexeme := slice code start t2.m_Current,
            Number := none }, t2)
  else if 'a' ≤ c ∧ c ≤ 'z' then do
    let start := t.m_Current
    let t1 ← WordLoop code (fuelFor code) t.advance
    let key := slice code start t1.m_Current
    match m_KeyWordsTable.lookup key with
    | some type => pure ({ Type_ := type, Line := t1.m_Line, Lexeme := key, Number := none }, t1)
    | none => pure (eofAtLine t1, t1)
  else pure (eofAtLine t, t)

/-- The switch of `NextToken` on the character at the cursor, followed by the
literal scanners in its `default` arm. -/
def scanToken (code : List Char) (t : Tokenizer) (c : Char) :
    Except Fault (Token × Tokenizer) :=
  if c = '(' then pure (ProduceToken t.advance .LeftParen, t.advance)
  else if c = ')' then pure (ProduceToken t.advance .RightParen, t.advance)
  else if c = '{' then pure (ProduceToken t.advance .LeftBrace, t.advance)
  else if c = '}' then pure (ProduceToken t.advance .RightBrace, t.advance)
  else if c = ',' then pure (ProduceToken t.advance .Comma, t.advance)
  else if c = '.' then pure (ProduceToken t.advance .Dot, t.advance)
  else if c = '-' then pure (ProduceToken t.advance .Minums, t.advance)
  else if c = '+' then pure (ProduceToken t.advance .Plus, t.advance)
  else if c = ';' then pure (ProduceToken t.advance .Semicolon, t.advance)
  else if c = '*' then pure (ProduceToken t.advance .Star, t.advance)
  else if c = '=' then matchEqual code t .EqualEqual .Equal
  else if c = '!' then matchEqual code t .BangEqual .Bang
  else if c = '>' then matchEqual code t .GreaterEqual .Greater
  else if c = '<' then matchEqual code t .LessEqual .Less
  else scanLiteral code t c

/-- `Tokenizer::NextToken`: the token and the state after it. -/
def NextToken (code : List Char) (t : Tokenizer) : Except Fault (Token × Tokenizer) := do
  let c0 ← charAt code t.m_Current
  if c0 = NUL then pure (eofAtTerminator, t)
  else do
    let t1 ← SkipTriviaLoop code (fuelFor code) t
    let c ← charAt code t1.m_Current
    scanToken code t1 c

/-- The loop of `Tokenize`: `do { result.push_back(NextToken()); } while
(result.back().Type != TokenType::Eof);`, returning the tokens pushed from this
iteration on. -/
def TokenizeLoop (code : List Char) : Nat → Tokenizer → Except Fault (List Token)
  | 0, _ => .error .outOfFuel
  | fuel + 1, t => do
    let r ← NextToken code t
    if r.1.Type_ ≠ .Eof then do
      let rest ← TokenizeLoop code fuel r.2
      pure (r.1 :: rest)
    else pure [r.1]

/-- The free function `Tokenize(code, onError)`: a `Tokenizer` is constructed and
its `Tokenize` run.  The callback `onError` is stored and never called, so it
is not an argument here. -/
def Tokenize (code : List Char) : Except Fault (List Token) :=
  TokenizeLoop code (fuelFor code) Tokenizer.init

/-- The fourteen one-character symbols with the kind the switch of `NextToken`
gives each when no `=` follows. -/
def symbolKinds : List (Char × TokenType) :=
  [ ('(', .LeftParen), (')', .RightParen), ('{', .LeftBrace), ('}', .RightBrace),
    (',', .Comma), ('.', .Dot), ('-', .Minums), ('+', .Plus), (';', .Semicolon),
    ('*', .Star), ('=', .Equal), ('!', .Bang), ('>', .Greater), ('<', .Less) ]

/-- The four symbols that look one character ahead, each with its one-character
kind and the kind it takes together with a following `=`. -/
def lookaheadKinds : List (Char × TokenType × TokenType) :=
  [ ('=', .Equal, .EqualEqual), ('!', .Bang, .BangEqual),
    ('>', .Greater, .GreaterEqual), ('<', .Less, .LessEqual) ]

/-! ### Auxiliary notions used to state and prove the properties -/

/-- The common shape of the cursor loops `while (p(m_Code[m_Current])) ++m_Current;`. -/
def scanLoop (p : Char → Bool) (code : List Char) : Nat → Tokenizer → Except Fault Tokenizer
  | 0, _ => .error .outOfFuel
  | fuel + 1, t => do
    let c ← charAt code t.m_Current
    if p c then scanLoop p code fuel t.advance else pure t

/-- The condition of the loop of `SkipWhiteSpaces`. -/
def isBlank (c : Char) : Bool := c = ' ' || c = '\t'

/-- The condition of the loop of `SkipNewLine`. -/
def isNewLine (c : Char) : Bool := c = '\n'

/-- The characters the statement `while (SkipWhiteSpaces() || SkipNewLine());` skips. -/
def isTrivia (c : Char) : Bool := c = ' ' || c = '\t' || c = '\n'

/-- The condition of the loop of the string scanner. -/
def notQuote (c : Char) : Bool := c != '"'

/-- The condition of the loop of the word scanner. -/
def isLower (c : Char) : Bool := decide ('a' ≤ c) && decide (c ≤ 'z')

/-- The number of newline characters of a text. -/
def newlines (s : List Char) : Nat := s.count '\n'

/-- The offset at which the token of the next `NextToken` call begins: the
cursor itself at the terminator, otherwise the cursor after the statement
`while (SkipWhiteSpaces() || SkipNewLine());`. -/
def tokenStart (code : List Char) (t : Tokenizer) : Except Fault Nat := do
  let c0 ← charAt code t.m_Current
  if c0 = NUL then pure t.m_Current
  else do
    let t1 ← SkipTriviaLoop code (fuelFor code) t
    pure t1.m_Current

/-- The loop of `Tokenize`, with every token paired with the offset at which it
begins. -/
def TokenStartsLoop (code : List Char) : Nat → Tokenizer → Except Fault (List (Nat × Token))
  | 0, _ => .error .outOfFuel
  | fuel + 1, t => do
    let s ← tokenStart code t
    let r ← NextToken code t
    if r.1.Type_ ≠ .Eof then do
      let rest ← TokenStartsLoop code fuel r.2
      pure ((s, r.1) :: rest)
    else pure [(s, r.1)]

/-- The stream of `Tokenize`, with every token paired with the offset at which
it begins. -/
def TokenStarts (code : List Char) : Except Fault (List (Nat × Token)) :=
  TokenStartsLoop code (fuelFor code) Tokenizer.init

/-- The first `n` characters of the text `s` exist and none of them is a newline. -/
def NewlineFree (s : List Char) (n : Nat) : Prop :=
  n ≤ s.length ∧ newlines (s.take n) = 0

/-- The number of newline characters inside the lexemes of a run of tokens. -/
def lexemeNewlines (ts : List Token) : Nat :=
  (ts.map (fun t => newlines t.Lexeme.data)).sum

/-- What the literal scanners of `NextToken` return when the cursor stands at
offset `off`, the line counter is `l`, and the text at the cursor is `x :: xs`:
the token and the state after it, or the fault. -/
def literalAt (off l : Nat) (x : Char) (xs : List Char) : Except Fault (Token × Tokenizer) :=
  if '0' ≤ x ∧ x < '9' then
    stod ((x :: xs).takeWhile (fun c => c != NUL)) >>= fun r =>
      pure (⟨.Number, l, "", some r.1⟩, ⟨l, off + r.2⟩)
  else if x = '"' then
    if xs.all notQuote = true then .error .outOfBounds
    else .ok (⟨.String, l, String.mk ((x :: xs).take ((xs.takeWhile notQuote).length + 2)), none⟩,
      ⟨l, off + ((xs.takeWhile notQuote).length + 2)⟩)
  else if 'a' ≤ x ∧ x ≤ 'z' then
    match m_KeyWordsTable.lookup (String.mk ((x :: xs).take ((xs.takeWhile isLower).length + 1))) with
    | some type =>
      .ok (⟨type, l, String.mk ((x :: xs).take ((xs.takeWhile isLower).length + 1)), none⟩,
        ⟨l, off + ((xs.takeWhile isLower).length + 1)⟩)
    | none =>
      .ok (⟨.Eof, l, "", none⟩, ⟨l, off + ((xs.takeWhile isLower).length + 1)⟩)
  else .ok (⟨.Eof, l, "", none⟩, ⟨l, off⟩)

/-- A result of the dispatch of `NextToken`, computed with the cursor at offset 0
and line counter 0, moved to the cursor at offset `off` and line counter `l`. -/
def relocate (l off : Nat) (r : Token × Tokenizer) : Token × Tokenizer :=
  ({ r.1 with Line := l }, { m_Line := l, m_Current := off + r.2.m_Current })

/-- Two tokens agree on kind, lexeme and numeric value, and, unless they are
`Eof` tokens, the line of the first is the line of the second plus `d`. -/
def SameContent (d : Nat) (a b : Token) : Prop :=
  a.Type_ = b.Type_ ∧ a.Lexeme = b.Lexeme ∧ a.Number = b.Number ∧
    (a.Type_ ≠ .Eof → a.Line = b.Line + d)

/-- Two runs of `Tokenize` end alike: with the same fault, or with streams of
the same length whose tokens agree position by position up to a shift of the
lines by `d`. -/
def StreamsAgree (d : Nat) : Except Fault (List Token) → Except Fault (List Token) → Prop
  | .ok ts1, .ok ts2 => List.Forall₂ (SameContent d) ts1 ts2
  | .error e1, .error e2 => e1 = e2
  | _, _ => False

/-- The number of double quotes of a text. -/
def quotes (s : List Char) : Nat := s.count '"'

/-- The first `n` characters of the text `s` exist and none of them is a double
quote. -/
def QuoteFree (s : List Char) (n : Nat) : Prop :=
  n ≤ s.length ∧ quotes (s.take n) = 0

/-! ## Basic facts about the embedding -/

@[simp]
theorem ok_bind {α β : Type} (a : α) (f : α → Except Fault β) :
    (Except.ok a >>= f) = f a := rfl

@[simp]
theorem error_bind {α β : Type} (e : Fault) (f : α → Except Fault β) :
    ((Except.error e : Except Fault α) >>= f) = Except.error e := rfl

@[simp]
theorem pure_eq_ok {α : Type} (a : α) : (pure a : Except Fault α) = Except.ok a := rfl

/-- A successful lookup in an association list names one of its entries. -/
theorem lookup_mem {α β : Type} [BEq α] [LawfulBEq α] (k : α) (v : β) :
    ∀ (l : List (α × β)), l.lookup k = some v → (k, v) ∈ l := by
  intro l
  induction l with
  | nil => intro h; simp at h
  | cons p l ih =>
    intro h
    obtain ⟨a, b⟩ := p
    rw [List.lookup_cons] at h
    cases hk : (k == a) with
    | true =>
      rw [hk] at h
      have hka : k = a := by simpa using hk
      simp only [Option.some.injEq] at h
      simp [hka, h]
    | false =>
      rw [hk] at h
      exact List.mem_cons_of_mem _ (ih h)

/-- The keys of the keyword table are pairwise distinct, so the order of the
insertions of the constructor does not matter. -/
theorem m_KeyWordsTable_keys_nodup : (m_KeyWordsTable.map Prod.fst).Nodup := by
  decide

/-- One turn of the loop of `Tokenize`. -/
theorem TokenizeLoop_succ (code : List Char) (fuel : Nat) (t : Tokenizer) :
    TokenizeLoop code (fuel + 1) t =
      (NextToken code t >>= fun r =>
        if r.1.Type_ ≠ .Eof then TokenizeLoop code fuel r.2 >>= fun rest => pure (r.1 :: rest)
        else pure [r.1]) := rfl

/-- A stream the loop of `Tokenize` returns is a run of non-`Eof` tokens closed
by one `Eof` token. -/
theorem TokenizeLoop_shape (code : List Char) :
    ∀ (fuel : Nat) (t : Tokenizer) (ts : List Token), TokenizeLoop code fuel t = .ok ts →
      ∃ front last, ts = front ++ [last] ∧ last.Type_ = .Eof ∧ ∀ x ∈ front, x.Type_ ≠ .Eof := by
  intro fuel
  induction fuel with
  | zero => intro t ts h; simp [TokenizeLoop] at h
  | succ fuel ih =>
    intro t ts h
    rw [TokenizeLoop_succ] at h
    cases hN : NextToken code t with
    | error e => rw [hN] at h; simp at h
    | ok r =>
      rw [hN] at h
      simp only [ok_bind] at h
      by_cases hE : r.1.Type_ = .Eof
      · simp only [hE, ne_eq, not_true_eq_false, if_false, pure_eq_ok, Except.ok.injEq] at h
        exact ⟨[], r.1, by simp [← h], hE, by simp⟩
      · simp only [ne_eq, hE, not_false_eq_true, if_true] at h
        cases hR : TokenizeLoop code fuel r.2 with
        | error e => rw [hR] at h; simp at h
        | ok rest =>
          rw [hR] at h
          simp only [ok_bind, pure_eq_ok, Except.ok.injEq] at h
          obtain ⟨front, last, hrest, hlast, hfront⟩ := ih r.2 rest hR
          refine ⟨r.1 :: front, last, by simp [← h, hrest], hlast, ?_⟩
          intro x hx
          rcases List.mem_cons.mp hx with rfl | hx
          · exact hE
          · exact hfront x hx

/-! ### Reads -/

theorem charAt_append_cons (pre : List Char) (x : Char) (xs : List Char) :
    charAt (pre ++ x :: xs) pre.length = .ok x := by
  have h : (pre ++ x :: xs)[pre.length]? = some x := by
    rw [List.getElem?_append_right (Nat.le_refl _)]; simp
  unfold charAt
  rw [if_pos (by simp), List.getD_eq_getElem?_getD, h]; rfl

theorem charAt_length (code : List Char) : charAt code code.length = .ok NUL := by
  simp [charAt]

theorem charAt_beyond (code : List Char) (i : Nat) (h : code.length < i) :
    charAt code i = .error .outOfBounds := by
  simp [charAt, Nat.not_le.mpr h]

/-- The read at the cursor, when the cursor stands before the text `suf`. -/
theorem charAt_append (pre suf : List Char) :
    charAt (pre ++ suf) pre.length = .ok (suf.headD NUL) := by
  cases suf with
  | nil => simpa using charAt_length pre
  | cons x xs => simpa using charAt_append_cons pre x xs

/-! ### The cursor loops -/

/-- A cursor loop started before the text `suf` stops after the longest prefix
of `suf` that satisfies the loop condition; when the condition also holds of
the terminator and of all of `suf`, the loop leaves the buffer. -/
theorem scanLoop_append (p : Char → Bool) :
    ∀ (suf pre : List Char) (l fuel : Nat), (suf.takeWhile p).length + 2 ≤ fuel →
      scanLoop p (pre ++ suf) fuel ⟨l, pre.length⟩ =
        if p NUL = true ∧ suf.all p = true then .error .outOfBounds
        else .ok ⟨l, pre.length + (suf.takeWhile p).length⟩ := by
  intro suf
  induction suf with
  | nil =>
    intro pre l fuel hf
    obtain ⟨f, rfl⟩ : ∃ f, fuel = f + 2 := ⟨fuel - 2, by simp at hf; omega⟩
    by_cases hp : p NUL = true
    · simp [scanLoop, charAt_length, hp, Tokenizer.advance, charAt_beyond]
    · simp [scanLoop, charAt_length, hp]
  | cons x xs ih =>
    intro pre l fuel hf
    obtain ⟨f, rfl⟩ : ∃ f, fuel = f + 1 := ⟨fuel - 1, by omega⟩
    by_cases hx : p x = true
    · have hf2 : (xs.takeWhile p).length + 2 ≤ f := by
        simp [List.takeWhile_cons, hx] at hf; omega
      have := ih (pre ++ [x]) l f hf2
      simp only [List.append_assoc, List.singleton_append, List.length_append,
        List.length_singleton] at this
      simp only [scanLoop, charAt_append_cons, ok_bind, hx, if_true, Tokenizer.advance, this,
        List.takeWhile_cons, List.all_cons, Bool.true_and, List.length_cons]
      simp only [Nat.add_assoc, Nat.add_comm 1]
    · simp [scanLoop, charAt_append_cons, hx, List.takeWhile_cons]

theorem SkipWhiteSpacesLoop_eq_scanLoop (code : List Char) :
    ∀ (fuel : Nat) (t : Tokenizer),
      SkipWhiteSpacesLoop code fuel t = scanLoop isBlank code fuel t := by
  intro fuel
  induction fuel with
  | zero => intro t; rfl
  | succ fuel ih =>
    intro t
    simp only [SkipWhiteSpacesLoop, scanLoop, ih, isBlank, Bool.or_eq_true, decide_eq_true_eq]

theorem StringLoop_eq_scanLoop (code : List Char) :
    ∀ (fuel : Nat) (t : Tokenizer), StringLoop code fuel t = scanLoop notQuote code fuel t := by
  intro fuel
  induction fuel with
  | zero => intro t; rfl
  | succ fuel ih =>
    intro t
    simp only [StringLoop, scanLoop, ih, notQuote, bne_iff_ne, ne_eq]

theorem WordLoop_eq_scanLoop (code : List Char) :
    ∀ (fuel : Nat) (t : Tokenizer), WordLoop code fuel t = scanLoop isLower code fuel t := by
  intro fuel
  induction fuel with
  | zero => intro t; rfl
  | succ fuel ih =>
    intro t
    simp only [WordLoop, scanLoop, ih, isLower, Bool.and_eq_true, decide_eq_true_eq]

/-- The loop of `SkipNewLine` started before the text `suf` skips the leading
newlines of `suf` and counts each of them. -/
theorem SkipNewLineLoop_append :
    ∀ (suf pre : List Char) (l fuel : Nat), (suf.takeWhile isNewLine).length + 1 ≤ fuel →
      SkipNewLineLoop (pre ++ suf) fuel ⟨l, pre.length⟩ =
        .ok ⟨l + (suf.takeWhile isNewLine).length,
             pre.length + (suf.takeWhile isNewLine).length⟩ := by
  intro suf
  induction suf with
  | nil =>
    intro pre l fuel hf
    obtain ⟨f, rfl⟩ : ∃ f, fuel = f + 1 := ⟨fuel - 1, by omega⟩
    have : ¬ NUL = '\n' := by decide
    simp [SkipNewLineLoop, charAt_length, this]
  | cons x xs ih =>
    intro pre l fuel hf
    obtain ⟨f, rfl⟩ : ∃ f, fuel = f + 1 := ⟨fuel - 1, by omega⟩
    by_cases hx : x = '\n'
    · subst hx
      have hx2 : isNewLine '\n' = true := rfl
      have hf2 : (xs.takeWhile isNewLine).length + 1 ≤ f := by
        simp [List.takeWhile_cons, hx2] at hf; omega
      have := ih (pre ++ ['\n']) (l + 1) f hf2
      simp only [List.append_assoc, List.singleton_append, List.length_append,
        List.length_singleton] at this
      simp only [SkipNewLineLoop, charAt_append_cons, ok_bind, if_true, this,
        List.takeWhile_cons, hx2, List.length_cons]
      simp only [Nat.add_assoc, Nat.add_comm 1]
    · have hx2 : isNewLine x = false := by simp [isNewLine, hx]
      simp [SkipNewLineLoop, charAt_append_cons, hx, hx2, List.takeWhile_cons]

theorem length_takeWhile_add_two_le_fuelFor (p : Char → Bool) (pre suf : List Char) :
    (suf.takeWhile p).length + 2 ≤ fuelFor (pre ++ suf) := by
  have := (@List.takeWhile_prefix _ suf p).length_le
  simp only [fuelFor, List.length_append]
  omega

/-- The flag a skipping function returns: whether the cursor moved. -/
theorem moved_flag (n : Nat) (s : List Char) : (n != n + s.length) = !s.isEmpty := by
  cases s with
  | nil => simp
  | cons x xs => simp

theorem SkipWhiteSpaces_append (pre suf : List Char) (l : Nat) :
    SkipWhiteSpaces (pre ++ suf) ⟨l, pre.length⟩ =
      .ok (!(suf.takeWhile isBlank).isEmpty, ⟨l, pre.length + (suf.takeWhile isBlank).length⟩) := by
  have hN : ¬ (isBlank NUL = true) := by decide
  simp only [SkipWhiteSpaces, SkipWhiteSpacesLoop_eq_scanLoop,
    scanLoop_append isBlank suf pre l _ (length_takeWhile_add_two_le_fuelFor isBlank pre suf),
    hN, Bool.false_eq_true, false_and, if_false, ok_bind, pure_eq_ok, moved_flag]

theorem SkipNewLine_append (pre suf : List Char) (l : Nat) :
    SkipNewLine (pre ++ suf) ⟨l, pre.length⟩ =
      .ok (!(suf.takeWhile isNewLine).isEmpty,
        ⟨l + (suf.takeWhile isNewLine).length, pre.length + (suf.takeWhile isNewLine).length⟩) := by
  have hf : (suf.takeWhile isNewLine).length + 1 ≤ fuelFor (pre ++ suf) := by
    have := length_takeWhile_add_two_le_fuelFor isNewLine pre suf; omega
  simp only [SkipNewLine, SkipNewLineLoop_append suf pre l _ hf, ok_bind, pure_eq_ok, moved_flag]

/-- A prefix scan with a weaker condition continues a prefix scan with a
stronger one. -/
theorem takeWhile_of_imp (p q : Char → Bool) (hpq : ∀ c, p c = true → q c = true) :
    ∀ (s : List Char), s.takeWhile q = s.takeWhile p ++ (s.dropWhile p).takeWhile q := by
  intro s
  induction s with
  | nil => simp
  | cons x xs ih =>
    by_cases hx : p x = true
    · simp [List.takeWhile_cons, List.dropWhile_cons, hx, hpq x hx, ih]
    · simp [List.takeWhile_cons, List.dropWhile_cons, hx]

theorem newlines_append (a b : List Char) : newlines (a ++ b) = newlines a + newlines b := by
  simp [newlines]

theorem newlines_takeWhile_isBlank (s : List Char) : newlines (s.takeWhile isBlank) = 0 := by
  simp only [newlines, List.count_eq_zero]
  intro h
  have := List.mem_takeWhile_imp h
  revert this; decide

theorem newlines_takeWhile_isNewLine (s : List Char) :
    newlines (s.takeWhile isNewLine) = (s.takeWhile isNewLine).length := by
  simp only [newlines, List.count_eq_length]
  intro c h
  have := List.mem_takeWhile_imp h
  simpa [isNewLine, eq_comm] using this

theorem takeWhile_isTrivia_eq_nil (s : List Char) (h1 : s.takeWhile isBlank = [])
    (h2 : s.takeWhile isNewLine = []) : s.takeWhile isTrivia = [] := by
  cases s with
  | nil => rfl
  | cons x xs =>
    by_cases hb : isBlank x = true
    · simp [List.takeWhile_cons, hb] at h1
    · by_cases hn : isNewLine x = true
      · simp [List.takeWhile_cons, hn] at h2
      · have : isTrivia x = false := by
          simp only [isBlank, isNewLine, isTrivia, Bool.or_eq_true, decide_eq_true_eq] at *
          simp [hb, hn]
          tauto
        simp [List.takeWhile_cons, this]

/-- The statement `while (SkipWhiteSpaces() || SkipNewLine());` started before
the text `suf` skips the longest prefix of blanks, tabs and newlines of `suf`
and counts its newlines. -/
theorem SkipTriviaLoop_append :
    ∀ (fuel : Nat) (suf pre : List Char) (l : Nat), (suf.takeWhile isTrivia).length + 1 ≤ fuel →
      SkipTriviaLoop (pre ++ suf) fuel ⟨l, pre.length⟩ =
        .ok ⟨l + newlines (suf.takeWhile isTrivia),
             pre.length + (suf.takeWhile isTrivia).length⟩ := by
  intro fuel
  induction fuel with
  | zero => intro suf pre l hf; omega
  | succ fuel ih =>
    intro suf pre l hf
    have hb : ∀ c, isBlank c = true → isTrivia c = true := by
      intro c; simp only [isBlank, isTrivia, Bool.or_eq_true, decide_eq_true_eq]; tauto
    have hn : ∀ c, isNewLine c = true → isTrivia c = true := by
      intro c; simp only [isNewLine, isTrivia, Bool.or_eq_true, decide_eq_true_eq]; tauto
    simp only [SkipTriviaLoop, SkipWhiteSpaces_append, ok_bind]
    cases hws : suf.takeWhile isBlank with
    | cons w ws =>
      have hsplit := takeWhile_of_imp isBlank isTrivia hb suf
      have hcode : pre ++ suf = (pre ++ suf.takeWhile isBlank) ++ suf.dropWhile isBlank := by
        rw [List.append_assoc, List.takeWhile_append_dropWhile]
      have hlen : ((suf.dropWhile isBlank).takeWhile isTrivia).length + 1 ≤ fuel := by
        rw [hsplit, hws] at hf; simp at hf; omega
      have := ih (suf.dropWhile isBlank) (pre ++ suf.takeWhile isBlank) l hlen
      rw [← hcode, List.length_append] at this
      rw [hws] at this
      simp only [List.isEmpty_cons, Bool.not_false, if_true, this]
      rw [hsplit, newlines_append, newlines_takeWhile_isBlank, hws]
      simp only [List.length_append, Nat.zero_add, Nat.add_assoc]
    | nil =>
      simp only [List.isEmpty_nil, Bool.not_true, List.length_nil, Nat.add_zero,
        SkipNewLine_append, ok_bind, Bool.false_eq_true, if_false]
      cases hnl : suf.takeWhile isNewLine with
      | cons w ws =>
        have hsplit := takeWhile_of_imp isNewLine isTrivia hn suf
        have hcode : pre ++ suf = (pre ++ suf.takeWhile isNewLine) ++ suf.dropWhile isNewLine := by
          rw [List.append_assoc, List.takeWhile_append_dropWhile]
        have hlen : ((suf.dropWhile isNewLine).takeWhile isTrivia).length + 1 ≤ fuel := by
          rw [hsplit, hnl] at hf; simp at hf; omega
        have := ih (suf.dropWhile isNewLine) (pre ++ suf.takeWhile isNewLine)
          (l + (suf.takeWhile isNewLine).length) hlen
        rw [← hcode, List.length_append] at this
        rw [hnl] at this
        simp only [List.isEmpty_cons, Bool.not_false, if_true, this]
        rw [hsplit, newlines_append, newlines_takeWhile_isNewLine, hnl]
        simp only [List.length_append, Nat.add_assoc]
      | nil =>
        simp [takeWhile_isTrivia_eq_nil suf hws hnl, newlines]

/-! ### The text `std::stod` converts -/

theorem take_length_takeWhile (p : Char → Bool) :
    ∀ (s : List Char), s.take (s.takeWhile p).length = s.takeWhile p := by
  intro s
  induction s with
  | nil => rfl
  | cons x xs ih =>
    by_cases hx : p x = true
    · simp [List.takeWhile_cons, hx, ih]
    · simp [List.takeWhile_cons, hx]

theorem drop_length_takeWhile (p : Char → Bool) :
    ∀ (s : List Char), s.drop (s.takeWhile p).length = s.dropWhile p := by
  intro s
  induction s with
  | nil => rfl
  | cons x xs ih =>
    by_cases hx : p x = true
    · simp [List.takeWhile_cons, List.dropWhile_cons, hx, ih]
    · simp [List.takeWhile_cons, List.dropWhile_cons, hx]

theorem NewlineFree.zero (s : List Char) : NewlineFree s 0 := by
  simp [NewlineFree, newlines]

theorem NewlineFree.cons {x : Char} {s : List Char} {n : Nat} (hx : x ≠ '\n')
    (h : NewlineFree s n) : NewlineFree (x :: s) (n + 1) := by
  obtain ⟨h1, h2⟩ := h
  refine ⟨by simpa using h1, ?_⟩
  simp only [newlines, List.take_succ_cons, List.count_cons] at h2 ⊢
  simp [h2, hx]

theorem NewlineFree.add {s : List Char} {a b : Nat} (ha : NewlineFree s a)
    (hb : NewlineFree (s.drop a) b) : NewlineFree s (a + b) := by
  obtain ⟨a1, a2⟩ := ha
  obtain ⟨b1, b2⟩ := hb
  refine ⟨by simp only [List.length_drop] at b1; omega, ?_⟩
  rw [List.take_add, newlines_append, a2, b2]

theorem NewlineFree.takeWhile (p : Char → Bool) (hp : p '\n' = false) (s : List Char) :
    NewlineFree s (s.takeWhile p).length := by
  refine ⟨(@List.takeWhile_prefix _ s p).length_le, ?_⟩
  rw [take_length_takeWhile]
  simp only [newlines, List.count_eq_zero]
  intro h
  have := List.mem_takeWhile_imp h
  rw [hp] at this
  exact Bool.noConfusion this

theorem NewlineFree.mono {s : List Char} {n : Nat} (pre : List Char)
    (h : NewlineFree pre n) : NewlineFree (pre ++ s) n := by
  obtain ⟨h1, h2⟩ := h
  refine ⟨by simp only [List.length_append]; omega, ?_⟩
  rw [List.take_append_of_le_length h1]
  exact h2

theorem NewlineFree_scanMantissa (isDigit : Char → Bool) (hd : isDigit '\n' = false)
    (s : List Char) : NewlineFree s (scanMantissa isDigit s).length := by
  unfold scanMantissa
  split
  · rename_i hdot
    obtain ⟨r, hr⟩ := List.head?_eq_some_iff.mp hdot
    simp only [Mantissa.length, if_true, hr, List.tail_cons, Nat.add_assoc]
    refine NewlineFree.add (NewlineFree.takeWhile isDigit hd s) ?_
    rw [drop_length_takeWhile, hr, Nat.add_comm 1]
    exact NewlineFree.cons (by decide) (NewlineFree.takeWhile isDigit hd r)
  · simpa [Mantissa.length] using NewlineFree.takeWhile isDigit hd s

theorem NewlineFree_exponentDigits (neg : Bool) (taken : Nat) (s front : List Char)
    (hlen : front.length = taken) (hfront : newlines front = 0) :
    NewlineFree (front ++ s) (exponentDigits neg taken s).2 := by
  unfold exponentDigits
  split
  · exact NewlineFree.zero _
  · have h := NewlineFree.takeWhile decDigit (by decide) s
    obtain ⟨h1, h2⟩ := h
    refine ⟨by simp only [List.length_append]; omega, ?_⟩
    show newlines ((front ++ s).take (taken + (s.takeWhile decDigit).length)) = 0
    rw [← hlen, List.take_append, newlines_append, hfront, h2]

theorem NewlineFree_scanExponent (lower upper : Char) (hl : lower ≠ '\n') (hu : upper ≠ '\n')
    (s : List Char) : NewlineFree s (scanExponent lower upper s).2 := by
  unfold scanExponent
  split
  · rename_i hm
    cases s with
    | nil => simp at hm
    | cons m r =>
      have hmn : m ≠ '\n' := by
        simp only [List.head?_cons, Option.some.injEq] at hm
        rcases hm with rfl | rfl
        · exact hl
        · exact hu
      have hm0 : newlines [m] = 0 := by
        simp [newlines, List.count_cons, hmn]
      simp only [List.tail_cons]
      split
      · rename_i hs
        obtain ⟨r1, hr1⟩ := List.head?_eq_some_iff.mp hs
        subst hr1
        have := NewlineFree_exponentDigits true 2 r1 [m, '-'] rfl
          (by simp [newlines, List.count_cons, hmn])
        simpa using this
      · split
        · rename_i hs
          obtain ⟨r1, hr1⟩ := List.head?_eq_some_iff.mp hs
          subst hr1
          have := NewlineFree_exponentDigits false 2 r1 [m, '+'] rfl
            (by simp [newlines, List.count_cons, hmn])
          simpa using this
        · have := NewlineFree_exponentDigits false 1 r [m] rfl hm0
          simpa using this
  · exact NewlineFree.zero _

theorem stodResult_ok {neg : Bool} {q v : ℚ} {parsed n : Nat}
    (h : stodResult neg q parsed = .ok (v, n)) : n = parsed := by
  unfold stodResult at h
  split at h
  · simp only [Except.ok.injEq, Prod.mk.injEq] at h
    exact h.2.symm
  · simp at h

theorem stodResult_ne_outOfFuel (neg : Bool) (q : ℚ) (parsed : Nat) :
    stodResult neg q parsed ≠ .error .outOfFuel := by
  unfold stodResult
  split <;> simp

theorem one_le_length_of_hasDigits (m : Mantissa) (h : m.hasDigits = true) : 1 ≤ m.length := by
  obtain ⟨ip, dot, fp⟩ := m
  simp only [Mantissa.hasDigits, Mantissa.length] at h ⊢
  cases ip with
  | cons a as => simp; omega
  | nil =>
    cases fp with
    | cons b bs => simp; omega
    | nil => simp at h

/-- What `std::stod` converts after white space and sign: at least one
character, all of them present in the text, none of them a newline. -/
theorem stodUnsigned_ok {neg : Bool} {skipped : Nat} {s : List Char} {v : ℚ} {n : Nat}
    (h : stodUnsigned neg skipped s = .ok (v, n)) :
    ∃ j, n = skipped + j ∧ 1 ≤ j ∧ NewlineFree s j := by
  unfold stodUnsigned at h
  split at h
  · rename_i hhex
    obtain ⟨h0, hx, _⟩ := hhex
    obtain ⟨r0, hr0⟩ := List.head?_eq_some_iff.mp h0
    subst hr0
    simp only [List.tail_cons] at hx h
    have hx' : ∃ x r, r0 = x :: r ∧ x ≠ '\n' := by
      rcases hx with hx | hx
      · obtain ⟨r, hr⟩ := List.head?_eq_some_iff.mp hx
        exact ⟨'x', r, hr, by decide⟩
      · obtain ⟨r, hr⟩ := List.head?_eq_some_iff.mp hx
        exact ⟨'X', r, hr, by decide⟩
    obtain ⟨x, r, hr, hxn⟩ := hx'
    subst hr
    simp only [List.tail_cons, stodHex] at h
    have hn := stodResult_ok h
    refine ⟨2 + (scanMantissa hexDigit r).length
      + (scanExponent 'p' 'P' (r.drop (scanMantissa hexDigit r).length)).2, by omega, by omega, ?_⟩
    have hm := NewlineFree_scanMantissa hexDigit (by decide) r
    have he := NewlineFree_scanExponent 'p' 'P' (by decide) (by decide)
      (r.drop (scanMantissa hexDigit r).length)
    have := @NewlineFree.cons '0' _ _ (by decide) (NewlineFree.cons hxn (NewlineFree.add hm he))
    have e : (scanMantissa hexDigit r).length
        + (scanExponent 'p' 'P' (r.drop (scanMantissa hexDigit r).length)).2 + 1 + 1
        = 2 + (scanMantissa hexDigit r).length
        + (scanExponent 'p' 'P' (r.drop (scanMantissa hexDigit r).length)).2 := by omega
    rw [e] at this
    exact this
  · unfold stodDecimal at h
    split at h
    · rename_i hdig
      have hn := stodResult_ok h
      have h1 := one_le_length_of_hasDigits _ hdig
      refine ⟨(scanMantissa decDigit s).length
        + (scanExponent 'e' 'E' (s.drop (scanMantissa decDigit s).length)).2, by omega, by omega, ?_⟩
      exact NewlineFree.add (NewlineFree_scanMantissa decDigit (by decide) s)
        (NewlineFree_scanExponent 'e' 'E' (by decide) (by decide) _)
    · simp at h

theorem stodUnsigned_ne_outOfFuel (neg : Bool) (skipped : Nat) (s : List Char) :
    stodUnsigned neg skipped s ≠ .error .outOfFuel := by
  unfold stodUnsigned stodHex stodDecimal
  split
  · exact stodResult_ne_outOfFuel _ _ _
  · split
    · exact stodResult_ne_outOfFuel _ _ _
    · simp

theorem stod_ne_outOfFuel (s : List Char) : stod s ≠ .error .outOfFuel := by
  unfold stod
  split
  · exact stodUnsigned_ne_outOfFuel _ _ _
  · split <;> exact stodUnsigned_ne_outOfFuel _ _ _

/-- On a text that starts with a digit `std::stod` skips nothing. -/
theorem stod_of_digit (x : Char) (s : List Char) (h0 : '0' ≤ x) :
    stod (x :: s) = stodUnsigned false 0 (x :: s) := by
  have hsp : isSpace x = false := by
    simp only [isSpace, Bool.or_eq_false_iff, decide_eq_false_iff_not]
    refine ⟨⟨⟨⟨⟨?_, ?_⟩, ?_⟩, ?_⟩, ?_⟩, ?_⟩ <;> (intro hx; subst hx; revert h0; decide)
  have hm : x ≠ '-' := by intro hx; subst hx; revert h0; decide
  have hp : x ≠ '+' := by intro hx; subst hx; revert h0; decide
  simp [stod, List.takeWhile_cons, List.dropWhile_cons, hsp, hm, hp]

/-- The number scanner of `NextToken` converts at least one character, all of
them present in the text at the cursor, none of them a newline. -/
theorem stod_of_digit_ok {x : Char} {s : List Char} {v : ℚ} {n : Nat} (h0 : '0' ≤ x)
    (h : stod (x :: s) = .ok (v, n)) : 1 ≤ n ∧ NewlineFree (x :: s) n := by
  rw [stod_of_digit x s h0] at h
  obtain ⟨j, hj, h1, hc⟩ := stodUnsigned_ok h
  simp only [Nat.zero_add] at hj
  subst hj
  exact ⟨h1, hc⟩

/-! ### One call of `NextToken` -/

theorem cstrAt_append (pre suf : List Char) :
    cstrAt (pre ++ suf) pre.length = suf.takeWhile (fun c => c != NUL) := by
  simp [cstrAt]

theorem slice_append (pre suf : List Char) (n : Nat) :
    slice (pre ++ suf) pre.length (pre.length + n) = String.mk (suf.take n) := by
  simp [slice]

/-- The read one character after the cursor. -/
theorem charAt_append_succ (pre : List Char) (x : Char) (xs : List Char) :
    charAt (pre ++ x :: xs) (pre.length + 1) = .ok (xs.headD NUL) := by
  have := charAt_append (pre ++ [x]) xs
  simpa using this

theorem scanToken_NUL (code : List Char) (t : Tokenizer) :
    scanToken code t NUL = .ok (eofAtLine t, t) := by
  unfold scanToken scanLiteral
  rw [if_neg (by decide), if_neg (by decide), if_neg (by decide), if_neg (by decide),
    if_neg (by decide), if_neg (by decide), if_neg (by decide), if_neg (by decide),
    if_neg (by decide), if_neg (by decide), if_neg (by decide), if_neg (by decide),
    if_neg (by decide), if_neg (by decide), if_neg (by decide), if_neg (by decide),
    if_neg (by decide)]
  rfl

/-- `NextToken` called with the cursor before the text `suf`: at the terminator
it returns the `Eof` token of line 0, otherwise it skips the blanks, tabs and
newlines that lead `suf` and dispatches on the character after them. -/
theorem NextToken_append (pre suf : List Char) (l : Nat) :
    NextToken (pre ++ suf) ⟨l, pre.length⟩ =
      if suf.headD NUL = NUL then .ok (eofAtTerminator, ⟨l, pre.length⟩)
      else scanToken (pre ++ suf)
        ⟨l + newlines (suf.takeWhile isTrivia), pre.length + (suf.takeWhile isTrivia).length⟩
        ((suf.dropWhile isTrivia).headD NUL) := by
  have hf : (suf.takeWhile isTrivia).length + 1 ≤ fuelFor (pre ++ suf) := by
    have := length_takeWhile_add_two_le_fuelFor isTrivia pre suf; omega
  have hc : charAt (pre ++ suf) (pre.length + (suf.takeWhile isTrivia).length)
      = .ok ((suf.dropWhile isTrivia).headD NUL) := by
    have := charAt_append (pre ++ suf.takeWhile isTrivia) (suf.dropWhile isTrivia)
    rwa [List.append_assoc, List.takeWhile_append_dropWhile, List.length_append] at this
  unfold NextToken
  simp only [charAt_append, ok_bind, pure_eq_ok, SkipTriviaLoop_append _ suf pre l hf, hc]

theorem tokenStart_append (pre suf : List Char) (l : Nat) :
    tokenStart (pre ++ suf) ⟨l, pre.length⟩ =
      .ok (if suf.headD NUL = NUL then pre.length
           else pre.length + (suf.takeWhile isTrivia).length) := by
  have hf : (suf.takeWhile isTrivia).length + 1 ≤ fuelFor (pre ++ suf) := by
    have := length_takeWhile_add_two_le_fuelFor isTrivia pre suf; omega
  unfold tokenStart
  simp only [charAt_append, ok_bind, pure_eq_ok, SkipTriviaLoop_append _ suf pre l hf]
  split <;> rfl

theorem matchEqual_append (pre : List Char) (x : Char) (xs : List Char) (l : Nat)
    (two one : TokenType) :
    matchEqual (pre ++ x :: xs) ⟨l, pre.length⟩ two one =
      if xs.headD NUL = '=' then .ok (⟨two, l, "", none⟩, ⟨l, pre.length + 2⟩)
      else .ok (⟨one, l, "", none⟩, ⟨l, pre.length + 1⟩) := by
  unfold matchEqual Match
  simp only [Tokenizer.advance, charAt_append_succ, ok_bind, pure_eq_ok]
  generalize xs.headD NUL = d
  by_cases h : d = '='
  · subst h
    rfl
  · have h2 : ¬ '=' = d := fun e => h e.symm
    simp only [h, h2, if_false, ok_bind, ProduceToken]
    rfl

theorem length_takeWhile_lt_of_not_all (p : Char → Bool) :
    ∀ (s : List Char), ¬ (s.all p = true) → (s.takeWhile p).length < s.length := by
  intro s
  induction s with
  | nil => intro h; simp at h
  | cons x xs ih =>
    intro h
    by_cases hx : p x = true
    · have : ¬ (xs.all p = true) := by simpa [hx] using h
      simpa [List.takeWhile_cons, hx] using ih this
    · simp [List.takeWhile_cons, hx]

/-- A token other than `Eof` that the literal scanners return takes `n ≥ 1`
characters of the text at the cursor, leaves the line counter alone, carries
its value as line, and its lexeme holds as many newlines as the text taken. -/
theorem scanLiteral_step {pre : List Char} {x : Char} {xs : List Char} {l : Nat}
    {tok : Token} {t' : Tokenizer}
    (h : scanLiteral (pre ++ x :: xs) ⟨l, pre.length⟩ x = .ok (tok, t'))
    (hE : tok.Type_ ≠ .Eof) :
    ∃ n, 1 ≤ n ∧ n ≤ (x :: xs).length ∧ tok.Line = l ∧ t' = ⟨l, pre.length + n⟩ ∧
      newlines ((x :: xs).take n) = newlines tok.Lexeme.data := by
  have hcode : pre ++ x :: xs = (pre ++ [x]) ++ xs := by simp
  have hlen : pre.length + 1 = (pre ++ [x]).length := by simp
  unfold scanLiteral at h
  split at h
  · -- number
    rename_i hd
    rw [cstrAt_append] at h
    have hx : (x != NUL) = true := by
      rw [bne_iff_ne]; intro e; subst e; exact absurd hd.1 (by decide)
    rw [List.takeWhile_cons, if_pos hx] at h
    cases hs : stod (x :: xs.takeWhile (fun c => c != NUL)) with
    | error e => rw [hs] at h; simp at h
    | ok r =>
      rw [hs] at h
      simp only [ok_bind, pure_eq_ok, Except.ok.injEq, Prod.mk.injEq] at h
      obtain ⟨htok, ht'⟩ := h
      obtain ⟨h1, hfree⟩ := @stod_of_digit_ok x _ r.1 r.2 hd.1 hs
      have hfree2 := @NewlineFree.mono (xs.dropWhile (fun c => c != NUL)) _ _ hfree
      rw [List.cons_append, List.takeWhile_append_dropWhile] at hfree2
      refine ⟨r.2, h1, hfree2.1, by rw [← htok], ht'.symm, ?_⟩
      rw [hfree2.2, ← htok]
      rfl
  · split at h
    · -- string
      rename_i hq
      have hN : notQuote NUL = true := by decide
      have hf := length_takeWhile_add_two_le_fuelFor notQuote (pre ++ [x]) xs
      rw [StringLoop_eq_scanLoop] at h
      simp only [Tokenizer.advance] at h
      rw [hlen, hcode, scanLoop_append notQuote xs (pre ++ [x]) l _ hf] at h
      split at h
      · simp at h
      · rename_i hall
        have hlt := length_takeWhile_lt_of_not_all notQuote xs (fun e => hall ⟨hN, e⟩)
        simp only [ok_bind, pure_eq_ok, Except.ok.injEq, Prod.mk.injEq] at h
        obtain ⟨htok, ht'⟩ := h
        have e1 : (pre ++ [x]).length + (xs.takeWhile notQuote).length + 1
            = pre.length + ((xs.takeWhile notQuote).length + 2) := by
          simp only [List.length_append, List.length_singleton]; omega
        rw [e1] at htok ht'
        rw [← hcode, slice_append] at htok
        refine ⟨(xs.takeWhile notQuote).length + 2, by omega, by simp only [List.length_cons]; omega,
          by rw [← htok], ht'.symm, by rw [← htok]⟩
    · split at h
      · -- word
        have hN : ¬ (isLower NUL = true ∧ xs.all isLower = true) := by
          intro e; exact absurd e.1 (by decide)
        have hf := length_takeWhile_add_two_le_fuelFor isLower (pre ++ [x]) xs
        have hle := (@List.takeWhile_prefix _ xs isLower).length_le
        rw [WordLoop_eq_scanLoop] at h
        simp only [Tokenizer.advance] at h
        rw [hlen, hcode, scanLoop_append isLower xs (pre ++ [x]) l _ hf, if_neg hN] at h
        have e1 : (pre ++ [x]).length + (xs.takeWhile isLower).length
            = pre.length + ((xs.takeWhile isLower).length + 1) := by
          simp only [List.length_append, List.length_singleton]; omega
        simp only [ok_bind] at h
        rw [e1, ← hcode, slice_append] at h
        cases hlk : m_KeyWordsTable.lookup (String.mk ((x :: xs).take ((xs.takeWhile isLower).length + 1))) with
        | none =>
          rw [hlk] at h
          simp only [pure_eq_ok, Except.ok.injEq, Prod.mk.injEq] at h
          exact absurd (by rw [← h.1]; rfl) hE
        | some type =>
          rw [hlk] at h
          simp only [pure_eq_ok, Except.ok.injEq, Prod.mk.injEq] at h
          obtain ⟨htok, ht'⟩ := h
          refine ⟨(xs.takeWhile isLower).length + 1, by omega,
            by simp only [List.length_cons]; omega, by rw [← htok], ht'.symm, by rw [← htok]⟩
      · simp only [pure_eq_ok, Except.ok.injEq, Prod.mk.injEq] at h
        exact absurd (by rw [← h.1]; rfl) hE

theorem symbol_step {pre : List Char} {x : Char} {xs : List Char} {l : Nat} {type : TokenType}
    {tok : Token} {t' : Tokenizer} (hx : x ≠ '\n')
    (h : (pure (ProduceToken (Tokenizer.advance ⟨l, pre.length⟩) type,
      Tokenizer.advance ⟨l, pre.length⟩) : Except Fault (Token × Tokenizer)) = .ok (tok, t')) :
    ∃ n, 1 ≤ n ∧ n ≤ (x :: xs).length ∧ tok.Line = l ∧ t' = ⟨l, pre.length + n⟩ ∧
      newlines ((x :: xs).take n) = newlines tok.Lexeme.data := by
  simp only [pure_eq_ok, Except.ok.injEq, Prod.mk.injEq] at h
  obtain ⟨htok, ht'⟩ := h
  refine ⟨1, Nat.le_refl 1, by simp, by rw [← htok]; rfl, ht'.symm, ?_⟩
  rw [← htok]
  simp [newlines, ProduceToken, List.count_cons, hx]

theorem matchEqual_step {pre : List Char} {x : Char} {xs : List Char} {l : Nat}
    {two one : TokenType} {tok : Token} {t' : Tokenizer} (hx : x ≠ '\n')
    (h : matchEqual (pre ++ x :: xs) ⟨l, pre.length⟩ two one = .ok (tok, t')) :
    ∃ n, 1 ≤ n ∧ n ≤ (x :: xs).length ∧ tok.Line = l ∧ t' = ⟨l, pre.length + n⟩ ∧
      newlines ((x :: xs).take n) = newlines tok.Lexeme.data := by
  rw [matchEqual_append] at h
  split at h
  · rename_i he
    cases xs with
    | nil => exact absurd he (by decide)
    | cons y ys =>
      simp only [List.headD_cons] at he
      subst he
      simp only [Except.ok.injEq, Prod.mk.injEq] at h
      obtain ⟨htok, ht'⟩ := h
      refine ⟨2, by omega, by simp, by rw [← htok], ht'.symm, ?_⟩
      rw [← htok]
      simp [newlines, List.count_cons, hx]
  · simp only [Except.ok.injEq, Prod.mk.injEq] at h
    obtain ⟨htok, ht'⟩ := h
    refine ⟨1, Nat.le_refl 1, by simp, by rw [← htok], ht'.symm, ?_⟩
    rw [← htok]
    simp [newlines, List.count_cons, hx]

/-- A token other than `Eof` that the dispatch of `NextToken` returns takes
`n ≥ 1` characters of the text at the cursor, leaves the line counter alone,
carries its value as line, and its lexeme holds as many newlines as the text
taken. -/
theorem scanToken_step {pre suf : List Char} {l : Nat} {tok : Token} {t' : Tokenizer}
    (h : scanToken (pre ++ suf) ⟨l, pre.length⟩ (suf.headD NUL) = .ok (tok, t'))
    (hE : tok.Type_ ≠ .Eof) :
    ∃ n, 1 ≤ n ∧ n ≤ suf.length ∧ tok.Line = l ∧ t' = ⟨l, pre.length + n⟩ ∧
      newlines (suf.take n) = newlines tok.Lexeme.data := by
  cases suf with
  | nil =>
    rw [List.headD_nil, scanToken_NUL] at h
    simp only [Except.ok.injEq, Prod.mk.injEq] at h
    exact absurd (by rw [← h.1]; rfl) hE
  | cons x xs =>
    rw [List.headD_cons] at h
    unfold scanToken at h
    by_cases c0 : x = '('
    · rw [if_pos c0] at h; subst c0; exact symbol_step (by decide) h
    rw [if_neg c0] at h
    by_cases c1 : x = ')'
    · rw [if_pos c1] at h; subst c1; exact symbol_step (by decide) h
    rw [if_neg c1] at h
    by_cases c2 : x = '{'
    · rw [if_pos c2] at h; subst c2; exact symbol_step (by decide) h
    rw [if_neg c2] at h
    by_cases c3 : x = '}'
    · rw [if_pos c3] at h; subst c3; exact symbol_step (by decide) h
    rw [if_neg c3] at h
    by_cases c4 : x = ','
    · rw [if_pos c4] at h; subst c4; exact symbol_step (by decide) h
    rw [if_neg c4] at h
    by_cases c5 : x = '.'
    · rw [if_pos c5] at h; subst c5; exact symbol_step (by decide) h
    rw [if_neg c5] at h
    by_cases c6 : x = '-'
    · rw [if_pos c6] at h; subst c6; exact symbol_step (by decide) h
    rw [if_neg c6] at h
    by_cases c7 : x = '+'
    · rw [if_pos c7] at h; subst c7; exact symbol_step (by decide) h
    rw [if_neg c7] at h
    by_cases c8 : x = ';'
    · rw [if_pos c8] at h; subst c8; exact symbol_step (by decide) h
    rw [if_neg c8] at h
    by_cases c9 : x = '*'
    · rw [if_pos c9] at h; subst c9; exact symbol_step (by decide) h
    rw [if_neg c9] at h
    by_cases d0 : x = '='
    · rw [if_pos d0] at h; subst d0; exact matchEqual_step (by decide) h
    rw [if_neg d0] at h
    by_cases d1 : x = '!'
    · rw [if_pos d1] at h; subst d1; exact matchEqual_step (by decide) h
    rw [if_neg d1] at h
    by_cases d2 : x = '>'
    · rw [if_pos d2] at h; subst d2; exact matchEqual_step (by decide) h
    rw [if_neg d2] at h
    by_cases d3 : x = '<'
    · rw [if_pos d3] at h; subst d3; exact matchEqual_step (by decide) h
    rw [if_neg d3] at h
    exact scanLiteral_step h hE

/-- A call of `NextToken` that returns a token other than `Eof`: the token
begins after the blanks, tabs and newlines that lead the text at the cursor,
its line is the line counter plus the newlines among them, and it takes
`n ≥ 1` characters, whose newlines are those of its lexeme. -/
theorem NextToken_step {pre suf : List Char} {l : Nat} {tok : Token} {t' : Tokenizer}
    (h : NextToken (pre ++ suf) ⟨l, pre.length⟩ = .ok (tok, t'))
    (hE : tok.Type_ ≠ .Eof) :
    ∃ n, 1 ≤ n ∧ (suf.takeWhile isTrivia).length + n ≤ suf.length ∧
      tokenStart (pre ++ suf) ⟨l, pre.length⟩
        = .ok (pre.length + (suf.takeWhile isTrivia).length) ∧
      tok.Line = l + newlines (suf.takeWhile isTrivia) ∧
      t' = ⟨tok.Line, pre.length + (suf.takeWhile isTrivia).length + n⟩ ∧
      newlines ((suf.dropWhile isTrivia).take n) = newlines tok.Lexeme.data := by
  rw [NextToken_append] at h
  rw [tokenStart_append]
  split at h
  · simp only [Except.ok.injEq, Prod.mk.injEq] at h
    exact absurd (by rw [← h.1]; rfl) hE
  · rename_i hN
    have hcode : pre ++ suf = (pre ++ suf.takeWhile isTrivia) ++ suf.dropWhile isTrivia := by
      rw [List.append_assoc, List.takeWhile_append_dropWhile]
    have hlen : pre.length + (suf.takeWhile isTrivia).length
        = (pre ++ suf.takeWhile isTrivia).length := by simp
    rw [hlen, hcode] at h
    obtain ⟨n, h1, h2, h3, h4, h5⟩ := scanToken_step h hE
    have hsuf : suf.length = (suf.takeWhile isTrivia).length + (suf.dropWhile isTrivia).length := by
      rw [← List.length_append, List.takeWhile_append_dropWhile]
    refine ⟨n, h1, by omega, by rw [if_neg hN], h3, ?_, h5⟩
    rw [h4, h3, hlen]

/-! ### The string scanner and the two-token streams -/

theorem scanToken_quote (pre xs : List Char) (l : Nat) :
    scanToken (pre ++ '"' :: xs) ⟨l, pre.length⟩ '"' =
      if xs.all notQuote = true then .error .outOfBounds
      else .ok (⟨.String, l, String.mk (('"' :: xs).take ((xs.takeWhile notQuote).length + 2)), none⟩,
        ⟨l, pre.length + ((xs.takeWhile notQuote).length + 2)⟩) := by
  have hcode : pre ++ '"' :: xs = (pre ++ ['"']) ++ xs := by simp
  have hlen : pre.length + 1 = (pre ++ ['"']).length := by simp
  have hf := length_takeWhile_add_two_le_fuelFor notQuote (pre ++ ['"']) xs
  have hN : notQuote NUL = true := by decide
  unfold scanToken scanLiteral
  rw [if_neg (by decide), if_neg (by decide), if_neg (by decide), if_neg (by decide),
    if_neg (by decide), if_neg (by decide), if_neg (by decide), if_neg (by decide),
    if_neg (by decide), if_neg (by decide), if_neg (by decide), if_neg (by decide),
    if_neg (by decide), if_neg (by decide), if_neg (by decide), if_pos rfl]
  rw [StringLoop_eq_scanLoop]
  simp only [Tokenizer.advance]
  rw [hlen, hcode, scanLoop_append notQuote xs (pre ++ ['"']) l _ hf]
  by_cases hall : xs.all notQuote = true
  · rw [if_pos ⟨hN, hall⟩, if_pos hall]; rfl
  · rw [if_neg (fun e => hall e.2), if_neg hall]
    have e1 : (pre ++ ['"']).length + (xs.takeWhile notQuote).length + 1
        = pre.length + ((xs.takeWhile notQuote).length + 2) := by
      simp only [List.length_append, List.length_singleton]; omega
    simp only [ok_bind, pure_eq_ok, e1]
    rw [← hcode, slice_append]

/-- A stream of two tokens: the first call of `NextToken` returns a token other
than `Eof`, the second one an `Eof`. -/
theorem Tokenize_two (code : List Char) (tok e : Token) (t1 t2 : Tokenizer)
    (h1 : NextToken code Tokenizer.init = .ok (tok, t1)) (hk : tok.Type_ ≠ .Eof)
    (h2 : NextToken code t1 = .ok (e, t2)) (he : e.Type_ = .Eof) :
    Tokenize code = .ok [tok, e] := by
  show TokenizeLoop code (code.length + 1 + 1) Tokenizer.init = _
  rw [TokenizeLoop_succ, h1, ok_bind, if_pos hk, TokenizeLoop_succ, h2, ok_bind,
    if_neg (by simp [he])]
  rfl

/-- The call of `NextToken` at the terminator. -/
theorem NextToken_at_end (code : List Char) (l : Nat) :
    NextToken code ⟨l, code.length⟩ = .ok (eofAtTerminator, ⟨l, code.length⟩) := by
  have := NextToken_append code [] l
  simpa using this

/-- The first call of `NextToken` on a source whose first character is no
blank, tab, newline or terminator dispatches on that character. -/
theorem NextToken_init (x : Char) (xs : List Char) (hN : x ≠ NUL) (hT : isTrivia x = false) :
    NextToken (x :: xs) Tokenizer.init = scanToken (x :: xs) ⟨0, 0⟩ x := by
  have := NextToken_append [] (x :: xs) 0
  simpa [hN, hT, List.takeWhile_cons, List.dropWhile_cons, newlines, Tokenizer.init] using this

/-- The first token of a stream `Tokenize` returns is the token of the first
call of `NextToken`. -/
theorem Tokenize_head (code : List Char) (ts : List Token) (r : Token × Tokenizer)
    (h : Tokenize code = .ok ts) (hN : NextToken code Tokenizer.init = .ok r) :
    ts.head? = some r.1 := by
  have h' : TokenizeLoop code (code.length + 1 + 1) Tokenizer.init = .ok ts := h
  rw [TokenizeLoop_succ, hN, ok_bind] at h'
  split at h'
  · cases hR : TokenizeLoop code (code.length + 1) r.2 with
    | error e => rw [hR] at h'; simp at h'
    | ok rest =>
      rw [hR] at h'
      simp only [ok_bind, pure_eq_ok, Except.ok.injEq] at h'
      rw [← h']; rfl
  · simp only [pure_eq_ok, Except.ok.injEq] at h'
    rw [← h']; rfl

/-- The four symbols that look ahead reach the `Match('=')` arm of the switch. -/
theorem scanToken_lookahead (c : Char) (one two : TokenType)
    (h : (c, one, two) ∈ lookaheadKinds) (code : List Char) (t : Tokenizer) :
    scanToken code t c = matchEqual code t two one ∧ c ≠ NUL ∧ isTrivia c = false := by
  simp only [lookaheadKinds, List.mem_cons, Prod.mk.injEq, List.mem_singleton,
    List.not_mem_nil, or_false] at h
  rcases h with ⟨rfl, rfl, rfl⟩ | ⟨rfl, rfl, rfl⟩ | ⟨rfl, rfl, rfl⟩ | ⟨rfl, rfl, rfl⟩
  all_goals
    refine ⟨?_, by decide, by decide⟩
    unfold scanToken
    repeat rw [if_neg (by decide)]
    rw [if_pos rfl]

/-! ### The step budget suffices -/

theorem bind_ne_outOfFuel {α β : Type} (a : Except Fault α) (f : α → Except Fault β)
    (ha : a ≠ .error .outOfFuel) (hf : ∀ x, a = .ok x → f x ≠ .error .outOfFuel) :
    (a >>= f) ≠ .error .outOfFuel := by
  cases a with
  | error e =>
    intro h
    simp only [error_bind, Except.error.injEq] at h
    exact ha (by rw [h])
  | ok x => exact hf x rfl

theorem scanLiteral_ne_outOfFuel (pre : List Char) (x : Char) (xs : List Char) (l : Nat) :
    scanLiteral (pre ++ x :: xs) ⟨l, pre.length⟩ x ≠ .error .outOfFuel := by
  have hcode : pre ++ x :: xs = (pre ++ [x]) ++ xs := by simp
  have hlen : pre.length + 1 = (pre ++ [x]).length := by simp
  unfold scanLiteral
  split
  · exact bind_ne_outOfFuel _ _ (stod_ne_outOfFuel _) (fun _ _ => by simp)
  · split
    · refine bind_ne_outOfFuel _ _ ?_ (fun _ _ => by simp)
      rw [StringLoop_eq_scanLoop]
      simp only [Tokenizer.advance]
      rw [hlen, hcode, scanLoop_append notQuote xs (pre ++ [x]) l _
        (length_takeWhile_add_two_le_fuelFor notQuote (pre ++ [x]) xs)]
      split <;> simp
    · split
      · refine bind_ne_outOfFuel _ _ ?_ ?_
        · rw [WordLoop_eq_scanLoop]
          simp only [Tokenizer.advance]
          rw [hlen, hcode, scanLoop_append isLower xs (pre ++ [x]) l _
            (length_takeWhile_add_two_le_fuelFor isLower (pre ++ [x]) xs)]
          split <;> simp
        · intro t1 _
          dsimp only
          split <;> simp
      · simp

theorem scanToken_ne_outOfFuel (pre suf : List Char) (l : Nat) :
    scanToken (pre ++ suf) ⟨l, pre.length⟩ (suf.headD NUL) ≠ .error .outOfFuel := by
  cases suf with
  | nil => rw [List.headD_nil, scanToken_NUL]; simp
  | cons x xs =>
    rw [List.headD_cons]
    unfold scanToken
    by_cases c0 : x = '('
    · rw [if_pos c0]; simp
    rw [if_neg c0]
    by_cases c1 : x = ')'
    · rw [if_pos c1]; simp
    rw [if_neg c1]
    by_cases c2 : x = '{'
    · rw [if_pos c2]; simp
    rw [if_neg c2]
    by_cases c3 : x = '}'
    · rw [if_pos c3]; simp
    rw [if_neg c3]
    by_cases c4 : x = ','
    · rw [if_pos c4]; simp
    rw [if_neg c4]
    by_cases c5 : x = '.'
    · rw [if_pos c5]; simp
    rw [if_neg c5]
    by_cases c6 : x = '-'
    · rw [if_pos c6]; simp
    rw [if_neg c6]
    by_cases c7 : x = '+'
    · rw [if_pos c7]; simp
    rw [if_neg c7]
    by_cases c8 : x = ';'
    · rw [if_pos c8]; simp
    rw [if_neg c8]
    by_cases c9 : x = '*'
    · rw [if_pos c9]; simp
    rw [if_neg c9]
    by_cases d0 : x = '='
    · rw [if_pos d0, matchEqual_append]; split <;> simp
    rw [if_neg d0]
    by_cases d1 : x = '!'
    · rw [if_pos d1, matchEqual_append]; split <;> simp
    rw [if_neg d1]
    by_cases d2 : x = '>'
    · rw [if_pos d2, matchEqual_append]; split <;> simp
    rw [if_neg d2]
    by_cases d3 : x = '<'
    · rw [if_pos d3, matchEqual_append]; split <;> simp
    rw [if_neg d3]
    exact scanLiteral_ne_outOfFuel pre x xs l

theorem NextToken_append_ne_outOfFuel (pre suf : List Char) (l : Nat) :
    NextToken (pre ++ suf) ⟨l, pre.length⟩ ≠ .error .outOfFuel := by
  rw [NextToken_append]
  split
  · simp
  · have hcode : pre ++ suf = (pre ++ suf.takeWhile isTrivia) ++ suf.dropWhile isTrivia := by
      rw [List.append_assoc, List.takeWhile_append_dropWhile]
    have hlen : pre.length + (suf.takeWhile isTrivia).length
        = (pre ++ suf.takeWhile isTrivia).length := by simp
    rw [hlen, hcode]
    exact scanToken_ne_outOfFuel _ _ _

/-- No call of `NextToken` exhausts the budget of a loop. -/
theorem NextToken_ne_outOfFuel (code : List Char) (t : Tokenizer) :
    NextToken code t ≠ .error .outOfFuel := by
  by_cases h : t.m_Current ≤ code.length
  · have := NextToken_append_ne_outOfFuel (code.take t.m_Current) (code.drop t.m_Current) t.m_Line
    rw [List.take_append_drop, List.length_take_of_le h] at this
    exact this
  · unfold NextToken
    rw [charAt_beyond code _ (by omega)]
    simp

/-- The state after a call of `NextToken` that took `m` characters of the text
at the cursor, in the form cursor-before-text. -/
theorem split_after (pre suf : List Char) (m : Nat) (h : m ≤ suf.length) :
    pre ++ suf = (pre ++ suf.take m) ++ suf.drop m ∧
      pre.length + m = (pre ++ suf.take m).length := by
  refine ⟨by rw [List.append_assoc, List.take_append_drop], ?_⟩
  rw [List.length_append, List.length_take_of_le h]

theorem TokenizeLoop_ne_outOfFuel :
    ∀ (fuel : Nat) (pre suf : List Char) (l : Nat), suf.length + 1 ≤ fuel →
      TokenizeLoop (pre ++ suf) fuel ⟨l, pre.length⟩ ≠ .error .outOfFuel := by
  intro fuel
  induction fuel with
  | zero => intro pre suf l h; omega
  | succ fuel ih =>
    intro pre suf l hf
    rw [TokenizeLoop_succ]
    refine bind_ne_outOfFuel _ _ (NextToken_append_ne_outOfFuel pre suf l) ?_
    intro r hr
    split
    · rename_i hE
      obtain ⟨n, h1, h2, _, _, h5, _⟩ := @NextToken_step pre suf l r.1 r.2 hr hE
      obtain ⟨hcode, hlen⟩ := split_after pre suf ((suf.takeWhile isTrivia).length + n) h2
      refine bind_ne_outOfFuel _ _ ?_ (fun _ _ => by simp)
      rw [h5, Nat.add_assoc, hlen, hcode]
      apply ih
      simp only [List.length_drop]
      omega
    · simp

/-- `Tokenize` never exhausts the step budget of the embedding: on every source
it returns a stream or stops at a fault of the C++ code. -/
theorem Tokenize_fuel_adequate (code : List Char) : Tokenize code ≠ .error .outOfFuel := by
  have := TokenizeLoop_ne_outOfFuel (fuelFor code) [] code 0 (by simp [fuelFor])
  simpa [Tokenize, Tokenizer.init] using this

/-! ### The line a token carries -/

theorem scanLoop_line (p : Char → Bool) (code : List Char) :
    ∀ (fuel : Nat) (t t' : Tokenizer), scanLoop p code fuel t = .ok t' → t'.m_Line = t.m_Line := by
  intro fuel
  induction fuel with
  | zero => intro t t' h; simp [scanLoop] at h
  | succ fuel ih =>
    intro t t' h
    unfold scanLoop at h
    cases hc : charAt code t.m_Current with
    | error e => rw [hc] at h; simp at h
    | ok c =>
      rw [hc, ok_bind] at h
      split at h
      · have := ih _ _ h
        rw [this]; rfl
      · simp only [pure_eq_ok, Except.ok.injEq] at h
        rw [h]

theorem matchEqual_line {code : List Char} {t : Tokenizer} {two one : TokenType}
    {tok : Token} {t' : Tokenizer} (h : matchEqual code t two one = .ok (tok, t')) :
    tok.Line = t.m_Line := by
  unfold matchEqual Match at h
  cases hc : charAt code t.advance.m_Current with
  | error e => rw [hc] at h; simp at h
  | ok d =>
    rw [hc] at h
    simp only [ok_bind, pure_eq_ok] at h
    split at h
    · simp only [ok_bind, if_true, Except.ok.injEq, Prod.mk.injEq] at h
      rw [← h.1]; rfl
    · simp only [ok_bind, Bool.false_eq_true, if_false, Except.ok.injEq, Prod.mk.injEq] at h
      rw [← h.1]; rfl

theorem scanLiteral_line {code : List Char} {t : Tokenizer} {c : Char}
    {tok : Token} {t' : Tokenizer} (h : scanLiteral code t c = .ok (tok, t')) :
    tok.Line = t.m_Line := by
  unfold scanLiteral at h
  split at h
  · cases hs : stod (cstrAt code t.m_Current) with
    | error e => rw [hs] at h; simp at h
    | ok r =>
      rw [hs] at h
      simp only [ok_bind, pure_eq_ok, Except.ok.injEq, Prod.mk.injEq] at h
      rw [← h.1]
  · split at h
    · rw [StringLoop_eq_scanLoop] at h
      cases hs : scanLoop notQuote code (fuelFor code) t.advance with
      | error e => rw [hs] at h; simp at h
      | ok t1 =>
        rw [hs] at h
        simp only [ok_bind, pure_eq_ok, Except.ok.injEq, Prod.mk.injEq] at h
        rw [← h.1]
        exact scanLoop_line _ _ _ t.advance t1 hs
    · split at h
      · rw [WordLoop_eq_scanLoop] at h
        cases hs : scanLoop isLower code (fuelFor code) t.advance with
        | error e => rw [hs] at h; simp at h
        | ok t1 =>
          rw [hs] at h
          have hl : t1.m_Line = t.m_Line := scanLoop_line _ _ _ t.advance _ hs
          simp only [ok_bind] at h
          split at h
          · simp only [pure_eq_ok, Except.ok.injEq, Prod.mk.injEq] at h
            rw [← h.1]; exact hl
          · simp only [pure_eq_ok, Except.ok.injEq, Prod.mk.injEq] at h
            rw [← h.1]; exact hl
      · simp only [pure_eq_ok, Except.ok.injEq, Prod.mk.injEq] at h
        rw [← h.1]; rfl

/-- Every token the dispatch of `NextToken` returns carries the line counter. -/
theorem scanToken_line {code : List Char} {t : Tokenizer} {c : Char}
    {tok : Token} {t' : Tokenizer} (h : scanToken code t c = .ok (tok, t')) :
    tok.Line = t.m_Line := by
  unfold scanToken at h
  by_cases c0 : c = '('
  · rw [if_pos c0] at h; simp only [pure_eq_ok, Except.ok.injEq, Prod.mk.injEq] at h; rw [← h.1]; rfl
  rw [if_neg c0] at h
  by_cases c1 : c = ')'
  · rw [if_pos c1] at h; simp only [pure_eq_ok, Except.ok.injEq, Prod.mk.injEq] at h; rw [← h.1]; rfl
  rw [if_neg c1] at h
  by_cases c2 : c = '{'
  · rw [if_pos c2] at h; simp only [pure_eq_ok, Except.ok.injEq, Prod.mk.injEq] at h; rw [← h.1]; rfl
  rw [if_neg c2] at h
  by_cases c3 : c = '}'
  · rw [if_pos c3] at h; simp only [pure_eq_ok, Except.ok.injEq, Prod.mk.injEq] at h; rw [← h.1]; rfl
  rw [if_neg c3] at h
  by_cases c4 : c = ','
  · rw [if_pos c4] at h; simp only [pure_eq_ok, Except.ok.injEq, Prod.mk.injEq] at h; rw [← h.1]; rfl
  rw [if_neg c4] at h
  by_cases c5 : c = '.'
  · rw [if_pos c5] at h; simp only [pure_eq_ok, Except.ok.injEq, Prod.mk.injEq] at h; rw [← h.1]; rfl
  rw [if_neg c5] at h
  by_cases c6 : c = '-'
  · rw [if_pos c6] at h; simp only [pure_eq_ok, Except.ok.injEq, Prod.mk.injEq] at h; rw [← h.1]; rfl
  rw [if_neg c6] at h
  by_cases c7 : c = '+'
  · rw [if_pos c7] at h; simp only [pure_eq_ok, Except.ok.injEq, Prod.mk.injEq] at h; rw [← h.1]; rfl
  rw [if_neg c7] at h
  by_cases c8 : c = ';'
  · rw [if_pos c8] at h; simp only [pure_eq_ok, Except.ok.injEq, Prod.mk.injEq] at h; rw [← h.1]; rfl
  rw [if_neg c8] at h
  by_cases c9 : c = '*'
  · rw [if_pos c9] at h; simp only [pure_eq_ok, Except.ok.injEq, Prod.mk.injEq] at h; rw [← h.1]; rfl
  rw [if_neg c9] at h
  by_cases d0 : c = '='
  · rw [if_pos d0] at h; exact matchEqual_line h
  rw [if_neg d0] at h
  by_cases d1 : c = '!'
  · rw [if_pos d1] at h; exact matchEqual_line h
  rw [if_neg d1] at h
  by_cases d2 : c = '>'
  · rw [if_pos d2] at h; exact matchEqual_line h
  rw [if_neg d2] at h
  by_cases d3 : c = '<'
  · rw [if_pos d3] at h; exact matchEqual_line h
  rw [if_neg d3] at h
  exact scanLiteral_line h

/-- The line of the token a call of `NextToken` returns: 0 for the `Eof` at the
terminator, otherwise the line counter plus the newlines skipped. -/
theorem NextToken_line {pre suf : List Char} {l : Nat} {tok : Token} {t' : Tokenizer}
    (h : NextToken (pre ++ suf) ⟨l, pre.length⟩ = .ok (tok, t')) :
    tok.Line = 0 ∨ tok.Line = l + newlines (suf.takeWhile isTrivia) := by
  rw [NextToken_append] at h
  split at h
  · simp only [Except.ok.injEq, Prod.mk.injEq] at h
    left; rw [← h.1]; rfl
  · right; exact scanToken_line h

theorem newlines_le_of_sublist {a b : List Char} (h : a.Sublist b) : newlines a ≤ newlines b :=
  h.count_le _

theorem tokenStart_error {code : List Char} {t : Tokenizer} {e : Fault}
    (h : tokenStart code t = .error e) : NextToken code t = .error e := by
  unfold tokenStart at h
  unfold NextToken
  cases hc : charAt code t.m_Current with
  | error e' => rw [hc] at h; simpa using h
  | ok c0 =>
    rw [hc] at h
    simp only [ok_bind] at h ⊢
    split
    · rename_i hN; rw [if_pos hN] at h; simp at h
    · rename_i hN
      rw [if_neg hN] at h
      cases hs : SkipTriviaLoop code (fuelFor code) t with
      | error e' => rw [hs] at h; simpa using h
      | ok t1 => rw [hs] at h; simp at h

theorem TokenStartsLoop_succ (code : List Char) (fuel : Nat) (t : Tokenizer) :
    TokenStartsLoop code (fuel + 1) t =
      (tokenStart code t >>= fun s => NextToken code t >>= fun r =>
        if r.1.Type_ ≠ .Eof then
          TokenStartsLoop code fuel r.2 >>= fun rest => pure ((s, r.1) :: rest)
        else pure [(s, r.1)]) := rfl

/-- Dropping the offsets from the stream with offsets gives the stream of
`Tokenize`, fault for fault. -/
theorem TokenStartsLoop_tokens (code : List Char) :
    ∀ (fuel : Nat) (t : Tokenizer),
      (TokenStartsLoop code fuel t).map (List.map Prod.snd) = TokenizeLoop code fuel t := by
  intro fuel
  induction fuel with
  | zero => intro t; rfl
  | succ fuel ih =>
    intro t
    rw [TokenStartsLoop_succ, TokenizeLoop_succ]
    cases hs : tokenStart code t with
    | error e => rw [tokenStart_error hs]; rfl
    | ok s =>
      cases hN : NextToken code t with
      | error e => rfl
      | ok r =>
        simp only [ok_bind]
        split
        · rw [← ih r.2]
          cases TokenStartsLoop code fuel r.2 with
          | error e => rfl
          | ok rest => rfl
        · rfl

theorem TokenStarts_tokens (code : List Char) :
    (TokenStarts code).map (List.map Prod.snd) = Tokenize code :=
  TokenStartsLoop_tokens code _ _

theorem lexemeNewlines_cons (t : Token) (ts : List Token) :
    lexemeNewlines (t :: ts) = newlines t.Lexeme.data + lexemeNewlines ts := by
  simp [lexemeNewlines]

theorem newlines_take_append (pre suf : List Char) (j : Nat) :
    newlines ((pre ++ suf).take (pre.length + j)) = newlines pre + newlines (suf.take j) := by
  rw [List.take_append, newlines_append]

/-- The line counter and the newlines before the cursor: with `D` newlines
inside the lexemes of the tokens returned so far, every later token other than
`Eof` has `Line + D +` (newlines inside the lexemes between) `=` the newlines
before its first character. -/
theorem TokenStartsLoop_lines :
    ∀ (fuel : Nat) (pre suf : List Char) (l D : Nat) (sts : List (Nat × Token)),
      l + D = newlines pre →
      TokenStartsLoop (pre ++ suf) fuel ⟨l, pre.length⟩ = .ok sts →
      ∀ (k s : Nat) (tok : Token), sts[k]? = some (s, tok) → tok.Type_ ≠ .Eof →
        tok.Line + D + lexemeNewlines ((sts.take k).map Prod.snd)
          = newlines ((pre ++ suf).take s) := by
  intro fuel
  induction fuel with
  | zero => intro pre suf l D sts _ h; simp [TokenStartsLoop] at h
  | succ fuel ih =>
    intro pre suf l D sts hD h k s tok hk hE
    rw [TokenStartsLoop_succ] at h
    cases hs : tokenStart (pre ++ suf) ⟨l, pre.length⟩ with
    | error e => rw [hs] at h; simp at h
    | ok s0 =>
      cases hN : NextToken (pre ++ suf) ⟨l, pre.length⟩ with
      | error e => rw [hs, hN] at h; simp at h
      | ok r =>
        rw [hs, hN] at h
        simp only [ok_bind] at h
        by_cases hr : r.1.Type_ = .Eof
        · rw [if_neg (by simp [hr])] at h
          simp only [pure_eq_ok, Except.ok.injEq] at h
          subst h
          cases k with
          | zero =>
            simp only [List.getElem?_cons_zero, Option.some.injEq, Prod.mk.injEq] at hk
            exact absurd (hk.2 ▸ hr) hE
          | succ k => simp at hk
        · rw [if_pos hr] at h
          obtain ⟨n, h1, h2, h3, h4, h5, h6⟩ := @NextToken_step pre suf _ r.1 r.2 hN hr
          rw [hs] at h3
          simp only [Except.ok.injEq] at h3
          obtain ⟨hcode, hlen⟩ := split_after pre suf ((suf.takeWhile isTrivia).length + n) h2
          cases hR : TokenStartsLoop (pre ++ suf) fuel r.2 with
          | error e => rw [hR] at h; simp at h
          | ok rest =>
            rw [hR] at h
            simp only [ok_bind, pure_eq_ok, Except.ok.injEq] at h
            subst h
            cases k with
            | zero =>
              simp only [List.getElem?_cons_zero, Option.some.injEq, Prod.mk.injEq] at hk
              obtain ⟨hs0, htok⟩ := hk
              subst htok
              rw [← hs0, h3, newlines_take_append, take_length_takeWhile, h4]
              simp only [List.take_zero, List.map_nil, lexemeNewlines, List.sum_nil]
              omega
            | succ k =>
              simp only [List.getElem?_cons_succ] at hk
              have hsplit : newlines (suf.take ((suf.takeWhile isTrivia).length + n))
                  = newlines (suf.takeWhile isTrivia) + newlines r.1.Lexeme.data := by
                rw [List.take_add, newlines_append, take_length_takeWhile,
                  drop_length_takeWhile, h6]
              have hD' : r.1.Line + (D + newlines r.1.Lexeme.data)
                  = newlines (pre ++ suf.take ((suf.takeWhile isTrivia).length + n)) := by
                rw [newlines_append, hsplit, h4]; omega
              rw [h5, Nat.add_assoc, hlen] at hR
              have hR' : TokenStartsLoop
                  ((pre ++ suf.take ((suf.takeWhile isTrivia).length + n))
                    ++ suf.drop ((suf.takeWhile isTrivia).length + n)) fuel
                  ⟨r.1.Line, (pre ++ suf.take ((suf.takeWhile isTrivia).length + n)).length⟩
                  = .ok rest := by
                rw [← hcode]; exact hR
              have := ih _ _ _ _ rest hD' hR' k s tok hk hE
              rw [← hcode] at this
              rw [← this]
              simp only [List.take_succ_cons, List.map_cons, lexemeNewlines_cons]
              omega

/-- On a source without newlines every token carries line 0. -/
theorem TokenizeLoop_lines_zero :
    ∀ (fuel : Nat) (pre suf : List Char) (ts : List Token), newlines suf = 0 →
      TokenizeLoop (pre ++ suf) fuel ⟨0, pre.length⟩ = .ok ts → ∀ x ∈ ts, x.Line = 0 := by
  intro fuel
  induction fuel with
  | zero => intro pre suf ts _ h; simp [TokenizeLoop] at h
  | succ fuel ih =>
    intro pre suf ts hsuf h x hx
    rw [TokenizeLoop_succ] at h
    cases hN : NextToken (pre ++ suf) ⟨0, pre.length⟩ with
    | error e => rw [hN] at h; simp at h
    | ok r =>
      rw [hN, ok_bind] at h
      have htw : newlines (suf.takeWhile isTrivia) = 0 := by
        have := newlines_le_of_sublist (@List.takeWhile_sublist _ suf isTrivia)
        omega
      have hline : r.1.Line = 0 := by
        rcases @NextToken_line pre suf 0 r.1 r.2 hN with h0 | h0
        · exact h0
        · rw [h0, htw]
      by_cases hr : r.1.Type_ = .Eof
      · rw [if_neg (by simp [hr])] at h
        simp only [pure_eq_ok, Except.ok.injEq] at h
        subst h
        simp only [List.mem_singleton] at hx
        rw [hx]; exact hline
      · rw [if_pos hr] at h
        obtain ⟨n, h1, h2, _, _, h5, _⟩ := @NextToken_step pre suf _ r.1 r.2 hN hr
        obtain ⟨hcode, hlen⟩ := split_after pre suf ((suf.takeWhile isTrivia).length + n) h2
        cases hR : TokenizeLoop (pre ++ suf) fuel r.2 with
        | error e => rw [hR] at h; simp at h
        | ok rest =>
          rw [hR] at h
          simp only [ok_bind, pure_eq_ok, Except.ok.injEq] at h
          subst h
          rcases List.mem_cons.mp hx with hx | hx
          · rw [hx]; exact hline
          · rw [h5, hline, Nat.add_assoc, hlen, hcode] at hR
            refine ih _ _ rest ?_ hR x hx
            have := newlines_le_of_sublist
              (List.drop_sublist ((suf.takeWhile isTrivia).length + n) suf)
            omega

theorem lexemeNewlines_eq_zero (ts : List Token) (h : ∀ x ∈ ts, newlines x.Lexeme.data = 0) :
    lexemeNewlines ts = 0 := by
  induction ts with
  | nil => rfl
  | cons t ts ih =>
    rw [lexemeNewlines_cons, h t (List.mem_cons_self _ _),
      ih (fun x hx => h x (List.mem_cons_of_mem _ hx))]

/-- The line of every token other than `Eof` of a stream `Tokenize` returns, in
general: the line plus the newlines inside the lexemes of the earlier tokens is
the number of newlines before the first character of the token. -/
theorem Tokenize_lines (code : List Char) (ts : List Token) (h : Tokenize code = .ok ts) :
    ∃ sts : List (Nat × Token), TokenStarts code = .ok sts ∧ sts.map Prod.snd = ts ∧
      ∀ (k s : Nat) (tok : Token), sts[k]? = some (s, tok) → tok.Type_ ≠ .Eof →
        tok.Line + lexemeNewlines (ts.take k) = newlines (code.take s) := by
  have hmap := TokenStarts_tokens code
  rw [h] at hmap
  cases hS : TokenStarts code with
  | error e => rw [hS] at hmap; simp [Except.map] at hmap
  | ok sts =>
    rw [hS] at hmap
    simp only [Except.map, Except.ok.injEq] at hmap
    refine ⟨sts, rfl, hmap, ?_⟩
    intro k s tok hk hE
    have := TokenStartsLoop_lines (fuelFor code) [] code 0 0 sts rfl hS k s tok hk hE
    rw [← hmap, ← List.map_take]
    simpa using this

/-! ### The dispatch of `NextToken` as a function of the text at the cursor -/

/-- The literal scanners, with the cursor before the text `x :: xs`. -/
theorem scanLiteral_append (pre : List Char) (x : Char) (xs : List Char) (l : Nat) :
    scanLiteral (pre ++ x :: xs) ⟨l, pre.length⟩ x = literalAt pre.length l x xs := by
  have hcode : pre ++ x :: xs = (pre ++ [x]) ++ xs := by simp
  have hlen : pre.length + 1 = (pre ++ [x]).length := by simp
  unfold scanLiteral literalAt
  by_cases hd : '0' ≤ x ∧ x < '9'
  · rw [if_pos hd, if_pos hd, cstrAt_append]
  · rw [if_neg hd, if_neg hd]
    by_cases hq : x = '"'
    · rw [if_pos hq, if_pos hq]
      have hN : notQuote NUL = true := by decide
      have hf := length_takeWhile_add_two_le_fuelFor notQuote (pre ++ [x]) xs
      rw [StringLoop_eq_scanLoop]
      simp only [Tokenizer.advance]
      rw [hlen, hcode, scanLoop_append notQuote xs (pre ++ [x]) l _ hf]
      by_cases hall : xs.all notQuote = true
      · rw [if_pos ⟨hN, hall⟩, if_pos hall]; rfl
      · rw [if_neg (fun e => hall e.2), if_neg hall]
        have e1 : (pre ++ [x]).length + (xs.takeWhile notQuote).length + 1
            = pre.length + ((xs.takeWhile notQuote).length + 2) := by
          simp only [List.length_append, List.length_singleton]; omega
        simp only [ok_bind, pure_eq_ok, e1]
        rw [← hcode, slice_append]
    · rw [if_neg hq, if_neg hq]
      by_cases hw : 'a' ≤ x ∧ x ≤ 'z'
      · rw [if_pos hw, if_pos hw]
        have hN : ¬ (isLower NUL = true ∧ xs.all isLower = true) := by
          intro e; exact absurd e.1 (by decide)
        have hf := length_takeWhile_add_two_le_fuelFor isLower (pre ++ [x]) xs
        rw [WordLoop_eq_scanLoop]
        simp only [Tokenizer.advance]
        rw [hlen, hcode, scanLoop_append isLower xs (pre ++ [x]) l _ hf, if_neg hN]
        have e1 : (pre ++ [x]).length + (xs.takeWhile isLower).length
            = pre.length + ((xs.takeWhile isLower).length + 1) := by
          simp only [List.length_append, List.length_singleton]; omega
        simp only [ok_bind]
        rw [e1, ← hcode, slice_append]
        cases m_KeyWordsTable.lookup
          (String.mk ((x :: xs).take ((xs.takeWhile isLower).length + 1))) with
        | none => rfl
        | some type => rfl
      · rw [if_neg hw, if_neg hw]; rfl

theorem literalAt_relocate (off l : Nat) (x : Char) (xs : List Char) :
    literalAt off l x xs = (literalAt 0 0 x xs).map (relocate l off) := by
  unfold literalAt
  by_cases hd : '0' ≤ x ∧ x < '9'
  · rw [if_pos hd, if_pos hd]
    cases stod ((x :: xs).takeWhile (fun c => c != NUL)) with
    | error e => rfl
    | ok r => simp [Except.map, relocate]
  · rw [if_neg hd, if_neg hd]
    by_cases hq : x = '"'
    · rw [if_pos hq, if_pos hq]
      by_cases hall : xs.all notQuote = true
      · rw [if_pos hall, if_pos hall]; rfl
      · rw [if_neg hall, if_neg hall]; simp [Except.map, relocate]
    · rw [if_neg hq, if_neg hq]
      by_cases hw : 'a' ≤ x ∧ x ≤ 'z'
      · rw [if_pos hw, if_pos hw]
        cases m_KeyWordsTable.lookup
          (String.mk ((x :: xs).take ((xs.takeWhile isLower).length + 1))) with
        | none => simp [Except.map, relocate]
        | some type => simp [Except.map, relocate]
      · rw [if_neg hw, if_neg hw]; simp [Except.map, relocate]

/-- The dispatch of `NextToken` depends on the text before the cursor and on
the line counter only through the offset and the line it hands on. -/
theorem scanToken_relocate (pre suf : List Char) (l : Nat) :
    scanToken (pre ++ suf) ⟨l, pre.length⟩ (suf.headD NUL)
      = (scanToken suf ⟨0, 0⟩ (suf.headD NUL)).map (relocate l pre.length) := by
  cases suf with
  | nil =>
    rw [List.headD_nil, scanToken_NUL, scanToken_NUL]
    rfl
  | cons x xs =>
    have hm : ∀ two one : TokenType, matchEqual (x :: xs) ⟨0, 0⟩ two one =
        if xs.headD NUL = '=' then .ok (⟨two, 0, "", none⟩, ⟨0, 0 + 2⟩)
        else .ok (⟨one, 0, "", none⟩, ⟨0, 0 + 1⟩) :=
      fun two one => matchEqual_append [] x xs 0 two one
    have hl : scanLiteral (x :: xs) ⟨0, 0⟩ x = literalAt 0 0 x xs :=
      scanLiteral_append [] x xs 0
    rw [List.headD_cons]
    unfold scanToken
    by_cases c0 : x = '('
    · rw [if_pos c0, if_pos c0]; rfl
    rw [if_neg c0, if_neg c0]
    by_cases c1 : x = ')'
    · rw [if_pos c1, if_pos c1]; rfl
    rw [if_neg c1, if_neg c1]
    by_cases c2 : x = '{'
    · rw [if_pos c2, if_pos c2]; rfl
    rw [if_neg c2, if_neg c2]
    by_cases c3 : x = '}'
    · rw [if_pos c3, if_pos c3]; rfl
    rw [if_neg c3, if_neg c3]
    by_cases c4 : x = ','
    · rw [if_pos c4, if_pos c4]; rfl
    rw [if_neg c4, if_neg c4]
    by_cases c5 : x = '.'
    · rw [if_pos c5, if_pos c5]; rfl
    rw [if_neg c5, if_neg c5]
    by_cases c6 : x = '-'
    · rw [if_pos c6, if_pos c6]; rfl
    rw [if_neg c6, if_neg c6]
    by_cases c7 : x = '+'
    · rw [if_pos c7, if_pos c7]; rfl
    rw [if_neg c7, if_neg c7]
    by_cases c8 : x = ';'
    · rw [if_pos c8, if_pos c8]; rfl
    rw [if_neg c8, if_neg c8]
    by_cases c9 : x = '*'
    · rw [if_pos c9, if_pos c9]; rfl
    rw [if_neg c9, if_neg c9]
    by_cases d0 : x = '='
    · rw [if_pos d0, if_pos d0, matchEqual_append, hm]; split <;> rfl
    rw [if_neg d0, if_neg d0]
    by_cases d1 : x = '!'
    · rw [if_pos d1, if_pos d1, matchEqual_append, hm]; split <;> rfl
    rw [if_neg d1, if_neg d1]
    by_cases d2 : x = '>'
    · rw [if_pos d2, if_pos d2, matchEqual_append, hm]; split <;> rfl
    rw [if_neg d2, if_neg d2]
    by_cases d3 : x = '<'
    · rw [if_pos d3, if_pos d3, matchEqual_append, hm]; split <;> rfl
    rw [if_neg d3, if_neg d3]
    rw [scanLiteral_append, hl]
    exact literalAt_relocate _ _ _ _

/-- `NextToken` as a function of the text at the cursor: the dispatch on the
text after the leading blanks, tabs and newlines, moved to the cursor and the
line reached. -/
theorem NextToken_relocate (pre suf : List Char) (l : Nat) :
    NextToken (pre ++ suf) ⟨l, pre.length⟩ =
      if suf.headD NUL = NUL then .ok (eofAtTerminator, ⟨l, pre.length⟩)
      else (scanToken (suf.dropWhile isTrivia) ⟨0, 0⟩ ((suf.dropWhile isTrivia).headD NUL)).map
        (relocate (l + newlines (suf.takeWhile isTrivia))
          (pre.length + (suf.takeWhile isTrivia).length)) := by
  rw [NextToken_append]
  by_cases hN : suf.headD NUL = NUL
  · rw [if_pos hN, if_pos hN]
  · rw [if_neg hN, if_neg hN]
    have hcode : pre ++ suf = (pre ++ suf.takeWhile isTrivia) ++ suf.dropWhile isTrivia := by
      rw [List.append_assoc, List.takeWhile_append_dropWhile]
    have hlen : pre.length + (suf.takeWhile isTrivia).length
        = (pre ++ suf.takeWhile isTrivia).length := by simp
    rw [hlen, hcode, scanToken_relocate]

theorem forall₂_getElem? {α β : Type} {R : α → β → Prop} :
    ∀ {l1 : List α} {l2 : List β}, List.Forall₂ R l1 l2 →
      ∀ (k : Nat) (a : α) (b : β), l1[k]? = some a → l2[k]? = some b → R a b := by
  intro l1 l2 h
  induction h with
  | nil => intro k a b h1; simp at h1
  | cons hab _ ih =>
    intro k a b h1 h2
    cases k with
    | zero =>
      simp only [List.getElem?_cons_zero, Option.some.injEq] at h1 h2
      rw [← h1, ← h2]; exact hab
    | succ k =>
      simp only [List.getElem?_cons_succ] at h1 h2
      exact ih k a b h1 h2

theorem StreamsAgree_cons {d : Nat} {a b : Token} (hab : SameContent d a b)
    {r1 r2 : Except Fault (List Token)} (h : StreamsAgree d r1 r2) :
    StreamsAgree d (r1 >>= fun rest => pure (a :: rest)) (r2 >>= fun rest => pure (b :: rest)) := by
  cases r1 with
  | error e1 =>
    cases r2 with
    | error e2 => exact h
    | ok ts2 => exact h
  | ok ts1 =>
    cases r2 with
    | error e2 => exact h
    | ok ts2 => exact List.Forall₂.cons hab h

/-- Two runs of the loop of `Tokenize` over the same text at the cursor, with
line counters `l + d` and `l`, end alike up to a shift of the lines by `d`. -/
theorem TokenizeLoop_shift :
    ∀ (fuel1 fuel2 : Nat) (pre1 pre2 suf : List Char) (l d : Nat),
      suf.length + 1 ≤ fuel1 → suf.length + 1 ≤ fuel2 →
      StreamsAgree d (TokenizeLoop (pre1 ++ suf) fuel1 ⟨l + d, pre1.length⟩)
        (TokenizeLoop (pre2 ++ suf) fuel2 ⟨l, pre2.length⟩) := by
  intro fuel1
  induction fuel1 with
  | zero => intro fuel2 pre1 pre2 suf l d h1; omega
  | succ fuel1 ih =>
    intro fuel2 pre1 pre2 suf l d h1 h2
    obtain ⟨f2, rfl⟩ : ∃ f2, fuel2 = f2 + 1 := ⟨fuel2 - 1, by omega⟩
    rw [TokenizeLoop_succ, TokenizeLoop_succ, NextToken_relocate, NextToken_relocate]
    by_cases hN : suf.headD NUL = NUL
    · rw [if_pos hN, if_pos hN]
      exact List.Forall₂.cons ⟨rfl, rfl, rfl, fun h => absurd rfl h⟩ List.Forall₂.nil
    · rw [if_neg hN, if_neg hN]
      cases hb : scanToken (suf.dropWhile isTrivia) ⟨0, 0⟩ ((suf.dropWhile isTrivia).headD NUL) with
      | error e => rfl
      | ok r0 =>
        simp only [Except.map, ok_bind, relocate]
        by_cases hE : r0.1.Type_ = .Eof
        · rw [if_neg (by simp [hE]), if_neg (by simp [hE])]
          exact List.Forall₂.cons ⟨rfl, rfl, rfl, fun h => absurd hE h⟩ List.Forall₂.nil
        · rw [if_pos (by simpa using hE), if_pos (by simpa using hE)]
          obtain ⟨n, hn1, hn2, _, hn4, _⟩ :=
            @scanToken_step [] (suf.dropWhile isTrivia) 0 r0.1 r0.2 hb hE
          have hcur : r0.2.m_Current = n := by rw [hn4]; simp
          have hsuf : suf.length
              = (suf.takeWhile isTrivia).length + (suf.dropWhile isTrivia).length := by
            rw [← List.length_append, List.takeWhile_append_dropWhile]
          have hm : (suf.takeWhile isTrivia).length + n ≤ suf.length := by omega
          obtain ⟨hc1, hl1⟩ := split_after pre1 suf ((suf.takeWhile isTrivia).length + n) hm
          obtain ⟨hc2, hl2⟩ := split_after pre2 suf ((suf.takeWhile isTrivia).length + n) hm
          have hlen' : (suf.drop ((suf.takeWhile isTrivia).length + n)).length + 1 ≤ fuel1 := by
            simp only [List.length_drop]; omega
          have hlen'' : (suf.drop ((suf.takeWhile isTrivia).length + n)).length + 1 ≤ f2 := by
            simp only [List.length_drop]; omega
          have := ih f2 (pre1 ++ suf.take ((suf.takeWhile isTrivia).length + n))
            (pre2 ++ suf.take ((suf.takeWhile isTrivia).length + n))
            (suf.drop ((suf.takeWhile isTrivia).length + n))
            (l + newlines (suf.takeWhile isTrivia)) d hlen' hlen''
          rw [← hc1, ← hc2, ← hl1, ← hl2] at this
          have e1 : l + d + newlines (suf.takeWhile isTrivia)
              = l + newlines (suf.takeWhile isTrivia) + d := by omega
          rw [hcur, e1, Nat.add_assoc pre1.length, Nat.add_assoc pre2.length]
          exact @StreamsAgree_cons d
            ⟨r0.1.Type_, l + newlines (suf.takeWhile isTrivia) + d, r0.1.Lexeme, r0.1.Number⟩
            ⟨r0.1.Type_, l + newlines (suf.takeWhile isTrivia), r0.1.Lexeme, r0.1.Number⟩
            ⟨rfl, rfl, rfl, fun _ => rfl⟩ _ _ this

theorem takeWhile_isTrivia_append (w s : List Char) (hw : ∀ c ∈ w, isTrivia c = true) :
    (w ++ s).takeWhile isTrivia = w ++ s.takeWhile isTrivia ∧
      (w ++ s).dropWhile isTrivia = s.dropWhile isTrivia := by
  induction w with
  | nil => exact ⟨rfl, rfl⟩
  | cons c w ih =>
    have hc := hw c (List.mem_cons_self _ _)
    obtain ⟨h1, h2⟩ := ih (fun x hx => hw x (List.mem_cons_of_mem _ hx))
    refine ⟨?_, ?_⟩
    · rw [List.cons_append, List.takeWhile_cons, if_pos hc, h1, List.cons_append]
    · rw [List.cons_append, List.dropWhile_cons, if_pos hc, h2]

theorem dropWhile_isTrivia_of_headD_NUL (s : List Char) (h : s.headD NUL = NUL) :
    s.dropWhile isTrivia = s ∧ s.takeWhile isTrivia = [] := by
  cases s with
  | nil => exact ⟨rfl, rfl⟩
  | cons y ys =>
    rw [List.headD_cons] at h
    subst h
    exact ⟨rfl, rfl⟩

/-- Blanks, tabs and newlines put before a source change the run of `Tokenize`
only by the lines of the tokens, which grow by the newlines put before. -/
theorem Tokenize_leading_trivia (w s : List Char) (hw : ∀ c ∈ w, isTrivia c = true) :
    StreamsAgree (newlines w) (Tokenize (w ++ s)) (Tokenize s) := by
  cases w with
  | nil =>
    have := TokenizeLoop_shift (fuelFor s) (fuelFor s) [] [] s 0 0
      (by simp [fuelFor]) (by simp [fuelFor])
    exact this
  | cons c w =>
    have hc : isTrivia c = true := hw c (List.mem_cons_self _ _)
    have hcN : ¬ ((c :: w ++ s).headD NUL = NUL) := by
      intro h
      rw [List.cons_append, List.headD_cons] at h
      subst h
      exact absurd hc (by decide)
    obtain ⟨htw, hdw⟩ := takeWhile_isTrivia_append (c :: w) s hw
    have hL := NextToken_relocate [] (c :: w ++ s) 0
    have hR := NextToken_relocate [] s 0
    rw [if_neg hcN, htw, hdw] at hL
    simp only [List.nil_append, List.length_nil, Nat.zero_add] at hL hR
    show StreamsAgree _ (TokenizeLoop (c :: w ++ s) ((c :: w ++ s).length + 1 + 1) ⟨0, 0⟩)
      (TokenizeLoop s (s.length + 1 + 1) ⟨0, 0⟩)
    rw [TokenizeLoop_succ, TokenizeLoop_succ, hL, hR]
    by_cases hN : s.headD NUL = NUL
    · obtain ⟨hd, _⟩ := dropWhile_isTrivia_of_headD_NUL s hN
      rw [if_pos hN, hd, hN, scanToken_NUL]
      exact List.Forall₂.cons ⟨rfl, rfl, rfl, fun h => absurd rfl h⟩ List.Forall₂.nil
    · rw [if_neg hN]
      cases hb : scanToken (s.dropWhile isTrivia) ⟨0, 0⟩ ((s.dropWhile isTrivia).headD NUL) with
      | error e => rfl
      | ok r0 =>
        simp only [Except.map, ok_bind, relocate]
        by_cases hE : r0.1.Type_ = .Eof
        · rw [if_neg (by simp [hE]), if_neg (by simp [hE])]
          exact List.Forall₂.cons ⟨rfl, rfl, rfl, fun h => absurd hE h⟩ List.Forall₂.nil
        · rw [if_pos (by simpa using hE), if_pos (by simpa using hE)]
          obtain ⟨n, hn1, hn2, _, hn4, _⟩ :=
            @scanToken_step [] (s.dropWhile isTrivia) 0 r0.1 r0.2 hb hE
          have hcur : r0.2.m_Current = n := by rw [hn4]; simp
          have hsuf : s.length
              = (s.takeWhile isTrivia).length + (s.dropWhile isTrivia).length := by
            rw [← List.length_append, List.takeWhile_append_dropWhile]
          have hm : (s.takeWhile isTrivia).length + n ≤ s.length := by omega
          obtain ⟨hc1, hl1⟩ := split_after (c :: w) s ((s.takeWhile isTrivia).length + n) hm
          obtain ⟨hc2, hl2⟩ := split_after [] s ((s.takeWhile isTrivia).length + n) hm
          have := TokenizeLoop_shift ((c :: w ++ s).length + 1) (s.length + 1)
            ((c :: w) ++ s.take ((s.takeWhile isTrivia).length + n))
            ([] ++ s.take ((s.takeWhile isTrivia).length + n))
            (s.drop ((s.takeWhile isTrivia).length + n))
            (newlines (s.takeWhile isTrivia)) (newlines (c :: w))
            (by simp only [List.length_drop, List.length_append, List.length_cons]; omega)
            (by simp only [List.length_drop]; omega)
          rw [← hc1, ← hc2, ← hl1, ← hl2] at this
          simp only [List.nil_append, List.length_nil, Nat.zero_add] at this
          have e1 : newlines (c :: w ++ s.takeWhile isTrivia)
              = newlines (s.takeWhile isTrivia) + newlines (c :: w) := by
            rw [newlines_append]; omega
          have e2 : (c :: w ++ s.takeWhile isTrivia).length + n
              = (c :: w).length + ((s.takeWhile isTrivia).length + n) := by
            simp only [List.length_append, List.length_cons]; omega
          rw [hcur, e1, e2]
          exact @StreamsAgree_cons (newlines (c :: w))
            ⟨r0.1.Type_, newlines (s.takeWhile isTrivia) + newlines (c :: w), r0.1.Lexeme,
              r0.1.Number⟩
            ⟨r0.1.Type_, newlines (s.takeWhile isTrivia), r0.1.Lexeme, r0.1.Number⟩
            ⟨rfl, rfl, rfl, fun _ => rfl⟩ _ _ this

/-! ### The lexeme of a `Number` token -/

theorem keyword_kind_ne_Number (k : String) (type : TokenType)
    (h : m_KeyWordsTable.lookup k = some type) : type ≠ .Number := by
  have all : ∀ p ∈ m_KeyWordsTable, p.2 ≠ TokenType.Number := by decide
  exact all (k, type) (lookup_mem k type _ h)

theorem matchEqual_lexeme {code : List Char} {t : Tokenizer} {two one : TokenType}
    {tok : Token} {t' : Tokenizer} (h : matchEqual code t two one = .ok (tok, t')) :
    tok.Type_ = .Number → tok.Lexeme = "" := by
  intro _
  unfold matchEqual Match at h
  cases hc : charAt code t.advance.m_Current with
  | error e => rw [hc] at h; simp at h
  | ok d =>
    rw [hc] at h
    simp only [ok_bind, pure_eq_ok] at h
    split at h
    · simp only [ok_bind, if_true, Except.ok.injEq, Prod.mk.injEq] at h
      rw [← h.1]; rfl
    · simp only [ok_bind, Bool.false_eq_true, if_false, Except.ok.injEq, Prod.mk.injEq] at h
      rw [← h.1]; rfl

theorem scanLiteral_lexeme {code : List Char} {t : Tokenizer} {c : Char}
    {tok : Token} {t' : Tokenizer} (h : scanLiteral code t c = .ok (tok, t')) :
    tok.Type_ = .Number → tok.Lexeme = "" := by
  unfold scanLiteral at h
  split at h
  · cases hs : stod (cstrAt code t.m_Current) with
    | error e => rw [hs] at h; simp at h
    | ok r =>
      rw [hs] at h
      simp only [ok_bind, pure_eq_ok, Except.ok.injEq, Prod.mk.injEq] at h
      intro _
      rw [← h.1]
  · split at h
    · cases hs : StringLoop code (fuelFor code) t.advance with
      | error e => rw [hs] at h; simp at h
      | ok t1 =>
        rw [hs] at h
        simp only [ok_bind, pure_eq_ok, Except.ok.injEq, Prod.mk.injEq] at h
        intro hk
        rw [← h.1] at hk
        exact TokenType.noConfusion hk
    · split at h
      · cases hs : WordLoop code (fuelFor code) t.advance with
        | error e => rw [hs] at h; simp at h
        | ok t1 =>
          rw [hs] at h
          simp only [ok_bind] at h
          cases hlk : m_KeyWordsTable.lookup (slice code t.m_Current t1.m_Current) with
          | none =>
            rw [hlk] at h
            simp only [pure_eq_ok, Except.ok.injEq, Prod.mk.injEq] at h
            intro _
            rw [← h.1]; rfl
          | some type =>
            rw [hlk] at h
            simp only [pure_eq_ok, Except.ok.injEq, Prod.mk.injEq] at h
            intro hk
            rw [← h.1] at hk
            exact absurd hk (keyword_kind_ne_Number _ _ hlk)
      · simp only [pure_eq_ok, Except.ok.injEq, Prod.mk.injEq] at h
        intro _
        rw [← h.1]; rfl

theorem scanToken_lexeme {code : List Char} {t : Tokenizer} {c : Char}
    {tok : Token} {t' : Tokenizer} (h : scanToken code t c = .ok (tok, t')) :
    tok.Type_ = .Number → tok.Lexeme = "" := by
  unfold scanToken at h
  by_cases c0 : c = '('
  · rw [if_pos c0] at h; simp only [pure_eq_ok, Except.ok.injEq, Prod.mk.injEq] at h; rw [← h.1]; intro _; rfl
  rw [if_neg c0] at h
  by_cases c1 : c = ')'
  · rw [if_pos c1] at h; simp only [pure_eq_ok, Except.ok.injEq, Prod.mk.injEq] at h; rw [← h.1]; intro _; rfl
  rw [if_neg c1] at h
  by_cases c2 : c = '{'
  · rw [if_pos c2] at h; simp only [pure_eq_ok, Except.ok.injEq, Prod.mk.injEq] at h; rw [← h.1]; intro _; rfl
  rw [if_neg c2] at h
  by_cases c3 : c = '}'
  · rw [if_pos c3] at h; simp only [pure_eq_ok, Except.ok.injEq, Prod.mk.injEq] at h; rw [← h.1]; intro _; rfl
  rw [if_neg c3] at h
  by_cases c4 : c = ','
  · rw [if_pos c4] at h; simp only [pure_eq_ok, Except.ok.injEq, Prod.mk.injEq] at h; rw [← h.1]; intro _; rfl
  rw [if_neg c4] at h
  by_cases c5 : c = '.'
  · rw [if_pos c5] at h; simp only [pure_eq_ok, Except.ok.injEq, Prod.mk.injEq] at h; rw [← h.1]; intro _; rfl
  rw [if_neg c5] at h
  by_cases c6 : c = '-'
  · rw [if_pos c6] at h; simp only [pure_eq_ok, Except.ok.injEq, Prod.mk.injEq] at h; rw [← h.1]; intro _; rfl
  rw [if_neg c6] at h
  by_cases c7 : c = '+'
  · rw [if_pos c7] at h; simp only [pure_eq_ok, Except.ok.injEq, Prod.mk.injEq] at h; rw [← h.1]; intro _; rfl
  rw [if_neg c7] at h
  by_cases c8 : c = ';'
  · rw [if_pos c8] at h; simp only [pure_eq_ok, Except.ok.injEq, Prod.mk.injEq] at h; rw [← h.1]; intro _; rfl
  rw [if_neg c8] at h
  by_cases c9 : c = '*'
  · rw [if_pos c9] at h; simp only [pure_eq_ok, Except.ok.injEq, Prod.mk.injEq] at h; rw [← h.1]; intro _; rfl
  rw [if_neg c9] at h
  by_cases d0 : c = '='
  · rw [if_pos d0] at h; exact matchEqual_lexeme h
  rw [if_neg d0] at h
  by_cases d1 : c = '!'
  · rw [if_pos d1] at h; exact matchEqual_lexeme h
  rw [if_neg d1] at h
  by_cases d2 : c = '>'
  · rw [if_pos d2] at h; exact matchEqual_lexeme h
  rw [if_neg d2] at h
  by_cases d3 : c = '<'
  · rw [if_pos d3] at h; exact matchEqual_lexeme h
  rw [if_neg d3] at h
  exact scanLiteral_lexeme h

/-- A token `NextToken` returns is the `Eof` of the terminator or a token of
the dispatch. -/
theorem NextToken_cases {code : List Char} {t : Tokenizer} {tok : Token} {t' : Tokenizer}
    (h : NextToken code t = .ok (tok, t')) :
    tok = eofAtTerminator ∨ ∃ t1 c, scanToken code t1 c = .ok (tok, t') := by
  unfold NextToken at h
  cases hc : charAt code t.m_Current with
  | error e => rw [hc] at h; simp at h
  | ok c0 =>
    rw [hc, ok_bind] at h
    split at h
    · simp only [pure_eq_ok, Except.ok.injEq, Prod.mk.injEq] at h
      exact Or.inl h.1.symm
    · cases hs : SkipTriviaLoop code (fuelFor code) t with
      | error e => rw [hs] at h; simp at h
      | ok t1 =>
        rw [hs, ok_bind] at h
        cases hc1 : charAt code t1.m_Current with
        | error e => rw [hc1] at h; simp at h
        | ok c =>
          rw [hc1, ok_bind] at h
          exact Or.inr ⟨t1, c, h⟩

/-- A property of every token `NextToken` can return holds of every token of a
stream `Tokenize` returns. -/
theorem TokenizeLoop_all (code : List Char) (P : Token → Prop)
    (hP : ∀ t tok t', NextToken code t = .ok (tok, t') → P tok) :
    ∀ (fuel : Nat) (t : Tokenizer) (ts : List Token),
      TokenizeLoop code fuel t = .ok ts → ∀ x ∈ ts, P x := by
  intro fuel
  induction fuel with
  | zero => intro t ts h; simp [TokenizeLoop] at h
  | succ fuel ih =>
    intro t ts h x hx
    rw [TokenizeLoop_succ] at h
    cases hN : NextToken code t with
    | error e => rw [hN] at h; simp at h
    | ok r =>
      rw [hN, ok_bind] at h
      have hr : P r.1 := hP t r.1 r.2 hN
      split at h
      · cases hR : TokenizeLoop code fuel r.2 with
        | error e => rw [hR] at h; simp at h
        | ok rest =>
          rw [hR] at h
          simp only [ok_bind, pure_eq_ok, Except.ok.injEq] at h
          subst h
          rcases List.mem_cons.mp hx with hx | hx
          · rw [hx]; exact hr
          · exact ih r.2 rest hR x hx
      · simp only [pure_eq_ok, Except.ok.injEq] at h
        subst h
        simp only [List.mem_singleton] at hx
        rw [hx]; exact hr

/-! ### Sources that start with a letter or a digit -/

/-- A character that is none of the fourteen symbols reaches the literal
scanners. -/
theorem scanToken_of_not_symbol (code : List Char) (t : Tokenizer) (c : Char)
    (h : ∀ p ∈ symbolKinds, p.1 ≠ c) : scanToken code t c = scanLiteral code t c := by
  unfold scanToken
  rw [if_neg (fun e => h ('(', .LeftParen) (by decide) e.symm)]
  rw [if_neg (fun e => h (')', .RightParen) (by decide) e.symm)]
  rw [if_neg (fun e => h ('{', .LeftBrace) (by decide) e.symm)]
  rw [if_neg (fun e => h ('}', .RightBrace) (by decide) e.symm)]
  rw [if_neg (fun e => h (',', .Comma) (by decide) e.symm)]
  rw [if_neg (fun e => h ('.', .Dot) (by decide) e.symm)]
  rw [if_neg (fun e => h ('-', .Minums) (by decide) e.symm)]
  rw [if_neg (fun e => h ('+', .Plus) (by decide) e.symm)]
  rw [if_neg (fun e => h (';', .Semicolon) (by decide) e.symm)]
  rw [if_neg (fun e => h ('*', .Star) (by decide) e.symm)]
  rw [if_neg (fun e => h ('=', .Equal) (by decide) e.symm)]
  rw [if_neg (fun e => h ('!', .Bang) (by decide) e.symm)]
  rw [if_neg (fun e => h ('>', .Greater) (by decide) e.symm)]
  rw [if_neg (fun e => h ('<', .Less) (by decide) e.symm)]

/-- A stream of one token: the first call of `NextToken` returns an `Eof`. -/
theorem Tokenize_one (code : List Char) (e : Token) (t1 : Tokenizer)
    (h1 : NextToken code Tokenizer.init = .ok (e, t1)) (he : e.Type_ = .Eof) :
    Tokenize code = .ok [e] := by
  show TokenizeLoop code (code.length + 1 + 1) Tokenizer.init = _
  rw [TokenizeLoop_succ, h1, ok_bind, if_neg (by simp [he])]
  rfl

theorem lookup_none_not_mem {α β : Type} [BEq α] [LawfulBEq α] (k : α) :
    ∀ (l : List (α × β)), l.lookup k = none → k ∉ l.map Prod.fst := by
  intro l
  induction l with
  | nil => intro _; simp
  | cons p l ih =>
    intro h
    obtain ⟨a, b⟩ := p
    rw [List.lookup_cons] at h
    cases hk : (k == a) with
    | true => rw [hk] at h; simp at h
    | false =>
      rw [hk] at h
      have hne : k ≠ a := by
        intro e; subst e; simp at hk
      simp only [List.map_cons, List.mem_cons, not_or]
      exact ⟨hne, ih h⟩

theorem takeWhile_eq_self_of_all (p : Char → Bool) :
    ∀ (s : List Char), (∀ c ∈ s, p c = true) → s.takeWhile p = s := by
  intro s
  induction s with
  | nil => intro _; rfl
  | cons x xs ih =>
    intro h
    rw [List.takeWhile_cons, if_pos (h x (List.mem_cons_self _ _)),
      ih (fun c hc => h c (List.mem_cons_of_mem _ hc))]

/-- The first call of `NextToken` on a run of lowercase letters looks the whole
run up in the keyword table. -/
theorem NextToken_word (x : Char) (xs : List Char)
    (hw : ∀ c ∈ x :: xs, isLower c = true) :
    NextToken (x :: xs) Tokenizer.init =
      match m_KeyWordsTable.lookup (String.mk (x :: xs)) with
      | some type => .ok (⟨type, 0, String.mk (x :: xs), none⟩, ⟨0, (x :: xs).length⟩)
      | none => .ok (⟨.Eof, 0, "", none⟩, ⟨0, (x :: xs).length⟩) := by
  have hx : isLower x = true := hw x (List.mem_cons_self _ _)
  have hxs : xs.takeWhile isLower = xs :=
    takeWhile_eq_self_of_all isLower xs (fun c hc => hw c (List.mem_cons_of_mem _ hc))
  have hsym : ∀ p ∈ symbolKinds, p.1 ≠ x := by
    have all : ∀ p ∈ symbolKinds, ¬ isLower p.1 = true := by decide
    intro p hp e
    exact all p hp (e ▸ hx)
  have hN : x ≠ NUL := by intro e; subst e; exact absurd hx (by decide)
  have hT : isTrivia x = false := by
    cases hT : isTrivia x with
    | false => rfl
    | true =>
      simp only [isTrivia, Bool.or_eq_true, decide_eq_true_eq] at hT
      rcases hT with (rfl | rfl) | rfl <;> exact absurd hx (by decide)
  have hlow : 'a' ≤ x ∧ x ≤ 'z' := by
    simpa [isLower] using hx
  have hd : ¬ ('0' ≤ x ∧ x < '9') := by
    intro h
    exact absurd (lt_of_le_of_lt hlow.1 h.2) (by decide)
  have hq : ¬ x = '"' := by intro e; subst e; exact absurd hx (by decide)
  have hlit := scanLiteral_append [] x xs 0
  simp only [List.nil_append, List.length_nil] at hlit
  rw [NextToken_init x xs hN hT, scanToken_of_not_symbol _ _ _ hsym, hlit]
  unfold literalAt
  rw [if_neg hd, if_neg hq, if_pos hlow, hxs, List.take_of_length_le (by simp)]
  simp only [Nat.zero_add, List.length_cons]

theorem isTrivia_of_blank_tab_newline {w : List Char}
    (hw : ∀ c ∈ w, c = ' ' ∨ c = '\t' ∨ c = '\n') : ∀ c ∈ w, isTrivia c = true := by
  intro c hc
  rcases hw c hc with rfl | rfl | rfl <;> rfl

/-! ### Unterminated strings and unrecognized characters -/

/-- The first call of `NextToken` on a source that opens a string and holds no
further double quote leaves the buffer. -/
theorem NextToken_unterminated (b : List Char) (hb : '"' ∉ b) :
    NextToken ('"' :: b) Tokenizer.init = .error .outOfBounds := by
  have hall : b.all notQuote = true := by
    rw [List.all_eq_true]
    intro c hc
    simp only [notQuote, bne_iff_ne, ne_eq]
    intro e; subst e; exact hb hc
  have := scanToken_quote [] b 0
  rw [if_pos hall] at this
  rw [NextToken_init _ _ (by decide) (by decide)]
  exact this

/-- The first call of `NextToken` on a source whose first character matches no
rule returns the `Eof` of the final fall-through and leaves the cursor at
offset 0. -/
theorem NextToken_unrecognized (c : Char) (rest : List Char) (hN : c ≠ NUL)
    (hT : isTrivia c = false) (hsym : ∀ p ∈ symbolKinds, p.1 ≠ c)
    (hd : ¬ ('0' ≤ c ∧ c < '9')) (hq : c ≠ '"') (hw : ¬ ('a' ≤ c ∧ c ≤ 'z')) :
    NextToken (c :: rest) Tokenizer.init = .ok (⟨.Eof, 0, "", none⟩, ⟨0, 0⟩) := by
  rw [NextToken_init c rest hN hT, scanToken_of_not_symbol _ _ _ hsym]
  unfold scanLiteral
  rw [if_neg hd, if_neg hq, if_neg hw]
  rfl

/-- The first call of `NextToken` on a string literal followed by more text:
the literal ends at the first double quote after the opening one. -/
theorem NextToken_string (a rest : List Char) (ha : '"' ∉ a) :
    NextToken ('"' :: a ++ '"' :: rest) Tokenizer.init
      = .ok (⟨.String, 0, String.mk ('"' :: a ++ ['"']), none⟩, ⟨0, a.length + 2⟩) := by
  have hall : ∀ c ∈ a, notQuote c = true := by
    intro c hc
    simp only [notQuote, bne_iff_ne, ne_eq]
    intro e; subst e; exact ha hc
  have htw : (a ++ '"' :: rest).takeWhile notQuote = a := by
    rw [List.takeWhile_append_of_pos hall]
    simp [List.takeWhile_cons, notQuote]
  have hnall : ¬ ((a ++ '"' :: rest).all notQuote = true) := by
    simp [notQuote]
  have := scanToken_quote [] (a ++ '"' :: rest) 0
  simp only [List.nil_append, List.length_nil, Nat.zero_add, htw, if_neg hnall] at this
  rw [List.cons_append, NextToken_init _ _ (by decide) (by decide), this]
  have ht : ('"' :: (a ++ '"' :: rest)).take (a.length + 2) = '"' :: a ++ ['"'] := by
    rw [show a.length + 2 = (a.length + 1) + 1 from rfl, List.take_succ_cons, List.take_append,
      List.take_succ_cons, List.take_zero]
    rfl
  rw [ht]

/-! ### Rounding to binary64 -/

theorem binaryDigitsLoop_spec (fuel : Nat) : ∀ n, n ≤ fuel → 0 < n →
    2 ^ (binaryDigitsLoop fuel n - 1) ≤ n ∧ n < 2 ^ binaryDigitsLoop fuel n ∧
      1 ≤ binaryDigitsLoop fuel n := by
  induction fuel with
  | zero => intro n h0 hn; omega
  | succ f ih =>
    intro n hf hn
    have hne : n ≠ 0 := by omega
    simp only [binaryDigitsLoop, if_neg hne, Nat.add_sub_cancel]
    by_cases h1 : n / 2 = 0
    · have hn1 : n = 1 := by omega
      subst hn1
      cases f <;> simp [binaryDigitsLoop]
    · obtain ⟨a, b, c⟩ := ih (n / 2) (by omega) (by omega)
      refine ⟨?_, ?_, by omega⟩
      · have e : binaryDigitsLoop f (n / 2) = (binaryDigitsLoop f (n / 2) - 1) + 1 := by omega
        rw [e, pow_succ]
        omega
      · rw [pow_succ]; omega

/-- The binary digits of a positive number: `2^(b-1) ≤ n < 2^b`. -/
theorem binaryDigits_spec (n : Nat) (hn : 0 < n) :
    2 ^ (binaryDigits n - 1) ≤ n ∧ n < 2 ^ binaryDigits n ∧ 1 ≤ binaryDigits n :=
  binaryDigitsLoop_spec n n (Nat.le_refl n) hn

theorem roundHalfEven_one (n : Nat) : roundHalfEven n 1 = n := by
  simp [roundHalfEven, Nat.mod_one]

/-- Rounding to binary64 keeps every natural number below `2^53`. -/
theorem toDouble_natCast_lt (v : Nat) (h : v < 2 ^ 53) : toDouble (v : ℚ) = (v : ℚ) := by
  by_cases h0 : v = 0
  · subst h0; decide
  have hv : 0 < v := Nat.pos_of_ne_zero h0
  obtain ⟨h1, h2, h3⟩ := binaryDigits_spec v hv
  have hb : binaryDigits v ≤ 53 := by
    by_contra hc
    have : 2 ^ 53 ≤ 2 ^ (binaryDigits v - 1) := Nat.pow_le_pow_right (by decide) (by omega)
    omega
  have hb1 : binaryDigits 1 = 1 := by decide
  have he : ulpExponent v 1 = (binaryDigits v : Int) - 53 := by
    unfold ulpExponent
    rw [hb1]
    have e1 : ((binaryDigits v : Int) - ((1 : Nat) : Int)).toNat = binaryDigits v - 1 := by omega
    have e2 : (((1 : Nat) : Int) - (binaryDigits v : Int)).toNat = 0 := by omega
    rw [e1, e2, Nat.shiftLeft_eq, Nat.shiftLeft_eq, Nat.one_mul, pow_zero, Nat.mul_one, if_pos h1]
    omega
  unfold toDouble
  simp only [Rat.num_natCast, Rat.den_natCast, Int.natAbs_ofNat]
  rw [he]
  have e1 : ((binaryDigits v : Int) - 53).toNat = 0 := by omega
  have e2 : (-((binaryDigits v : Int) - 53)).toNat = 53 - binaryDigits v := by omega
  rw [e1, e2]
  simp only [Nat.shiftLeft_eq, pow_zero, Nat.mul_one, Nat.one_mul, roundHalfEven_one]
  rw [Rat.mkRat_eq_div]
  push_cast
  field_simp

/-- Rounding to binary64 keeps every natural number up to `2^53`. -/
theorem toDouble_natCast (v : Nat) (h : v ≤ 1 <<< 53) : toDouble (v : ℚ) = (v : ℚ) := by
  rcases Nat.lt_or_ge v (2 ^ 53) with hlt | hge
  · exact toDouble_natCast_lt v hlt
  · have : v = 9007199254740992 := by
      have : (1 <<< 53 : Nat) = 2 ^ 53 := by decide
      omega
    subst this
    decide


theorem roundHalfEven_cases (N D : Nat) :
    (roundHalfEven N D = N / D ∧ 2 * (N % D) ≤ D ∧ (2 * (N % D) = D → (N / D) % 2 = 0)) ∨
    (roundHalfEven N D = N / D + 1 ∧ D ≤ 2 * (N % D) ∧ (2 * (N % D) = D → (N / D) % 2 = 1)) := by
  unfold roundHalfEven
  by_cases h1 : 2 * (N % D) < D
  · left; rw [if_pos h1]; exact ⟨rfl, by omega, by omega⟩
  · rw [if_neg h1]
    by_cases h2 : D < 2 * (N % D)
    · right; rw [if_pos h2]; exact ⟨rfl, by omega, by omega⟩
    · rw [if_neg h2]
      rcases Nat.mod_two_eq_zero_or_one (N / D) with h | h
      · left; exact ⟨by rw [h, Nat.add_zero], by omega, fun _ => h⟩
      · right; exact ⟨by rw [h], by omega, fun _ => h⟩

/-- The rounded quotient is within one half of the quotient, and where it is
exactly one half away it is even. -/
theorem roundHalfEven_near (N D : Nat) (hD : 0 < D) :
    2 * |(N : ℚ) - (roundHalfEven N D : ℚ) * D| ≤ D ∧
      (2 * |(N : ℚ) - (roundHalfEven N D : ℚ) * D| = D → roundHalfEven N D % 2 = 0) := by
  have hdm : (N : ℚ) = (D : ℚ) * ((N / D : Nat) : ℚ) + ((N % D : Nat) : ℚ) := by
    exact_mod_cast (Nat.div_add_mod N D).symm
  have hlt : ((N % D : Nat) : ℚ) < D := by exact_mod_cast Nat.mod_lt N hD
  have h0 : (0 : ℚ) ≤ ((N % D : Nat) : ℚ) := Nat.cast_nonneg _
  rcases roundHalfEven_cases N D with ⟨hr, hb, he⟩ | ⟨hr, hb, he⟩
  · have hb' : 2 * ((N % D : Nat) : ℚ) ≤ D := by exact_mod_cast hb
    have e : (N : ℚ) - ((N / D : Nat) : ℚ) * D = ((N % D : Nat) : ℚ) := by
      rw [hdm]; ring
    rw [hr, e, abs_of_nonneg h0]
    refine ⟨hb', fun h => he ?_⟩
    exact_mod_cast h
  · have hb' : (D : ℚ) ≤ 2 * ((N % D : Nat) : ℚ) := by exact_mod_cast hb
    have e : (N : ℚ) - ((N / D + 1 : Nat) : ℚ) * D = - ((D : ℚ) - ((N % D : Nat) : ℚ)) := by
      rw [hdm]; push_cast; ring
    rw [hr, e, abs_neg, abs_of_nonneg (by linarith)]
    refine ⟨by linarith, fun h => ?_⟩
    have h2 : 2 * ((N % D : Nat) : ℚ) = D := by linarith
    have h3 : 2 * (N % D) = D := by exact_mod_cast h2
    have := he h3
    omega

theorem roundHalfEven_ge (N D a : Nat) (hD : 0 < D) (h : a * D ≤ N) : a ≤ roundHalfEven N D := by
  have : a ≤ N / D := (Nat.le_div_iff_mul_le hD).mpr h
  rcases roundHalfEven_cases N D with ⟨hr, _, _⟩ | ⟨hr, _, _⟩ <;> omega

theorem roundHalfEven_le (N D b : Nat) (hD : 0 < D) (h : N < b * D) : roundHalfEven N D ≤ b := by
  have : N / D < b := (Nat.div_lt_iff_lt_mul hD).mpr h
  rcases roundHalfEven_cases N D with ⟨hr, _, _⟩ | ⟨hr, _, _⟩ <;> omega


theorem two_zpow_toNat (k : Int) :
    (2 : ℚ) ^ k = (2 : ℚ) ^ k.toNat / (2 : ℚ) ^ (-k).toNat := by
  rcases le_total 0 k with h | h
  · have e1 : (-k).toNat = 0 := by omega
    have e2 : k = (k.toNat : Int) := by omega
    rw [e1, pow_zero, div_one]
    conv_lhs => rw [e2]
    exact zpow_natCast _ _
  · have e1 : k.toNat = 0 := by omega
    have e2 : k = -((-k).toNat : Int) := by omega
    rw [e1, pow_zero, one_div]
    conv_lhs => rw [e2]
    rw [zpow_neg, zpow_natCast]

/-- The comparison of shifted numbers, read in the rationals. -/
theorem shiftLeft_le_iff (a b : Nat) (k : Int) :
    a <<< k.toNat ≤ b <<< (-k).toNat ↔ (a : ℚ) * (2 : ℚ) ^ k ≤ b := by
  rw [Nat.shiftLeft_eq, Nat.shiftLeft_eq, two_zpow_toNat k]
  have hp : (0 : ℚ) < (2 : ℚ) ^ (-k).toNat := by positivity
  rw [← mul_div_assoc, div_le_iff₀ hp]
  exact_mod_cast Iff.rfl

theorem binaryDigits_zpow (n : Nat) (hn : 0 < n) :
    (2 : ℚ) ^ ((binaryDigits n : Int) - 1) ≤ n ∧ (n : ℚ) < (2 : ℚ) ^ (binaryDigits n : Int) := by
  obtain ⟨h1, h2, h3⟩ := binaryDigits_spec n hn
  constructor
  · have e : (binaryDigits n : Int) - 1 = ((binaryDigits n - 1 : Nat) : Int) := by omega
    rw [e, zpow_natCast]
    exact_mod_cast h1
  · rw [zpow_natCast]
    exact_mod_cast h2

/-- The exponent `ulpExponent` picks for the positive rational `n / d`: it is
at least `-1074`, the rational lies below `2^(e+53)`, and unless the exponent
is `-1074` the rational is at least `2^(e+52)`. -/
theorem ulpExponent_spec (n d : Nat) (hn : 0 < n) (hd : 0 < d) :
    -1074 ≤ ulpExponent n d ∧
    (n : ℚ) / d < (2 : ℚ) ^ (ulpExponent n d + 53) ∧
    (-1074 < ulpExponent n d → (2 : ℚ) ^ (ulpExponent n d + 52) ≤ (n : ℚ) / d) := by
  obtain ⟨n1, n2⟩ := binaryDigits_zpow n hn
  obtain ⟨d1, d2⟩ := binaryDigits_zpow d hd
  have hdq : (0 : ℚ) < d := by exact_mod_cast hd
  have hnq : (0 : ℚ) < n := by exact_mod_cast hn
  have two : (0 : ℚ) < 2 := by norm_num
  have two1 : (1 : ℚ) ≤ 2 := by norm_num
  generalize hbn : (binaryDigits n : Int) = bn at n1 n2
  generalize hbd : (binaryDigits d : Int) = bd at d1 d2
  have key : ∀ f : Int, (2 : ℚ) ^ f ≤ (n : ℚ) / d → (n : ℚ) / d < (2 : ℚ) ^ (f + 1) →
      -1074 ≤ max (f - 52) (-1074) ∧
      (n : ℚ) / d < (2 : ℚ) ^ (max (f - 52) (-1074) + 53) ∧
      (-1074 < max (f - 52) (-1074) → (2 : ℚ) ^ (max (f - 52) (-1074) + 52) ≤ (n : ℚ) / d) := by
    intro f lo hi
    refine ⟨le_max_right _ _, ?_, ?_⟩
    · refine lt_of_lt_of_le hi (zpow_le_zpow_right₀ two1 ?_)
      have := le_max_left (f - 52) (-1074)
      omega
    · intro h
      have e : max (f - 52) (-1074) = f - 52 := by
        rcases max_cases (f - 52) (-1074) with ⟨h1, _⟩ | ⟨h1, _⟩
        · exact h1
        · rw [h1] at h; exact absurd h (lt_irrefl _)
      rw [e]
      have : f - 52 + 52 = f := by omega
      rw [this]
      exact lo
  unfold ulpExponent
  rw [hbn, hbd]
  have hneg : bd - bn = -(bn - bd) := by omega
  rw [hneg]
  by_cases ht : d <<< (bn - bd).toNat ≤ n <<< (-(bn - bd)).toNat
  · rw [if_pos ht]
    apply key
    · rw [le_div_iff₀ hdq, mul_comm]
      exact (shiftLeft_le_iff d n (bn - bd)).mp ht
    · rw [div_lt_iff₀ hdq]
      have e : (2 : ℚ) ^ (bn - bd + 1) = (2 : ℚ) ^ bn / (2 : ℚ) ^ (bd - 1) := by
        rw [← zpow_sub₀ (by norm_num : (2 : ℚ) ≠ 0)]
        congr 1; omega
      rw [e, div_mul_eq_mul_div, lt_div_iff₀ (by positivity)]
      calc (n : ℚ) * (2 : ℚ) ^ (bd - 1) ≤ n * d := by
            exact mul_le_mul_of_nonneg_left d1 hnq.le
        _ < (2 : ℚ) ^ bn * d := by
            exact mul_lt_mul_of_pos_right n2 hdq
  · rw [if_neg ht]
    apply key
    · rw [le_div_iff₀ hdq]
      have e : (2 : ℚ) ^ (bn - bd - 1) = (2 : ℚ) ^ (bn - 1) / (2 : ℚ) ^ bd := by
        rw [← zpow_sub₀ (by norm_num : (2 : ℚ) ≠ 0)]
        congr 1; omega
      rw [e, div_mul_eq_mul_div, div_le_iff₀ (by positivity)]
      calc (2 : ℚ) ^ (bn - 1) * d ≤ n * d := by
            exact mul_le_mul_of_nonneg_right n1 hdq.le
        _ ≤ n * (2 : ℚ) ^ bd := by
            exact mul_le_mul_of_nonneg_left d2.le hnq.le
    · have e : bn - bd - 1 + 1 = bn - bd := by omega
      rw [e, div_lt_iff₀ hdq, mul_comm]
      exact lt_of_not_le (fun h => ht ((shiftLeft_le_iff d n (bn - bd)).mpr h))


/-- What `toDouble` returns for a positive rational `q`, with `e` the exponent
`ulpExponent` picks: a multiple `m * 2^e` of `2^e` with `m ≤ 2^53`, and with
`2^52 ≤ m` unless `e` is the least exponent `-1074`, that is a binary64 number;
it lies within `2^e / 2` of `q`, and where it lies exactly `2^e / 2` away `m` is
even. -/
theorem toDouble_spec (q : ℚ) (hq : 0 < q) :
    ∃ m : Nat, toDouble q = (m : ℚ) * (2 : ℚ) ^ (ulpExponent q.num.natAbs q.den) ∧
      m ≤ 2 ^ 53 ∧
      (-1074 < ulpExponent q.num.natAbs q.den → 2 ^ 52 ≤ m) ∧
      2 * |q - toDouble q| ≤ (2 : ℚ) ^ (ulpExponent q.num.natAbs q.den) ∧
      (2 * |q - toDouble q| = (2 : ℚ) ^ (ulpExponent q.num.natAbs q.den) → m % 2 = 0) := by
  have hd : 0 < q.den := q.den_pos
  have hnum : 0 < q.num := Rat.num_pos.mpr hq
  have hn : 0 < q.num.natAbs := Int.natAbs_pos.mpr (ne_of_gt hnum)
  have hqnd : q = (q.num.natAbs : ℚ) / q.den := by
    have h1 : (q.num.natAbs : Int) = q.num := Int.natAbs_of_nonneg hnum.le
    have h2 : ((q.num.natAbs : Nat) : ℚ) = ((q.num.natAbs : Int) : ℚ) :=
      (Int.cast_natCast _).symm
    rw [h2, h1]
    exact (Rat.num_div_den q).symm
  obtain ⟨_, hhi, hlo⟩ := ulpExponent_spec q.num.natAbs q.den hn hd
  rw [← hqnd] at hhi hlo
  unfold toDouble
  generalize ulpExponent q.num.natAbs q.den = e at hhi hlo ⊢
  generalize q.num.natAbs = n at hn hqnd
  generalize q.den = d at hd hqnd
  have hdq : (0 : ℚ) < d := by exact_mod_cast hd
  have hP : (2 : ℚ) ^ e = (2 : ℚ) ^ e.toNat / (2 : ℚ) ^ (-e).toNat := two_zpow_toNat e
  have hs : (0 : ℚ) < (2 : ℚ) ^ (-e).toNat := by positivity
  have ht : (0 : ℚ) < (2 : ℚ) ^ e.toNat := by positivity
  have hD : 0 < d <<< e.toNat := by
    rw [Nat.shiftLeft_eq]; positivity
  have hDq : ((d <<< e.toNat : Nat) : ℚ) = d * (2 : ℚ) ^ e.toNat := by
    rw [Nat.shiftLeft_eq]; push_cast; ring
  have hNq : ((n <<< (-e).toNat : Nat) : ℚ) = n * (2 : ℚ) ^ (-e).toNat := by
    rw [Nat.shiftLeft_eq]; push_cast; ring
  obtain ⟨hnear, htie⟩ := roundHalfEven_near (n <<< (-e).toNat) (d <<< e.toNat) hD
  generalize hm : roundHalfEven (n <<< (-e).toNat) (d <<< e.toNat) = m at hnear htie
  have hval : mkRat ((m <<< e.toNat : Nat) : Int) (1 <<< (-e).toNat) = (m : ℚ) * (2 : ℚ) ^ e := by
    rw [Rat.mkRat_eq_div, Nat.shiftLeft_eq, Nat.shiftLeft_eq, hP]
    push_cast
    ring
  have hpos : (0 : ℚ) < d * (2 : ℚ) ^ (-e).toNat := by positivity
  have hdist : q - (m : ℚ) * (2 : ℚ) ^ e
      = (((n <<< (-e).toNat : Nat) : ℚ) - (m : ℚ) * ((d <<< e.toNat : Nat) : ℚ))
        / (d * (2 : ℚ) ^ (-e).toNat) := by
    rw [hNq, hDq, hqnd, hP]
    field_simp
    ring
  have hPD : (2 : ℚ) ^ e = ((d <<< e.toNat : Nat) : ℚ) / (d * (2 : ℚ) ^ (-e).toNat) := by
    rw [hDq, hP]
    field_simp
    ring
  refine ⟨m, hval, ?_, ?_, ?_, ?_⟩
  · rw [← hm]
    apply roundHalfEven_le _ _ _ hD
    have e1 : (2 : ℚ) ^ (e + 53) = (2 : ℚ) ^ e * (2 : ℚ) ^ (53 : Nat) := by
      rw [zpow_add₀ (by norm_num : (2 : ℚ) ≠ 0)]; norm_cast
    rw [e1, hP, hqnd, div_lt_iff₀ hdq] at hhi
    have h1 := mul_lt_mul_of_pos_right hhi hs
    have e2 : (2 : ℚ) ^ e.toNat / (2 : ℚ) ^ (-e).toNat * (2 : ℚ) ^ (53 : Nat) * d
          * (2 : ℚ) ^ (-e).toNat = (2 : ℚ) ^ (53 : Nat) * (d * (2 : ℚ) ^ e.toNat) := by
      field_simp
      ring
    rw [e2] at h1
    have : ((n <<< (-e).toNat : Nat) : ℚ) < ((2 ^ 53 * d <<< e.toNat : Nat) : ℚ) := by
      rw [Nat.cast_mul, Nat.cast_pow, Nat.cast_ofNat, hNq, hDq]
      exact h1
    exact_mod_cast this
  · intro hnorm
    rw [← hm]
    apply roundHalfEven_ge _ _ _ hD
    have hlo := hlo hnorm
    have e1 : (2 : ℚ) ^ (e + 52) = (2 : ℚ) ^ e * (2 : ℚ) ^ (52 : Nat) := by
      rw [zpow_add₀ (by norm_num : (2 : ℚ) ≠ 0)]; norm_cast
    rw [e1, hP, hqnd, le_div_iff₀ hdq] at hlo
    have h1 := mul_le_mul_of_nonneg_right hlo hs.le
    have e2 : (2 : ℚ) ^ e.toNat / (2 : ℚ) ^ (-e).toNat * (2 : ℚ) ^ (52 : Nat) * d
          * (2 : ℚ) ^ (-e).toNat = (2 : ℚ) ^ (52 : Nat) * (d * (2 : ℚ) ^ e.toNat) := by
      field_simp
      ring
    rw [e2] at h1
    have : ((2 ^ 52 * d <<< e.toNat : Nat) : ℚ) ≤ ((n <<< (-e).toNat : Nat) : ℚ) := by
      rw [Nat.cast_mul, Nat.cast_pow, Nat.cast_ofNat, hNq, hDq]
      exact h1
    exact_mod_cast this
  · rw [hval, hdist, abs_div, abs_of_pos hpos, hPD, ← mul_div_assoc]
    exact div_le_div_of_nonneg_right hnear hpos.le
  · intro h
    apply htie
    rw [hval, hdist, abs_div, abs_of_pos hpos, hPD, ← mul_div_assoc] at h
    exact (div_left_inj' (ne_of_gt hpos)).mp h

/-! ### A digit string with a trailing point -/

theorem scaled_integer (v : Nat) : scaled v 10 0 10 0 = (v : ℚ) := by
  simp [scaled]

theorem inDoubleRange_natCast (v : Nat) (h : v < (1 <<< 1024) - (1 <<< 970)) :
    inDoubleRange (v : ℚ) = true := by
  simp only [inDoubleRange, Rat.num_natCast, Rat.den_natCast, Int.natAbs_ofNat, Nat.mul_one,
    Bool.and_eq_true, Bool.or_eq_true, decide_eq_true_eq]
  refine ⟨h, ?_⟩
  by_cases h0 : v = 0
  · left; simp [h0]
  · right
    have : 1 ≤ v := Nat.one_le_iff_ne_zero.mpr h0
    exact Nat.le_trans this (Nat.le_mul_of_pos_right v (by decide))

/-- The mantissa `std::stod` reads from a digit string followed by a point and
nothing else: the digits, the point, no fraction. -/
theorem scanMantissa_trailing_point (d : List Char) (hdig : ∀ c ∈ d, decDigit c = true) :
    scanMantissa decDigit (d ++ ['.']) = ⟨d, true, []⟩ := by
  have ht : (d ++ ['.']).takeWhile decDigit = d := by
    rw [List.takeWhile_append_of_pos hdig]
    simp [List.takeWhile_cons, show decDigit '.' = false from rfl]
  have hdr : (d ++ ['.']).dropWhile decDigit = ['.'] := by
    rw [List.dropWhile_append_of_pos hdig]
    simp [List.dropWhile_cons, show decDigit '.' = false from rfl]
  unfold scanMantissa
  rw [hdr, ht]
  rfl

/-- The call `std::stod` on a digit string followed by a point: the value of
the digits rounded to binary64, and the point converted with them. -/
theorem stod_trailing_point (x : Char) (ds : List Char)
    (hdig : ∀ c ∈ x :: ds, decDigit c = true)
    (hr : digitsValue 10 (x :: ds) < (1 <<< 1024) - (1 <<< 970)) :
    stod (x :: ds ++ ['.'])
      = .ok (toDouble (digitsValue 10 (x :: ds) : ℚ), (x :: ds).length + 1) := by
  have hx : decDigit x = true := hdig x (List.mem_cons_self _ _)
  have h0 : '0' ≤ x := by
    simp only [decDigit, Bool.and_eq_true, decide_eq_true_eq] at hx
    exact hx.1
  have hhex : ¬ ((x :: (ds ++ ['.'])).head? = some '0' ∧
      ((x :: (ds ++ ['.'])).tail.head? = some 'x' ∨ (x :: (ds ++ ['.'])).tail.head? = some 'X') ∧
      (scanMantissa hexDigit (x :: (ds ++ ['.'])).tail.tail).hasDigits = true) := by
    intro h
    have h2 := h.2.1
    simp only [List.tail_cons] at h2
    cases ds with
    | nil => simp at h2
    | cons y ys =>
      have hy : decDigit y = true := hdig y (by simp)
      simp only [List.cons_append, List.head?_cons, Option.some.injEq] at h2
      rcases h2 with rfl | rfl <;> exact absurd hy (by decide)
  have hm := scanMantissa_trailing_point (x :: ds) hdig
  have hne : (Mantissa.mk (x :: ds) true []).hasDigits = true := rfl
  have hlen : (Mantissa.mk (x :: ds) true []).length = (x :: ds).length + 1 := rfl
  rw [List.cons_append, stod_of_digit x _ h0]
  unfold stodUnsigned
  rw [if_neg hhex]
  unfold stodDecimal
  rw [← List.cons_append, hm, if_pos hne, hlen]
  have hdrop : (x :: ds ++ ['.']).drop ((x :: ds).length + 1) = [] := by
    apply List.drop_of_length_le; simp
  rw [hdrop]
  have hexp : scanExponent 'e' 'E' [] = (0, 0) := rfl
  rw [hexp]
  simp only [List.append_nil, List.length_nil, scaled_integer, Nat.zero_add, Nat.add_zero]
  unfold stodResult
  rw [if_pos (inDoubleRange_natCast _ hr)]
  rfl

/-! ### Double quotes, faults and the length of the stream -/

theorem quotes_append (a b : List Char) : quotes (a ++ b) = quotes a + quotes b := by
  simp [quotes]

theorem quotes_cons_of_ne {x : Char} (hx : x ≠ '"') (s : List Char) :
    quotes (x :: s) = quotes s := by
  simp [quotes, List.count_cons, hx]

theorem quotes_eq_zero_of_all (p : Char → Bool) (hp : p '"' = false) :
    ∀ (s : List Char), (∀ c ∈ s, p c = true) → quotes s = 0 := by
  intro s hs
  simp only [quotes, List.count_eq_zero]
  intro h
  have := hs _ h
  rw [hp] at this
  exact Bool.noConfusion this

theorem quotes_takeWhile (p : Char → Bool) (hp : p '"' = false) (s : List Char) :
    quotes (s.takeWhile p) = 0 :=
  quotes_eq_zero_of_all p hp _ (fun _ hc => List.mem_takeWhile_imp hc)

theorem QuoteFree_zero (s : List Char) : QuoteFree s 0 := by
  simp [QuoteFree, quotes]

theorem QuoteFree_cons {x : Char} {s : List Char} {n : Nat} (hx : x ≠ '"')
    (h : QuoteFree s n) : QuoteFree (x :: s) (n + 1) := by
  obtain ⟨h1, h2⟩ := h
  refine ⟨by simpa using h1, ?_⟩
  simp only [quotes, List.take_succ_cons, List.count_cons] at h2 ⊢
  simp [h2, hx]

theorem QuoteFree_add {s : List Char} {a b : Nat} (ha : QuoteFree s a)
    (hb : QuoteFree (s.drop a) b) : QuoteFree s (a + b) := by
  obtain ⟨a1, a2⟩ := ha
  obtain ⟨b1, b2⟩ := hb
  refine ⟨by simp only [List.length_drop] at b1; omega, ?_⟩
  rw [List.take_add, quotes_append, a2, b2]

theorem QuoteFree_takeWhile (p : Char → Bool) (hp : p '"' = false) (s : List Char) :
    QuoteFree s (s.takeWhile p).length := by
  refine ⟨(@List.takeWhile_prefix _ s p).length_le, ?_⟩
  rw [take_length_takeWhile]
  simp only [quotes, List.count_eq_zero]
  intro h
  have := List.mem_takeWhile_imp h
  rw [hp] at this
  exact Bool.noConfusion this

theorem QuoteFree_mono {s : List Char} {n : Nat} (pre : List Char)
    (h : QuoteFree pre n) : QuoteFree (pre ++ s) n := by
  obtain ⟨h1, h2⟩ := h
  refine ⟨by simp only [List.length_append]; omega, ?_⟩
  rw [List.take_append_of_le_length h1]
  exact h2

theorem QuoteFree_scanMantissa (isDigit : Char → Bool) (hd : isDigit '"' = false)
    (s : List Char) : QuoteFree s (scanMantissa isDigit s).length := by
  unfold scanMantissa
  split
  · rename_i hdot
    obtain ⟨r, hr⟩ := List.head?_eq_some_iff.mp hdot
    simp only [Mantissa.length, if_true, hr, List.tail_cons, Nat.add_assoc]
    refine QuoteFree_add (QuoteFree_takeWhile isDigit hd s) ?_
    rw [drop_length_takeWhile, hr, Nat.add_comm 1]
    exact QuoteFree_cons (by decide) (QuoteFree_takeWhile isDigit hd r)
  · simpa [Mantissa.length] using QuoteFree_takeWhile isDigit hd s

theorem QuoteFree_exponentDigits (neg : Bool) (taken : Nat) (s front : List Char)
    (hlen : front.length = taken) (hfront : quotes front = 0) :
    QuoteFree (front ++ s) (exponentDigits neg taken s).2 := by
  unfold exponentDigits
  split
  · exact QuoteFree_zero _
  · have h := QuoteFree_takeWhile decDigit (by decide) s
    obtain ⟨h1, h2⟩ := h
    refine ⟨by simp only [List.length_append]; omega, ?_⟩
    show quotes ((front ++ s).take (taken + (s.takeWhile decDigit).length)) = 0
    rw [← hlen, List.take_append, quotes_append, hfront, h2]

theorem QuoteFree_scanExponent (lower upper : Char) (hl : lower ≠ '"') (hu : upper ≠ '"')
    (s : List Char) : QuoteFree s (scanExponent lower upper s).2 := by
  unfold scanExponent
  split
  · rename_i hm
    cases s with
    | nil => simp at hm
    | cons m r =>
      have hmn : m ≠ '"' := by
        simp only [List.head?_cons, Option.some.injEq] at hm
        rcases hm with rfl | rfl
        · exact hl
        · exact hu
      have hm0 : quotes [m] = 0 := by
        simp [quotes, List.count_cons, hmn]
      simp only [List.tail_cons]
      split
      · rename_i hs
        obtain ⟨r1, hr1⟩ := List.head?_eq_some_iff.mp hs
        subst hr1
        have := QuoteFree_exponentDigits true 2 r1 [m, '-'] rfl
          (by simp [quotes, List.count_cons, hmn])
        simpa using this
      · split
        · rename_i hs
          obtain ⟨r1, hr1⟩ := List.head?_eq_some_iff.mp hs
          subst hr1
          have := QuoteFree_exponentDigits false 2 r1 [m, '+'] rfl
            (by simp [quotes, List.count_cons, hmn])
          simpa using this
        · have := QuoteFree_exponentDigits false 1 r [m] rfl hm0
          simpa using this
  · exact QuoteFree_zero _

/-- What `std::stod` converts after white space and sign: at least one
character, all of them present in the text, none of them a double quote. -/
theorem stodUnsigned_quotes {neg : Bool} {skipped : Nat} {s : List Char} {v : ℚ} {n : Nat}
    (h : stodUnsigned neg skipped s = .ok (v, n)) :
    ∃ j, n = skipped + j ∧ 1 ≤ j ∧ QuoteFree s j := by
  unfold stodUnsigned at h
  split at h
  · rename_i hhex
    obtain ⟨h0, hx, _⟩ := hhex
    obtain ⟨r0, hr0⟩ := List.head?_eq_some_iff.mp h0
    subst hr0
    simp only [List.tail_cons] at hx h
    have hx' : ∃ x r, r0 = x :: r ∧ x ≠ '"' := by
      rcases hx with hx | hx
      · obtain ⟨r, hr⟩ := List.head?_eq_some_iff.mp hx
        exact ⟨'x', r, hr, by decide⟩
      · obtain ⟨r, hr⟩ := List.head?_eq_some_iff.mp hx
        exact ⟨'X', r, hr, by decide⟩
    obtain ⟨x, r, hr, hxn⟩ := hx'
    subst hr
    simp only [List.tail_cons, stodHex] at h
    have hn := stodResult_ok h
    refine ⟨2 + (scanMantissa hexDigit r).length
      + (scanExponent 'p' 'P' (r.drop (scanMantissa hexDigit r).length)).2, by omega, by omega, ?_⟩
    have hm := QuoteFree_scanMantissa hexDigit (by decide) r
    have he := QuoteFree_scanExponent 'p' 'P' (by decide) (by decide)
      (r.drop (scanMantissa hexDigit r).length)
    have := @QuoteFree_cons '0' _ _ (by decide) (QuoteFree_cons hxn (QuoteFree_add hm he))
    have e : (scanMantissa hexDigit r).length
        + (scanExponent 'p' 'P' (r.drop (scanMantissa hexDigit r).length)).2 + 1 + 1
        = 2 + (scanMantissa hexDigit r).length
        + (scanExponent 'p' 'P' (r.drop (scanMantissa hexDigit r).length)).2 := by omega
    rw [e] at this
    exact this
  · unfold stodDecimal at h
    split at h
    · rename_i hdig
      have hn := stodResult_ok h
      have h1 := one_le_length_of_hasDigits _ hdig
      refine ⟨(scanMantissa decDigit s).length
        + (scanExponent 'e' 'E' (s.drop (scanMantissa decDigit s).length)).2, by omega, by omega, ?_⟩
      exact QuoteFree_add (QuoteFree_scanMantissa decDigit (by decide) s)
        (QuoteFree_scanExponent 'e' 'E' (by decide) (by decide) _)
    · simp at h

/-- The number scanner of `NextToken` converts at least one character, all of
them present in the text at the cursor, none of them a double quote. -/
theorem stod_of_digit_quotes {x : Char} {s : List Char} {v : ℚ} {n : Nat} (h0 : '0' ≤ x)
    (h : stod (x :: s) = .ok (v, n)) : 1 ≤ n ∧ QuoteFree (x :: s) n := by
  rw [stod_of_digit x s h0] at h
  obtain ⟨j, hj, h1, hc⟩ := stodUnsigned_quotes h
  simp only [Nat.zero_add] at hj
  subst hj
  exact ⟨h1, hc⟩

theorem stodResult_error {neg : Bool} {q : ℚ} {parsed : Nat} {e : Fault}
    (h : stodResult neg q parsed = .error e) : e = .outOfRange := by
  unfold stodResult at h
  split at h
  · simp at h
  · simp only [Except.error.injEq] at h
    exact h.symm

theorem scanMantissa_intPart (p : Char → Bool) (s : List Char) :
    (scanMantissa p s).intPart = s.takeWhile p := by
  unfold scanMantissa
  split <;> rfl

/-- On a text that starts with a decimal digit the only exception of
`std::stod` is `std::out_of_range`. -/
theorem stod_of_digit_error {x : Char} {s : List Char} {e : Fault} (h0 : '0' ≤ x)
    (h9 : x ≤ '9') (h : stod (x :: s) = .error e) : e = .outOfRange := by
  rw [stod_of_digit x s h0] at h
  unfold stodUnsigned stodHex stodDecimal at h
  split at h
  · exact stodResult_error h
  · split at h
    · exact stodResult_error h
    · rename_i hno
      have hx : decDigit x = true := by
        simp only [decDigit, Bool.and_eq_true, decide_eq_true_eq]
        exact ⟨h0, h9⟩
      have : (scanMantissa decDigit (x :: s)).hasDigits = true := by
        simp only [Mantissa.hasDigits, scanMantissa_intPart, List.takeWhile_cons, hx, if_true,
          List.isEmpty_cons, Bool.false_and, Bool.not_false]
      exact absurd this hno

/-- In a text where the loop condition fails somewhere, the character after
the longest prefix that satisfies it is the first one that fails it. -/
theorem take_succ_takeWhile_notQuote :
    ∀ (s : List Char), ¬ (s.all notQuote = true) →
      s.take ((s.takeWhile notQuote).length + 1) = s.takeWhile notQuote ++ ['"'] := by
  intro s
  induction s with
  | nil => intro h; simp at h
  | cons x xs ih =>
    intro h
    by_cases hx : notQuote x = true
    · have : ¬ (xs.all notQuote = true) := by simpa [hx] using h
      simp [List.takeWhile_cons, hx, ih this]
    · have hq : x = '"' := by
        simpa [notQuote] using hx
      subst hq
      simp [List.takeWhile_cons, hx]

/-- The text a token of the literal scanners takes holds an even number of
double quotes. -/
theorem literalAt_quotes {l : Nat} {x : Char} {xs : List Char} {tok : Token} {t' : Tokenizer}
    (h : literalAt 0 l x xs = .ok (tok, t')) (hE : tok.Type_ ≠ .Eof) :
    quotes ((x :: xs).take t'.m_Current) % 2 = 0 := by
  unfold literalAt at h
  split at h
  · rename_i hd
    have hx : (x != NUL) = true := by
      rw [bne_iff_ne]; intro e; subst e; exact absurd hd.1 (by decide)
    rw [List.takeWhile_cons, if_pos hx] at h
    cases hs : stod (x :: xs.takeWhile (fun c => c != NUL)) with
    | error e => rw [hs] at h; simp at h
    | ok r =>
      rw [hs] at h
      simp only [ok_bind, pure_eq_ok, Except.ok.injEq, Prod.mk.injEq] at h
      obtain ⟨_, hfree⟩ := @stod_of_digit_quotes x _ r.1 r.2 hd.1 hs
      have hfree2 := @QuoteFree_mono (xs.dropWhile (fun c => c != NUL)) _ _ hfree
      rw [List.cons_append, List.takeWhile_append_dropWhile] at hfree2
      rw [← h.2]
      simp only [Nat.zero_add]
      rw [hfree2.2]
  · split at h
    · rename_i hq
      split at h
      · simp at h
      · rename_i hall
        simp only [Except.ok.injEq, Prod.mk.injEq] at h
        rw [← h.2]
        simp only [Nat.zero_add]
        rw [List.take_succ_cons, take_succ_takeWhile_notQuote xs hall, hq]
        simp [quotes, List.count_cons, quotes_takeWhile notQuote (by decide) xs,
          show List.count '"' (xs.takeWhile notQuote) = 0 from quotes_takeWhile notQuote (by decide) xs]
    · split at h
      · rename_i hq hw
        have hxq : x ≠ '"' := hq
        have key : quotes ((x :: xs).take ((xs.takeWhile isLower).length + 1)) % 2 = 0 := by
          rw [List.take_succ_cons, take_length_takeWhile, quotes_cons_of_ne hxq,
            quotes_takeWhile isLower (by decide) xs]
        cases hlk : m_KeyWordsTable.lookup
            (String.mk ((x :: xs).take ((xs.takeWhile isLower).length + 1))) with
        | none =>
          rw [hlk] at h
          simp only [Except.ok.injEq, Prod.mk.injEq] at h
          exact absurd (by rw [← h.1]) hE
        | some type =>
          rw [hlk] at h
          simp only [Except.ok.injEq, Prod.mk.injEq] at h
          rw [← h.2]
          simp only [Nat.zero_add]
          exact key
      · simp only [Except.ok.injEq, Prod.mk.injEq] at h
        exact absurd (by rw [← h.1]) hE

/-- With an even number of double quotes in the text at the cursor, the only
fault of the literal scanners is the exception `std::out_of_range`. -/
theorem literalAt_error {l : Nat} {x : Char} {xs : List Char} {e : Fault}
    (h : literalAt 0 l x xs = .error e) (hq : quotes (x :: xs) % 2 = 0) : e = .outOfRange := by
  unfold literalAt at h
  split at h
  · rename_i hd
    have hx : (x != NUL) = true := by
      rw [bne_iff_ne]; intro e; subst e; exact absurd hd.1 (by decide)
    rw [List.takeWhile_cons, if_pos hx] at h
    cases hs : stod (x :: xs.takeWhile (fun c => c != NUL)) with
    | error e' =>
      rw [hs] at h
      simp only [error_bind, Except.error.injEq] at h
      rw [← h]
      exact stod_of_digit_error hd.1 (le_of_lt hd.2) hs
    | ok r => rw [hs] at h; simp at h
  · split at h
    · rename_i hx
      split at h
      · rename_i hall
        subst hx
        have h0 : quotes xs = 0 :=
          quotes_eq_zero_of_all notQuote (by decide) xs (by simpa using hall)
        have : quotes ('"' :: xs) = 1 := by
          simp only [quotes] at h0 ⊢
          simp [List.count_cons, h0]
        rw [this] at hq
        exact absurd hq (by decide)
      · simp at h
    · split at h
      · split at h <;> simp at h
      · simp at h

theorem symbol_quotes {x : Char} {xs : List Char} {type : TokenType}
    {tok : Token} {t' : Tokenizer} (hx : x ≠ '"')
    (h : (pure (ProduceToken (Tokenizer.advance ⟨0, 0⟩) type,
      Tokenizer.advance ⟨0, 0⟩) : Except Fault (Token × Tokenizer)) = .ok (tok, t')) :
    quotes ((x :: xs).take t'.m_Current) % 2 = 0 := by
  simp only [pure_eq_ok, Except.ok.injEq, Prod.mk.injEq] at h
  rw [← h.2]
  simp [Tokenizer.advance, quotes, List.count_cons, hx]

theorem matchEqual_quotes {x : Char} {xs : List Char} {two one : TokenType}
    {tok : Token} {t' : Tokenizer} (hx : x ≠ '"')
    (h : (if xs.headD NUL = '=' then
        (.ok (⟨two, 0, "", none⟩, ⟨0, 0 + 2⟩) : Except Fault (Token × Tokenizer))
      else .ok (⟨one, 0, "", none⟩, ⟨0, 0 + 1⟩)) = .ok (tok, t')) :
    quotes ((x :: xs).take t'.m_Current) % 2 = 0 := by
  split at h
  · rename_i he
    cases xs with
    | nil => exact absurd he (by decide)
    | cons y ys =>
      simp only [List.headD_cons] at he
      subst he
      simp only [Except.ok.injEq, Prod.mk.injEq] at h
      rw [← h.2]
      simp [quotes, List.count_cons, hx]
  · simp only [Except.ok.injEq, Prod.mk.injEq] at h
    rw [← h.2]
    simp [quotes, List.count_cons, hx]

/-- The text a token other than `Eof` takes holds an even number of double
quotes. -/
theorem scanToken_quotes {suf : List Char} {tok : Token} {t' : Tokenizer}
    (h : scanToken suf ⟨0, 0⟩ (suf.headD NUL) = .ok (tok, t')) (hE : tok.Type_ ≠ .Eof) :
    quotes (suf.take t'.m_Current) % 2 = 0 := by
  cases suf with
  | nil =>
    rw [List.headD_nil, scanToken_NUL] at h
    simp only [Except.ok.injEq, Prod.mk.injEq] at h
    exact absurd (by rw [← h.1]; rfl) hE
  | cons x xs =>
    have hm : ∀ two one : TokenType, matchEqual (x :: xs) ⟨0, 0⟩ two one =
        if xs.headD NUL = '=' then .ok (⟨two, 0, "", none⟩, ⟨0, 0 + 2⟩)
        else .ok (⟨one, 0, "", none⟩, ⟨0, 0 + 1⟩) :=
      fun two one => matchEqual_append [] x xs 0 two one
    have hl : scanLiteral (x :: xs) ⟨0, 0⟩ x = literalAt 0 0 x xs :=
      scanLiteral_append [] x xs 0
    rw [List.headD_cons] at h
    unfold scanToken at h
    by_cases c0 : x = '('
    · rw [if_pos c0] at h; subst c0; exact symbol_quotes (by decide) h
    rw [if_neg c0] at h
    by_cases c1 : x = ')'
    · rw [if_pos c1] at h; subst c1; exact symbol_quotes (by decide) h
    rw [if_neg c1] at h
    by_cases c2 : x = '{'
    · rw [if_pos c2] at h; subst c2; exact symbol_quotes (by decide) h
    rw [if_neg c2] at h
    by_cases c3 : x = '}'
    · rw [if_pos c3] at h; subst c3; exact symbol_quotes (by decide) h
    rw [if_neg c3] at h
    by_cases c4 : x = ','
    · rw [if_pos c4] at h; subst c4; exact symbol_quotes (by decide) h
    rw [if_neg c4] at h
    by_cases c5 : x = '.'
    · rw [if_pos c5] at h; subst c5; exact symbol_quotes (by decide) h
    rw [if_neg c5] at h
    by_cases c6 : x = '-'
    · rw [if_pos c6] at h; subst c6; exact symbol_quotes (by decide) h
    rw [if_neg c6] at h
    by_cases c7 : x = '+'
    · rw [if_pos c7] at h; subst c7; exact symbol_quotes (by decide) h
    rw [if_neg c7] at h
    by_cases c8 : x = ';'
    · rw [if_pos c8] at h; subst c8; exact symbol_quotes (by decide) h
    rw [if_neg c8] at h
    by_cases c9 : x = '*'
    · rw [if_pos c9] at h; subst c9; exact symbol_quotes (by decide) h
    rw [if_neg c9] at h
    by_cases d0 : x = '='
    · rw [if_pos d0, hm] at h; subst d0; exact matchEqual_quotes (by decide) h
    rw [if_neg d0] at h
    by_cases d1 : x = '!'
    · rw [if_pos d1, hm] at h; subst d1; exact matchEqual_quotes (by decide) h
    rw [if_neg d1] at h
    by_cases d2 : x = '>'
    · rw [if_pos d2, hm] at h; subst d2; exact matchEqual_quotes (by decide) h
    rw [if_neg d2] at h
    by_cases d3 : x = '<'
    · rw [if_pos d3, hm] at h; subst d3; exact matchEqual_quotes (by decide) h
    rw [if_neg d3] at h
    rw [hl] at h
    exact literalAt_quotes h hE

/-- With an even number of double quotes in the text at the cursor, the only
fault of the dispatch of `NextToken` is the exception `std::out_of_range`. -/
theorem scanToken_error {suf : List Char} {e : Fault}
    (h : scanToken suf ⟨0, 0⟩ (suf.headD NUL) = .error e) (hq : quotes suf % 2 = 0) :
    e = .outOfRange := by
  cases suf with
  | nil =>
    rw [List.headD_nil, scanToken_NUL] at h
    simp at h
  | cons x xs =>
    have hm : ∀ two one : TokenType, matchEqual (x :: xs) ⟨0, 0⟩ two one =
        if xs.headD NUL = '=' then .ok (⟨two, 0, "", none⟩, ⟨0, 0 + 2⟩)
        else .ok (⟨one, 0, "", none⟩, ⟨0, 0 + 1⟩) :=
      fun two one => matchEqual_append [] x xs 0 two one
    have hl : scanLiteral (x :: xs) ⟨0, 0⟩ x = literalAt 0 0 x xs :=
      scanLiteral_append [] x xs 0
    rw [List.headD_cons] at h
    unfold scanToken at h
    by_cases c0 : x = '('
    · rw [if_pos c0] at h; simp at h
    rw [if_neg c0] at h
    by_cases c1 : x = ')'
    · rw [if_pos c1] at h; simp at h
    rw [if_neg c1] at h
    by_cases c2 : x = '{'
    · rw [if_pos c2] at h; simp at h
    rw [if_neg c2] at h
    by_cases c3 : x = '}'
    · rw [if_pos c3] at h; simp at h
    rw [if_neg c3] at h
    by_cases c4 : x = ','
    · rw [if_pos c4] at h; simp at h
    rw [if_neg c4] at h
    by_cases c5 : x = '.'
    · rw [if_pos c5] at h; simp at h
    rw [if_neg c5] at h
    by_cases c6 : x = '-'
    · rw [if_pos c6] at h; simp at h
    rw [if_neg c6] at h
    by_cases c7 : x = '+'
    · rw [if_pos c7] at h; simp at h
    rw [if_neg c7] at h
    by_cases c8 : x = ';'
    · rw [if_pos c8] at h; simp at h
    rw [if_neg c8] at h
    by_cases c9 : x = '*'
    · rw [if_pos c9] at h; simp at h
    rw [if_neg c9] at h
    by_cases d0 : x = '='
    · rw [if_pos d0, hm] at h; split at h <;> simp at h
    rw [if_neg d0] at h
    by_cases d1 : x = '!'
    · rw [if_pos d1, hm] at h; split at h <;> simp at h
    rw [if_neg d1] at h
    by_cases d2 : x = '>'
    · rw [if_pos d2, hm] at h; split at h <;> simp at h
    rw [if_neg d2] at h
    by_cases d3 : x = '<'
    · rw [if_pos d3, hm] at h; split at h <;> simp at h
    rw [if_neg d3] at h
    rw [hl] at h
    exact literalAt_error h hq


theorem quotes_dropWhile_isTrivia (suf : List Char) :
    quotes (suf.dropWhile isTrivia) = quotes suf := by
  have h := quotes_append (suf.takeWhile isTrivia) (suf.dropWhile isTrivia)
  rw [List.takeWhile_append_dropWhile, quotes_takeWhile isTrivia (by decide)] at h
  omega

theorem drop_takeWhile_add (suf : List Char) (n : Nat) :
    suf.drop ((suf.takeWhile isTrivia).length + n) = (suf.dropWhile isTrivia).drop n := by
  rw [← drop_length_takeWhile, List.drop_drop, Nat.add_comm]

/-- With an even number of double quotes in the text at the cursor and budget
enough, the only fault of the loop of `Tokenize` is the exception
`std::out_of_range`. -/
theorem TokenizeLoop_error :
    ∀ (fuel : Nat) (pre suf : List Char) (l : Nat) (e : Fault), suf.length + 1 ≤ fuel →
      quotes suf % 2 = 0 → TokenizeLoop (pre ++ suf) fuel ⟨l, pre.length⟩ = .error e →
      e = .outOfRange := by
  intro fuel
  induction fuel with
  | zero => intro pre suf l e h; omega
  | succ fuel ih =>
    intro pre suf l e hf hq h
    rw [TokenizeLoop_succ, NextToken_relocate] at h
    by_cases hN : suf.headD NUL = NUL
    · rw [if_pos hN] at h
      simp only [ok_bind] at h
      rw [if_neg (by simp [eofAtTerminator])] at h
      simp at h
    · rw [if_neg hN] at h
      have hq' : quotes (suf.dropWhile isTrivia) % 2 = 0 := by
        rw [quotes_dropWhile_isTrivia]; exact hq
      cases hb : scanToken (suf.dropWhile isTrivia) ⟨0, 0⟩ ((suf.dropWhile isTrivia).headD NUL) with
      | error e' =>
        rw [hb] at h
        simp only [Except.map, error_bind, Except.error.injEq] at h
        rw [← h]
        exact scanToken_error hb hq'
      | ok r0 =>
        rw [hb] at h
        simp only [Except.map, ok_bind, relocate] at h
        by_cases hE : r0.1.Type_ = .Eof
        · rw [if_neg (by simp [hE])] at h
          simp at h
        · rw [if_pos (by simpa using hE)] at h
          obtain ⟨n, hn1, hn2, _, hn4, _⟩ :=
            @scanToken_step [] (suf.dropWhile isTrivia) 0 r0.1 r0.2 hb hE
          have hcur : r0.2.m_Current = n := by rw [hn4]; simp
          have hev := scanToken_quotes hb hE
          rw [hcur] at hev h
          have hsuf : suf.length
              = (suf.takeWhile isTrivia).length + (suf.dropWhile isTrivia).length := by
            rw [← List.length_append, List.takeWhile_append_dropWhile]
          have hm : (suf.takeWhile isTrivia).length + n ≤ suf.length := by omega
          obtain ⟨hc1, hl1⟩ := split_after pre suf ((suf.takeWhile isTrivia).length + n) hm
          have hq'' : quotes (suf.drop ((suf.takeWhile isTrivia).length + n)) % 2 = 0 := by
            rw [drop_takeWhile_add]
            have := quotes_append ((suf.dropWhile isTrivia).take n) ((suf.dropWhile isTrivia).drop n)
            rw [List.take_append_drop] at this
            omega
          have hlen' : (suf.drop ((suf.takeWhile isTrivia).length + n)).length + 1 ≤ fuel := by
            simp only [List.length_drop]; omega
          rw [Nat.add_assoc, hl1, hc1] at h
          cases hR : TokenizeLoop
              (pre ++ suf.take ((suf.takeWhile isTrivia).length + n)
                ++ suf.drop ((suf.takeWhile isTrivia).length + n)) fuel
              ⟨l + newlines (suf.takeWhile isTrivia),
                (pre ++ suf.take ((suf.takeWhile isTrivia).length + n)).length⟩ with
          | error e' =>
            rw [hR] at h
            simp only [error_bind, Except.error.injEq] at h
            rw [← h]
            exact ih _ _ _ _ hlen' hq'' hR
          | ok rest => rw [hR] at h; simp at h

/-- A stream the loop of `Tokenize` returns has at most one token for each
character of the text at the cursor, and the `Eof`. -/
theorem TokenizeLoop_length :
    ∀ (fuel : Nat) (pre suf : List Char) (l : Nat) (ts : List Token),
      TokenizeLoop (pre ++ suf) fuel ⟨l, pre.length⟩ = .ok ts → ts.length ≤ suf.length + 1 := by
  intro fuel
  induction fuel with
  | zero => intro pre suf l ts h; simp [TokenizeLoop] at h
  | succ fuel ih =>
    intro pre suf l ts h
    rw [TokenizeLoop_succ] at h
    cases hN : NextToken (pre ++ suf) ⟨l, pre.length⟩ with
    | error e => rw [hN] at h; simp at h
    | ok r =>
      rw [hN, ok_bind] at h
      by_cases hr : r.1.Type_ = .Eof
      · rw [if_neg (by simp [hr])] at h
        simp only [pure_eq_ok, Except.ok.injEq] at h
        subst h
        simp
      · rw [if_pos hr] at h
        obtain ⟨n, h1, h2, _, _, h5, _⟩ := @NextToken_step pre suf l r.1 r.2 hN hr
        obtain ⟨hcode, hlen⟩ := split_after pre suf ((suf.takeWhile isTrivia).length + n) h2
        cases hR : TokenizeLoop (pre ++ suf) fuel r.2 with
        | error e => rw [hR] at h; simp at h
        | ok rest =>
          rw [hR] at h
          simp only [ok_bind, pure_eq_ok, Except.ok.injEq] at h
          subst h
          rw [h5, Nat.add_assoc, hlen, hcode] at hR
          have := ih _ _ _ rest hR
          simp only [List.length_drop] at this
          simp only [List.length_cons]
          omega

/-- A call of `NextToken` that returns a token other than `Eof` moves the
cursor forward and leaves it within the buffer. -/
theorem NextToken_progress {code : List Char} {t : Tokenizer} {tok : Token} {t' : Tokenizer}
    (h : NextToken code t = .ok (tok, t')) (hE : tok.Type_ ≠ .Eof) :
    t.m_Current < t'.m_Current ∧ t'.m_Current ≤ code.length := by
  by_cases hc : t.m_Current ≤ code.length
  · have hsplit : code.take t.m_Current ++ code.drop t.m_Current = code :=
      List.take_append_drop _ _
    have hlen : (code.take t.m_Current).length = t.m_Current := List.length_take_of_le hc
    have h' : NextToken (code.take t.m_Current ++ code.drop t.m_Current)
        ⟨t.m_Line, (code.take t.m_Current).length⟩ = .ok (tok, t') := by
      rw [hsplit, hlen]; exact h
    obtain ⟨n, h1, h2, _, _, h5, _⟩ := NextToken_step h' hE
    rw [h5, hlen]
    simp only [List.length_drop] at h2
    constructor
    · show t.m_Current < t.m_Current + (List.takeWhile isTrivia (List.drop t.m_Current code)).length + n
      omega
    · show t.m_Current + (List.takeWhile isTrivia (List.drop t.m_Current code)).length + n ≤ code.length
      omega
  · unfold NextToken at h
    rw [charAt_beyond code _ (by omega)] at h
    simp at h

/-! ## The claims -/

/-- C1: whenever `Tokenize` returns, the stream is non-empty, its last token has
kind `Eof`, and no token before the last has kind `Eof`. -/
theorem Tokenize_stream_ends_with_single_Eof (code : List Char) (ts : List Token)
    (h : Tokenize code = .ok ts) :
    ts ≠ [] ∧ ts.getLast?.map Token.Type_ = some .Eof ∧ ∀ x ∈ ts.dropLast, x.Type_ ≠ .Eof := by
  obtain ⟨front, last, hts, hlast, hfront⟩ := TokenizeLoop_shape code _ _ ts h
  subst hts
  refine ⟨by simp, by simp [hlast], ?_⟩
  intro x hx
  rw [List.dropLast_concat] at hx
  exact hfront x hx

/-- C1 at the source `<`: the stream returned is `[Less, Eof]`. -/
theorem Tokenize_stream_ends_with_single_Eof_witness :
    Tokenize "<".toList = .ok [⟨.Less, 0, "", none⟩, ⟨.Eof, 0, "", none⟩] ∧
      ([⟨.Less, 0, "", none⟩, ⟨.Eof, 0, "", none⟩] : List Token) ≠ [] ∧
      ([⟨.Less, 0, "", none⟩, ⟨.Eof, 0, "", none⟩] : List Token).getLast?.map Token.Type_
        = some .Eof ∧
      ∀ x ∈ ([⟨.Less, 0, "", none⟩, ⟨.Eof, 0, "", none⟩] : List Token).dropLast,
        x.Type_ ≠ .Eof :=
  ⟨by decide, Tokenize_stream_ends_with_single_Eof "<".toList _ (by decide)⟩

/-- C2 (the code departs from the claim): on a source that opens a string and
never closes it the string scanner walks over the terminator and reads the
buffer beyond it; no token stream is returned. -/
theorem Tokenize_unterminated_string_leaves_buffer :
    Tokenize "\"unterminated".toList = .error .outOfBounds ∧
      StringLoop "\"unterminated".toList (fuelFor "\"unterminated".toList)
        { m_Line := 0, m_Current := 1 } = .error .outOfBounds := by
  decide

/-- C3 (the code departs from the claim): on `var pesho = 10` the word `pesho`
is not in the keyword table, `NextToken` falls through to its final `Eof`, and
the stream is `[Var, Eof]`, two tokens instead of five. -/
theorem Tokenize_variable_declaration :
    Tokenize "var pesho = 10".toList
      = .ok [⟨.Var, 0, "var", none⟩, ⟨.Eof, 0, "", none⟩] := by
  decide

/-- C4 (the code departs from the claim): a word that is no keyword yields no
`Identifier` token; the stream for `fortune` and for `pesho` is a single `Eof`. -/
theorem Tokenize_non_keyword_word :
    Tokenize "fortune".toList = .ok [⟨.Eof, 0, "", none⟩] ∧
      Tokenize "pesho".toList = .ok [⟨.Eof, 0, "", none⟩] := by
  decide

/-- C5 (the code departs from the claim): the digit test `c >= '0' && c < '9'`
leaves out `9`, so the stream for `9` is a single `Eof`, while `213434.24`
yields the `Number` token with the binary64 number nearest to that value,
`916693080646615 / 2^32`. -/
theorem Tokenize_number_literals :
    Tokenize "9".toList = .ok [⟨.Eof, 0, "", none⟩] ∧
      Tokenize "213434.24".toList
        = .ok [⟨.Number, 0, "", some (toDouble (mkRat 21343424 100))⟩, ⟨.Eof, 0, "", none⟩] ∧
      toDouble (mkRat 21343424 100) = mkRat 916693080646615 (1 <<< 32) := by
  decide

/-- C6: the table has 33 entries, and for each spelling `k` it maps to a kind
`type`, `Tokenize k` is that kind with lexeme `k`, followed by `Eof`. -/
theorem Tokenize_keyword (k : String) (type : TokenType)
    (h : m_KeyWordsTable.lookup k = some type) :
    m_KeyWordsTable.length = 33 ∧
      Tokenize k.toList = .ok [⟨type, 0, k, none⟩, ⟨.Eof, 0, "", none⟩] := by
  have all : ∀ p ∈ m_KeyWordsTable,
      Tokenize p.1.toList = .ok [⟨p.2, 0, p.1, none⟩, ⟨.Eof, 0, "", none⟩] := by decide
  exact ⟨rfl, all (k, type) (lookup_mem k type _ h)⟩

/-- C6 at the keyword `for`. -/
theorem Tokenize_keyword_witness :
    m_KeyWordsTable.length = 33 ∧
      Tokenize "for".toList = .ok [⟨.For, 0, "for", none⟩, ⟨.Eof, 0, "", none⟩] :=
  Tokenize_keyword "for" .For (by decide)

/-- C7: for every string body `b` without a double quote, `Tokenize` of
`"` `b` `"` is a `String` token whose lexeme is the whole source, both quotes
included, followed by `Eof`. -/
theorem Tokenize_string_literal (b : List Char) (hb : '"' ∉ b) :
    Tokenize ('"' :: b ++ ['"'])
      = .ok [⟨.String, 0, String.mk ('"' :: b ++ ['"']), none⟩, ⟨.Eof, 0, "", none⟩] := by
  have hall : ∀ c ∈ b, notQuote c = true := by
    intro c hc
    simp only [notQuote, bne_iff_ne, ne_eq]
    intro e; subst e; exact hb hc
  have htw : (b ++ ['"']).takeWhile notQuote = b := by
    rw [List.takeWhile_append_of_pos hall]
    simp [List.takeWhile_cons, notQuote]
  have hnall : ¬ ((b ++ ['"']).all notQuote = true) := by
    simp [notQuote]
  have h1 : NextToken ('"' :: (b ++ ['"'])) Tokenizer.init
      = .ok (⟨.String, 0, String.mk ('"' :: b ++ ['"']), none⟩,
          ⟨0, ('"' :: (b ++ ['"'])).length⟩) := by
    rw [NextToken_init _ _ (by decide) (by decide)]
    have := scanToken_quote [] (b ++ ['"']) 0
    simp only [List.nil_append, List.length_nil, Nat.zero_add, htw, if_neg hnall] at this
    rw [this]
    have ht : ('"' :: (b ++ ['"'])).take (b.length + 2) = '"' :: (b ++ ['"']) := by
      apply List.take_of_length_le; simp
    simp only [ht, List.length_cons, List.length_append, List.length_singleton, List.cons_append,
      List.length_nil]
  exact Tokenize_two _ _ _ _ _ h1 (by simp) (NextToken_at_end _ 0) rfl

/-- C7 at the source `"alabala"` of the test `TestString`. -/
theorem Tokenize_string_literal_witness :
    Tokenize "\"alabala\"".toList
      = .ok [⟨.String, 0, "\"alabala\"", none⟩, ⟨.Eof, 0, "", none⟩] :=
  Tokenize_string_literal "alabala".toList (by decide)

/-- C8: for each of the fourteen symbol characters, `Tokenize` of the
one-character source is the kind of the symbol followed by `Eof`. -/
theorem Tokenize_single_symbol (c : Char) (type : TokenType) (h : (c, type) ∈ symbolKinds) :
    symbolKinds.length = 14 ∧
      Tokenize [c] = .ok [⟨type, 0, "", none⟩, ⟨.Eof, 0, "", none⟩] := by
  have all : ∀ p ∈ symbolKinds,
      Tokenize [p.1] = .ok [⟨p.2, 0, "", none⟩, ⟨.Eof, 0, "", none⟩] := by decide
  exact ⟨rfl, all (c, type) h⟩

/-- C8 at the symbol `<`. -/
theorem Tokenize_single_symbol_witness :
    symbolKinds.length = 14 ∧
      Tokenize ['<'] = .ok [⟨.Less, 0, "", none⟩, ⟨.Eof, 0, "", none⟩] :=
  Tokenize_single_symbol '<' .Less (by decide)

/-- C9: for each of `=`, `!`, `>`, `<` and every rest `r` of the source, the
first call of `NextToken` returns the two-character kind and leaves the cursor
at offset 2 when `=` follows, and returns the one-character kind and leaves the
cursor at offset 1 when `r` does not begin with `=`; the stream `Tokenize`
returns begins with that token; and `Tokenize` of `==` is `[EqualEqual, Eof]`. -/
theorem NextToken_maximal_munch (c : Char) (one two : TokenType)
    (h : (c, one, two) ∈ lookaheadKinds) (r : List Char) :
    NextToken (c :: '=' :: r) Tokenizer.init = .ok (⟨two, 0, "", none⟩, ⟨0, 2⟩) ∧
    (r.head? ≠ some '=' →
      NextToken (c :: r) Tokenizer.init = .ok (⟨one, 0, "", none⟩, ⟨0, 1⟩)) ∧
    (∀ ts, Tokenize (c :: '=' :: r) = .ok ts → ts.head? = some ⟨two, 0, "", none⟩) ∧
    (r.head? ≠ some '=' →
      ∀ ts, Tokenize (c :: r) = .ok ts → ts.head? = some ⟨one, 0, "", none⟩) ∧
    Tokenize ['=', '='] = .ok [⟨.EqualEqual, 0, "", none⟩, ⟨.Eof, 0, "", none⟩] := by
  have key : ∀ xs : List Char, NextToken (c :: xs) Tokenizer.init =
      if xs.headD NUL = '=' then .ok (⟨two, 0, "", none⟩, ⟨0, 2⟩)
      else .ok (⟨one, 0, "", none⟩, ⟨0, 1⟩) := by
    intro xs
    obtain ⟨hs, hN, hT⟩ := scanToken_lookahead c one two h (c :: xs) ⟨0, 0⟩
    rw [NextToken_init c xs hN hT, hs]
    exact matchEqual_append [] c xs 0 two one
  have two_chars : NextToken (c :: '=' :: r) Tokenizer.init
      = .ok (⟨two, 0, "", none⟩, ⟨0, 2⟩) := by
    rw [key]; rfl
  have one_char : r.head? ≠ some '=' →
      NextToken (c :: r) Tokenizer.init = .ok (⟨one, 0, "", none⟩, ⟨0, 1⟩) := by
    intro hr
    rw [key, if_neg]
    cases r with
    | nil => decide
    | cons y ys => simpa using hr
  refine ⟨two_chars, one_char, ?_, ?_, by decide⟩
  · intro ts hts
    exact Tokenize_head _ ts _ hts two_chars
  · intro hr ts hts
    exact Tokenize_head _ ts _ hts (one_char hr)

/-- C9 at `<` followed by `=5` and by `5`. -/
theorem NextToken_maximal_munch_witness :
    NextToken "<=5".toList Tokenizer.init = .ok (⟨.LessEqual, 0, "", none⟩, ⟨0, 2⟩) ∧
    NextToken "<5".toList Tokenizer.init = .ok (⟨.Less, 0, "", none⟩, ⟨0, 1⟩) :=
  ⟨(NextToken_maximal_munch '<' .Less .LessEqual (by decide) ['5']).1,
   (NextToken_maximal_munch '<' .Less .LessEqual (by decide) ['5']).2.1 (by decide)⟩

/-- C10, the claim as stated fails: the `Less` token of the source `<` begins
on the first line and carries line 0, not 1.  Moreover the string scanner
passes a newline inside a literal without counting it, so the `Less` token
after such a literal carries line 0 although a newline precedes it, and the
`Eof` token carries 0 after `\n<` but 1 after `<\n`. -/
theorem token_line_not_one_based :
    ¬ (∀ sts, TokenStarts "<".toList = .ok sts →
        ∀ x ∈ sts, x.2.Line = 1 + newlines ("<".toList.take x.1)) ∧
    TokenStarts "\"\n\"<".toList
      = .ok [(0, ⟨.String, 0, "\"\n\"", none⟩), (3, ⟨.Less, 0, "", none⟩),
             (4, ⟨.Eof, 0, "", none⟩)] ∧
    Tokenize "\n<".toList = .ok [⟨.Less, 1, "", none⟩, ⟨.Eof, 0, "", none⟩] ∧
    Tokenize "<\n".toList = .ok [⟨.Less, 0, "", none⟩, ⟨.Eof, 1, "", none⟩] := by
  refine ⟨?_, by decide, by decide, by decide⟩
  intro h
  have h0 := h [(0, ⟨.Less, 0, "", none⟩), (1, ⟨.Eof, 0, "", none⟩)] (by decide)
    (0, ⟨.Less, 0, "", none⟩) (by simp)
  revert h0
  decide

/-- C10, amended: whenever `Tokenize` returns, its tokens begin at the offsets
`TokenStarts` pairs them with; when no lexeme of the stream holds a newline (no
string literal spans lines), the line of every token other than `Eof` is the
0-based line on which it begins, the number of newlines before its first
character; and on a source without newlines every token, `Eof` included, has
line 0. -/
theorem token_line_zero_based (code : List Char) (ts : List Token)
    (h : Tokenize code = .ok ts) :
    ∃ sts : List (Nat × Token), TokenStarts code = .ok sts ∧ sts.map Prod.snd = ts ∧
      ((∀ x ∈ ts, newlines x.Lexeme.data = 0) →
        ∀ (k s : Nat) (tok : Token), sts[k]? = some (s, tok) → tok.Type_ ≠ .Eof →
          tok.Line = newlines (code.take s)) ∧
      (newlines code = 0 → ∀ x ∈ ts, x.Line = 0) := by
  obtain ⟨sts, hS, hmap, hlines⟩ := Tokenize_lines code ts h
  refine ⟨sts, hS, hmap, ?_, ?_⟩
  · intro hlex k s tok hk hE
    have := hlines k s tok hk hE
    rw [lexemeNewlines_eq_zero _ (fun x hx => hlex x (List.mem_of_mem_take hx))] at this
    exact this
  · intro hnl x hx
    exact TokenizeLoop_lines_zero (fuelFor code) [] code ts hnl h x hx

/-- C10, amended, at the source `do` newline blank `(` newline newline `<`:
the tokens `(` and `<` begin at offsets 4 and 7 and carry lines 1 and 3. -/
theorem token_line_zero_based_witness :
    ∃ sts : List (Nat × Token), TokenStarts "do\n (\n\n<".toList = .ok sts ∧
      sts.map Prod.snd
        = [⟨.Do, 0, "do", none⟩, ⟨.LeftParen, 1, "", none⟩, ⟨.Less, 3, "", none⟩,
           ⟨.Eof, 0, "", none⟩] ∧
      ((∀ x ∈ ([⟨.Do, 0, "do", none⟩, ⟨.LeftParen, 1, "", none⟩, ⟨.Less, 3, "", none⟩,
            ⟨.Eof, 0, "", none⟩] : List Token), newlines x.Lexeme.data = 0) →
        ∀ (k s : Nat) (tok : Token), sts[k]? = some (s, tok) → tok.Type_ ≠ .Eof →
          tok.Line = newlines ("do\n (\n\n<".toList.take s)) ∧
      (newlines "do\n (\n\n<".toList = 0 →
        ∀ x ∈ ([⟨.Do, 0, "do", none⟩, ⟨.LeftParen, 1, "", none⟩, ⟨.Less, 3, "", none⟩,
            ⟨.Eof, 0, "", none⟩] : List Token), x.Line = 0) :=
  token_line_zero_based "do\n (\n\n<".toList _ (by decide)

/-- C11 (the code departs from the claim): on every source that opens a string
and holds no further double quote, such as `"unterminated`, the string scanner
reads the buffer beyond its terminator; no `UnterminatedString` condition is
signalled and no stream is returned. -/
theorem unterminated_string_reads_beyond_buffer :
    (∀ b : List Char, '"' ∉ b → Tokenize ('"' :: b) = .error .outOfBounds) ∧
    Tokenize "\"unterminated".toList = .error .outOfBounds ∧
    charAt "\"unterminated".toList 14 = .error .outOfBounds := by
  refine ⟨?_, by decide, by decide⟩
  intro b hb
  show TokenizeLoop ('"' :: b) (('"' :: b).length + 1 + 1) Tokenizer.init = _
  rw [TokenizeLoop_succ, NextToken_unterminated b hb]
  rfl

/-- C12 (the code departs from the claim): a first character that matches no
rule ends the stream at once: `NextToken` returns `Eof` with the cursor still
at offset 0 and `Tokenize` returns the single token `Eof`, whatever follows.
The stream for `@<` holds no `Less` token. -/
theorem unrecognized_character_ends_stream :
    (∀ (c : Char) (rest : List Char), c ≠ NUL → isTrivia c = false →
      (∀ p ∈ symbolKinds, p.1 ≠ c) → ¬ ('0' ≤ c ∧ c < '9') → c ≠ '"' →
      ¬ ('a' ≤ c ∧ c ≤ 'z') →
      NextToken (c :: rest) Tokenizer.init = .ok (⟨.Eof, 0, "", none⟩, ⟨0, 0⟩) ∧
        Tokenize (c :: rest) = .ok [⟨.Eof, 0, "", none⟩]) ∧
    Tokenize "@<".toList = .ok [⟨.Eof, 0, "", none⟩] ∧
    NextToken "@<".toList Tokenizer.init = .ok (⟨.Eof, 0, "", none⟩, ⟨0, 0⟩) := by
  refine ⟨?_, by decide, by decide⟩
  intro c rest hN hT hsym hd hq hw
  have h := NextToken_unrecognized c rest hN hT hsym hd hq hw
  exact ⟨h, Tokenize_one _ _ _ h rfl⟩

/-- C13 (the code departs from the claim): on the sources `@`, `A` and
blank-newline-`@` the run of `Tokenize` returns the single token `Eof` like a
run on an empty source; it raises no fault, and no statement of `Lexer.cpp`
calls the stored callback `OnError`. -/
theorem unrecognized_character_is_silent :
    Tokenize "@".toList = .ok [⟨.Eof, 0, "", none⟩] ∧
    Tokenize "A".toList = .ok [⟨.Eof, 0, "", none⟩] ∧
    Tokenize " \n@".toList = .ok [⟨.Eof, 1, "", none⟩] ∧
    Tokenize "".toList = .ok [⟨.Eof, 0, "", none⟩] := by
  decide

/-- C14, the claim as stated fails: the `Number` token of the source `10` has
the empty lexeme, not the text `10` the number scanner took. -/
theorem number_lexeme_not_consumed_text :
    ¬ (∀ ts, Tokenize "10".toList = .ok ts →
        ∀ x ∈ ts, x.Type_ = .Number → x.Lexeme = "10") := by
  intro h
  have h0 := h [⟨.Number, 0, "", some 10⟩, ⟨.Eof, 0, "", none⟩] (by decide)
    ⟨.Number, 0, "", some 10⟩ (by simp) rfl
  revert h0
  decide

/-- C14, amended: every `Number` token of a stream `Tokenize` returns has the
empty lexeme. -/
theorem number_lexeme_empty (code : List Char) (ts : List Token)
    (h : Tokenize code = .ok ts) : ∀ x ∈ ts, x.Type_ = .Number → x.Lexeme = "" := by
  refine TokenizeLoop_all code (fun tok => tok.Type_ = .Number → tok.Lexeme = "") ?_ _ _ ts h
  intro t tok t' hN
  rcases NextToken_cases hN with rfl | ⟨t1, c, hs⟩
  · intro _; rfl
  · exact scanToken_lexeme hs

/-- C14, amended, at the source `10`. -/
theorem number_lexeme_empty_witness :
    Tokenize "10".toList = .ok [⟨.Number, 0, "", some 10⟩, ⟨.Eof, 0, "", none⟩] ∧
    ∀ x ∈ ([⟨.Number, 0, "", some 10⟩, ⟨.Eof, 0, "", none⟩] : List Token),
      x.Type_ = .Number → x.Lexeme = "" :=
  ⟨by decide, number_lexeme_empty "10".toList _ (by decide)⟩

/-- C15, the claim as stated fails: on the source `"a\"b"` the `String` token
is `"a\"`, not the whole source; and on the source `"\""` the quote after the
backslash closes the literal and the final quote opens one that is never
closed, so the scanner leaves the buffer. -/
theorem escaped_quote_closes_string :
    ¬ (∃ tok eof, Tokenize "\"a\\\"b\"".toList = .ok [tok, eof] ∧ tok.Type_ = .String ∧
        tok.Lexeme = "\"a\\\"b\"" ∧ eof.Type_ = .Eof) ∧
    Tokenize "\"a\\\"b\"".toList
      = .ok [⟨.String, 0, "\"a\\\"", none⟩, ⟨.Eof, 0, "", none⟩] ∧
    Tokenize "\"\\\"\"".toList = .error .outOfBounds := by
  have h : Tokenize "\"a\\\"b\"".toList
      = .ok [⟨.String, 0, "\"a\\\"", none⟩, ⟨.Eof, 0, "", none⟩] := by decide
  refine ⟨?_, h, by decide⟩
  rw [h]
  rintro ⟨tok, eof, he, _, hl, _⟩
  simp only [Except.ok.injEq, List.cons.injEq, and_true] at he
  rw [← he.1] at hl
  revert hl
  decide

/-- C15, amended: the string scanner knows no escape; for every source made of
an opening double quote, a text `a` without double quote, a backslash, a double
quote, any text `b` and a closing double quote, the first call of `NextToken`
returns the `String` token whose lexeme runs from the opening quote to the quote
after the backslash, and leaves the cursor before `b`; every stream `Tokenize`
returns on such a source begins with this token. -/
theorem string_ends_at_first_quote (a b : List Char) (ha : '"' ∉ a) :
    NextToken ('"' :: a ++ '\\' :: '"' :: b ++ ['"']) Tokenizer.init
      = .ok (⟨.String, 0, String.mk ('"' :: a ++ ['\\', '"']), none⟩, ⟨0, a.length + 3⟩) ∧
    ∀ ts, Tokenize ('"' :: a ++ '\\' :: '"' :: b ++ ['"']) = .ok ts →
      ts.head? = some ⟨.String, 0, String.mk ('"' :: a ++ ['\\', '"']), none⟩ := by
  have ha' : '"' ∉ a ++ ['\\'] := by
    simp only [List.mem_append, List.mem_singleton, not_or]
    exact ⟨ha, by decide⟩
  have h := NextToken_string (a ++ ['\\']) (b ++ ['"']) ha'
  have e1 : '"' :: (a ++ ['\\']) ++ '"' :: (b ++ ['"']) = '"' :: a ++ '\\' :: '"' :: b ++ ['"'] := by
    simp
  have e2 : '"' :: (a ++ ['\\']) ++ ['"'] = '"' :: a ++ ['\\', '"'] := by simp
  have e3 : (a ++ ['\\']).length + 2 = a.length + 3 := by simp
  rw [e1, e2, e3] at h
  refine ⟨h, ?_⟩
  intro ts hts
  exact Tokenize_head _ ts _ hts h

/-- C15, amended, at the source `"a\"b"`. -/
theorem string_ends_at_first_quote_witness :
    NextToken ('"' :: "a".toList ++ '\\' :: '"' :: "b".toList ++ ['"']) Tokenizer.init
      = .ok (⟨.String, 0, String.mk ('"' :: "a".toList ++ ['\\', '"']), none⟩,
          ⟨0, "a".toList.length + 3⟩) ∧
    ∀ ts, Tokenize ('"' :: "a".toList ++ '\\' :: '"' :: "b".toList ++ ['"']) = .ok ts →
      ts.head? = some ⟨.String, 0, String.mk ('"' :: "a".toList ++ ['\\', '"']), none⟩ :=
  string_ends_at_first_quote "a".toList "b".toList (by decide)

/-- C16: for every source `w` of lowercase letters `Tokenize` returns, and the
first token has the kind of a keyword exactly when the whole of `w` is a
spelling of the keyword table; in particular, when `w` is a keyword `k`
followed by a non-empty text and is itself no keyword, the first token does
not have the kind of `k`. -/
theorem word_scanner_looks_up_whole_run (w : List Char) (hw : ∀ c ∈ w, 'a' ≤ c ∧ c ≤ 'z') :
    ∃ tok rest, Tokenize w = .ok (tok :: rest) ∧
      (tok.Type_ ∈ m_KeyWordsTable.map Prod.snd
        ↔ String.mk w ∈ m_KeyWordsTable.map Prod.fst) ∧
      (∀ (k : String) (type : TokenType), m_KeyWordsTable.lookup k = some type →
        (∃ t, t ≠ [] ∧ w = k.data ++ t) → String.mk w ∉ m_KeyWordsTable.map Prod.fst →
        tok.Type_ ≠ type) := by
  have hEof : TokenType.Eof ∉ m_KeyWordsTable.map Prod.snd := by decide
  have key : ∃ tok rest, Tokenize w = .ok (tok :: rest) ∧
      (tok.Type_ ∈ m_KeyWordsTable.map Prod.snd
        ↔ String.mk w ∈ m_KeyWordsTable.map Prod.fst) := by
    cases w with
    | nil => exact ⟨eofAtTerminator, [], rfl, by decide⟩
    | cons x xs =>
      have hlow : ∀ c ∈ x :: xs, isLower c = true := by
        intro c hc
        simpa [isLower] using hw c hc
      have hN := NextToken_word x xs hlow
      cases hlk : m_KeyWordsTable.lookup (String.mk (x :: xs)) with
      | none =>
        rw [hlk] at hN
        refine ⟨⟨.Eof, 0, "", none⟩, [], Tokenize_one _ _ _ hN rfl, ?_⟩
        exact ⟨fun h => absurd h hEof, fun h => absurd h (lookup_none_not_mem _ _ hlk)⟩
      | some type =>
        rw [hlk] at hN
        have hmem := lookup_mem _ _ _ hlk
        have hne : type ≠ .Eof := by
          intro e
          exact hEof (e ▸ List.mem_map_of_mem Prod.snd hmem)
        refine ⟨⟨type, 0, String.mk (x :: xs), none⟩, [eofAtTerminator],
          Tokenize_two _ _ _ _ _ hN hne (NextToken_at_end _ 0) rfl, ?_⟩
        exact ⟨fun _ => List.mem_map_of_mem Prod.fst hmem,
          fun _ => List.mem_map_of_mem Prod.snd hmem⟩
  obtain ⟨tok, rest, hT, hiff⟩ := key
  refine ⟨tok, rest, hT, hiff, ?_⟩
  intro k type hk _ hnot e
  exact hnot (hiff.mp (e ▸ List.mem_map_of_mem Prod.snd (lookup_mem _ _ _ hk)))

/-- C16 at the source `fortune`: the keyword `for` followed by `tune`. -/
theorem word_scanner_looks_up_whole_run_witness :
    ∃ tok rest, Tokenize "fortune".toList = .ok (tok :: rest) ∧
      (tok.Type_ ∈ m_KeyWordsTable.map Prod.snd
        ↔ String.mk "fortune".toList ∈ m_KeyWordsTable.map Prod.fst) ∧
      (∀ (k : String) (type : TokenType), m_KeyWordsTable.lookup k = some type →
        (∃ t, t ≠ [] ∧ "fortune".toList = k.data ++ t) →
        String.mk "fortune".toList ∉ m_KeyWordsTable.map Prod.fst →
        tok.Type_ ≠ type) :=
  word_scanner_looks_up_whole_run "fortune".toList (by decide)

/-- C17: for every text `w` of blanks, tabs and newlines and every source `s`,
`Tokenize (w ++ s)` and `Tokenize s` stop at the same fault or return streams
of the same length that agree position by position on kind, lexeme and numeric
value; and `Tokenize w` is a single `Eof` token. -/
theorem leading_trivia_emits_no_tokens (w s : List Char)
    (hw : ∀ c ∈ w, c = ' ' ∨ c = '\t' ∨ c = '\n') :
    (∀ e, Tokenize (w ++ s) = .error e ↔ Tokenize s = .error e) ∧
    (∀ ts' ts, Tokenize (w ++ s) = .ok ts' → Tokenize s = .ok ts →
      ts'.length = ts.length ∧
        ∀ (k : Nat) (a b : Token), ts'[k]? = some a → ts[k]? = some b →
          a.Type_ = b.Type_ ∧ a.Lexeme = b.Lexeme ∧ a.Number = b.Number) ∧
    (∃ e, Tokenize w = .ok [e] ∧ e.Type_ = .Eof) := by
  have hs := Tokenize_leading_trivia w s (isTrivia_of_blank_tab_newline hw)
  have h0 := Tokenize_leading_trivia w [] (isTrivia_of_blank_tab_newline hw)
  refine ⟨?_, ?_, ?_⟩
  · intro e
    cases h1 : Tokenize (w ++ s) with
    | error e1 =>
      cases h2 : Tokenize s with
      | error e2 =>
        rw [h1, h2] at hs
        have : e1 = e2 := hs
        subst this
        exact Iff.rfl
      | ok ts => rw [h1, h2] at hs; exact absurd hs (fun h => h)
    | ok ts' =>
      cases h2 : Tokenize s with
      | error e2 => rw [h1, h2] at hs; exact absurd hs (fun h => h)
      | ok ts => simp
  · intro ts' ts h1 h2
    rw [h1, h2] at hs
    have hf : List.Forall₂ (SameContent (newlines w)) ts' ts := hs
    refine ⟨hf.length_eq, ?_⟩
    intro k a b ha hb
    obtain ⟨c1, c2, c3, _⟩ := forall₂_getElem? hf k a b ha hb
    exact ⟨c1, c2, c3⟩
  · rw [List.append_nil] at h0
    have hnil : Tokenize [] = .ok [eofAtTerminator] := rfl
    rw [hnil] at h0
    cases h1 : Tokenize w with
    | error e1 => rw [h1] at h0; exact absurd h0 (fun h => h)
    | ok ts' =>
      rw [h1] at h0
      have hf : List.Forall₂ (SameContent (newlines w)) ts' [eofAtTerminator] := h0
      cases hf with
      | cons hab htl =>
        cases htl
        exact ⟨_, rfl, hab.1⟩

/-- C17 at three leading characters before `< for`. -/
theorem leading_trivia_emits_no_tokens_witness :
    (∀ e, Tokenize (" \n\t".toList ++ "< for".toList) = .error e
        ↔ Tokenize "< for".toList = .error e) ∧
    (∀ ts' ts, Tokenize (" \n\t".toList ++ "< for".toList) = .ok ts' →
      Tokenize "< for".toList = .ok ts →
      ts'.length = ts.length ∧
        ∀ (k : Nat) (a b : Token), ts'[k]? = some a → ts[k]? = some b →
          a.Type_ = b.Type_ ∧ a.Lexeme = b.Lexeme ∧ a.Number = b.Number) ∧
    (∃ e, Tokenize " \n\t".toList = .ok [e] ∧ e.Type_ = .Eof) :=
  leading_trivia_emits_no_tokens " \n\t".toList "< for".toList (by decide)

/-- C18: for every text `w` of blanks, tabs and newlines and every source `s`
on which `Tokenize` returns, `Tokenize (w ++ s)` returns a stream of the same
length, and each of its tokens other than `Eof` has the line of the token at
the same position of `Tokenize s` plus the number of newlines of `w`. -/
theorem line_counter_counts_skipped_newlines (w s : List Char) (ts : List Token)
    (hw : ∀ c ∈ w, c = ' ' ∨ c = '\t' ∨ c = '\n') (h : Tokenize s = .ok ts) :
    ∃ ts', Tokenize (w ++ s) = .ok ts' ∧ ts'.length = ts.length ∧
      ∀ (k : Nat) (a b : Token), ts'[k]? = some a → ts[k]? = some b →
        a.Type_ ≠ .Eof → a.Line = b.Line + w.count '\n' := by
  have hs := Tokenize_leading_trivia w s (isTrivia_of_blank_tab_newline hw)
  rw [h] at hs
  cases h1 : Tokenize (w ++ s) with
  | error e1 => rw [h1] at hs; exact absurd hs (fun h => h)
  | ok ts' =>
    rw [h1] at hs
    have hf : List.Forall₂ (SameContent (newlines w)) ts' ts := hs
    refine ⟨ts', rfl, hf.length_eq, ?_⟩
    intro k a b ha hb hE
    exact (forall₂_getElem? hf k a b ha hb).2.2.2 hE

/-- C18 at a leading text with two newlines before `< for`. -/
theorem line_counter_counts_skipped_newlines_witness :
    ∃ ts', Tokenize ("\n \n\t".toList ++ "< for".toList) = .ok ts' ∧
      ts'.length = ([⟨.Less, 0, "", none⟩, ⟨.For, 0, "for", none⟩, ⟨.Eof, 0, "", none⟩] :
        List Token).length ∧
      ∀ (k : Nat) (a b : Token), ts'[k]? = some a →
        ([⟨.Less, 0, "", none⟩, ⟨.For, 0, "for", none⟩, ⟨.Eof, 0, "", none⟩] :
          List Token)[k]? = some b →
        a.Type_ ≠ .Eof → a.Line = b.Line + "\n \n\t".toList.count '\n' :=
  line_counter_counts_skipped_newlines "\n \n\t".toList "< for".toList _ (by decide) (by decide)

/-- C19, the claim as stated fails: on the source `10.` no error is signalled
and no `Dot` token is returned; the first call of `NextToken` returns the
`Number` token and leaves the cursor at offset 3, after the point, and the
stream is `[Number, Eof]`. -/
theorem trailing_point_is_consumed :
    ¬ ((∃ e, Tokenize "10.".toList = .error e) ∨
        (∃ n dot eof, Tokenize "10.".toList = .ok [n, dot, eof] ∧ dot.Type_ = .Dot)) ∧
    NextToken "10.".toList Tokenizer.init = .ok (⟨.Number, 0, "", some 10⟩, ⟨0, 3⟩) ∧
    Tokenize "10.".toList = .ok [⟨.Number, 0, "", some 10⟩, ⟨.Eof, 0, "", none⟩] := by
  have h : Tokenize "10.".toList = .ok [⟨.Number, 0, "", some 10⟩, ⟨.Eof, 0, "", none⟩] := by
    decide
  refine ⟨?_, by decide, h⟩
  rw [h]
  rintro (⟨e, he⟩ | ⟨n, dot, eof, he, _⟩)
  · simp at he
  · simp at he

/-- C19, amended: for every non-empty digit string `d` whose first digit is not
`9` and whose value is below `2^1024 - 2^970`, the least value `std::stod`
reports as out of range, `Tokenize (d ++ ".")` is the `Number` token followed by
`Eof`: the trailing point is converted with the digits.  The value of the token
is the binary64 number nearest to the value of `d`, ties to the even
significand; it is the value of `d` itself when that is at most `2^53`. -/
theorem number_with_trailing_point (d : List Char) (hd : d ≠ [])
    (hdig : ∀ c ∈ d, '0' ≤ c ∧ c ≤ '9') (h9 : d.head? ≠ some '9')
    (hr : digitsValue 10 d < (1 <<< 1024) - (1 <<< 970)) :
    Tokenize (d ++ ['.'])
        = .ok [⟨.Number, 0, "", some (toDouble (digitsValue 10 d : ℚ))⟩, ⟨.Eof, 0, "", none⟩] ∧
      (digitsValue 10 d ≤ 1 <<< 53 →
        toDouble (digitsValue 10 d : ℚ) = (digitsValue 10 d : ℚ)) := by
  refine ⟨?_, toDouble_natCast _⟩
  cases d with
  | nil => exact absurd rfl hd
  | cons x ds =>
    have hdec : ∀ c ∈ x :: ds, decDigit c = true := by
      intro c hc
      simpa [decDigit] using hdig c hc
    have hx := hdig x (List.mem_cons_self _ _)
    have hx9 : x < '9' := by
      refine lt_of_le_of_ne hx.2 ?_
      intro e; subst e; exact h9 rfl
    have hxd : decDigit x = true := hdec x (List.mem_cons_self _ _)
    have hsym : ∀ p ∈ symbolKinds, p.1 ≠ x := by
      have all : ∀ p ∈ symbolKinds, ¬ decDigit p.1 = true := by decide
      intro p hp e
      exact all p hp (e ▸ hxd)
    have hN : x ≠ NUL := by intro e; subst e; exact absurd hxd (by decide)
    have hT : isTrivia x = false := by
      cases hT : isTrivia x with
      | false => rfl
      | true =>
        simp only [isTrivia, Bool.or_eq_true, decide_eq_true_eq] at hT
        rcases hT with (rfl | rfl) | rfl <;> exact absurd hxd (by decide)
    have hcstr : (x :: (ds ++ ['.'])).takeWhile (fun c => c != NUL) = x :: (ds ++ ['.']) := by
      apply takeWhile_eq_self_of_all
      intro c hc
      rw [← List.cons_append, List.mem_append] at hc
      rcases hc with hc | hc
      · rw [bne_iff_ne]; intro e; subst e; exact absurd (hdec _ hc) (by decide)
      · simp only [List.mem_singleton] at hc
        subst hc; decide
    have hlit := scanLiteral_append [] x (ds ++ ['.']) 0
    simp only [List.nil_append, List.length_nil] at hlit
    have h1 : NextToken (x :: ds ++ ['.']) Tokenizer.init
        = .ok (⟨.Number, 0, "", some (toDouble (digitsValue 10 (x :: ds) : ℚ))⟩,
            ⟨0, (x :: ds ++ ['.']).length⟩) := by
      rw [List.cons_append, NextToken_init x _ hN hT, scanToken_of_not_symbol _ _ _ hsym, hlit]
      unfold literalAt
      rw [if_pos ⟨hx.1, hx9⟩, hcstr, ← List.cons_append, stod_trailing_point x ds hdec hr]
      simp
    exact Tokenize_two _ _ _ _ _ h1 (by simp) (NextToken_at_end _ 0) rfl

/-- C19, amended, at the digit string `18014398509481985`, which writes
`2^54 + 1`: the value of the token is `2^54`. -/
theorem number_with_trailing_point_witness :
    (Tokenize ("18014398509481985".toList ++ ['.'])
        = .ok [⟨.Number, 0, "", some (toDouble (digitsValue 10 "18014398509481985".toList : ℚ))⟩,
            ⟨.Eof, 0, "", none⟩] ∧
      (digitsValue 10 "18014398509481985".toList ≤ 1 <<< 53 →
        toDouble (digitsValue 10 "18014398509481985".toList : ℚ)
          = (digitsValue 10 "18014398509481985".toList : ℚ))) ∧
    toDouble (digitsValue 10 "18014398509481985".toList : ℚ) = 18014398509481984 :=
  ⟨number_with_trailing_point "18014398509481985".toList (by decide) (by decide) (by decide)
    (by decide), by decide⟩

/-- C20: every token other than `Eof` that `NextToken` returns takes at least
one character of the source; and for every source `s` with an even number of
double quotes the run of `Tokenize` never leaves the buffer (its only fault is
the exception `std::out_of_range` of `std::stod`), and the stream it returns
has at most `s.length + 1` tokens. -/
theorem token_count_bounded (s : List Char) (hq : s.count '"' % 2 = 0) :
    (∀ t tok t', NextToken s t = .ok (tok, t') → tok.Type_ ≠ .Eof →
      t.m_Current < t'.m_Current) ∧
    (∀ e, Tokenize s = .error e → e = .outOfRange) ∧
    (∀ ts, Tokenize s = .ok ts → ts.length ≤ s.length + 1) := by
  refine ⟨?_, ?_, ?_⟩
  · intro t tok t' h hE
    exact (NextToken_progress h hE).1
  · intro e h
    exact TokenizeLoop_error (fuelFor s) [] s 0 e (by simp [fuelFor]) hq h
  · intro ts h
    exact TokenizeLoop_length (fuelFor s) [] s 0 ts h

/-- C20 at the source `"a" < 10`, which has two double quotes: the stream has
four tokens. -/
theorem token_count_bounded_witness :
    Tokenize "\"a\" < 10".toList
      = .ok [⟨.String, 0, "\"a\"", none⟩, ⟨.Less, 0, "", none⟩, ⟨.Number, 0, "", some 10⟩,
             ⟨.Eof, 0, "", none⟩] ∧
    ([⟨.String, 0, "\"a\"", none⟩, ⟨.Less, 0, "", none⟩, ⟨.Number, 0, "", some 10⟩,
      ⟨.Eof, 0, "", none⟩] : List Token).length ≤ "\"a\" < 10".toList.length + 1 :=
  ⟨by decide, (token_count_bounded "\"a\" < 10".toList (by decide)).2.2 _ (by decide)⟩

end IPL
